import Mathlib

/-!
# Verification of the gitoxide in-memory tree editor (`gix-object/src/tree/editor.rs`)

This file gives a shallow embedding of the tree-editor module and proves the
frozen claims about it.

Modelling decisions, mirroring the source:

* Filenames and paths are byte strings, modelled as `List Nat` (one `Nat` per
  byte; the byte of interest is the slash, 47).
* `ObjectId` (from the external `gix-hash` crate) is an opaque identifier with
  the two sentinels the editor uses: the null id and the empty-tree id.  All
  other ids are abstract values `ObjectId.oid n`.
* The pending-tree store is a `HashMap<ObjectId, Tree>` in the source, keyed by
  the SHA1 digest of the path bytes (`path_hash`, via the external
  `gix-features` crate).  SHA1 is not part of this repository's sources; the
  spec documents the digest as a key that is unique per path up to accepted
  collision risk.  We model `path_hash` as an injective digest, i.e. the key
  is the path byte string itself, and the store is an association list.
* The tree-finder capability `find_tree` is a function `ObjectId → Option Tree`
  (`none` models both the not-found and the decode error, which the editor
  propagates unchanged).
* The sink passed to `write` is modelled as a pure total function
  `Tree → ObjectId`; the claims under study assume the sink returns without
  error.
* `debug_assert!`/`assert!`/`expect` failures (panics) are modelled as `none`
  results; the claims only concern non-panicking executions.
-/

namespace Gix

/-! ## Basic data model -/

/-- A filename: a raw byte string (the source uses `BString`). -/
abbrev FName := List Nat

/-- A path key: the byte string of a `/`-separated relative path.  In the
source this is hashed with SHA1 (`path_hash`) to key the pending-tree store;
we model the digest injectively by the path bytes themselves. -/
abbrev PathKey := List Nat

/-- Object identifiers, as used by the editor: the null sentinel
(`ObjectId::null`), the empty-tree sentinel (`ObjectId::empty_tree`) and
arbitrary other ids. -/
inductive ObjectId where
  | null : ObjectId
  | emptyTree : ObjectId
  | oid : Nat → ObjectId
deriving DecidableEq, Repr

/-- `ObjectId::is_null`. -/
def ObjectId.is_null : ObjectId → Bool
  | .null => true
  | _ => false

/-- `ObjectId::is_empty_tree`. -/
def ObjectId.is_empty_tree : ObjectId → Bool
  | .emptyTree => true
  | _ => false

/-- `tree::EntryKind`.  Only the `Tree` / non-`Tree` distinction matters to the
editor; the non-tree kinds are carried for faithfulness. -/
inductive EntryKind where
  | Tree : EntryKind
  | Blob : EntryKind
  | BlobExecutable : EntryKind
  | Link : EntryKind
  | Commit : EntryKind
deriving DecidableEq, Repr

/-- `EntryMode::is_tree`; the conversion `EntryKind → EntryMode` is total and
faithful, so we identify modes with kinds. -/
def EntryKind.is_tree : EntryKind → Bool
  | .Tree => true
  | _ => false

/-- `tree::Entry`: `(filename, mode, identifier)`. -/
structure TreeEntry where
  filename : FName
  mode : EntryKind
  oid : ObjectId
deriving DecidableEq, Repr

instance : Inhabited TreeEntry := ⟨⟨[], .Blob, .null⟩⟩

/-- `Tree`: an ordered sequence of entries. -/
structure Tree where
  entries : List TreeEntry
deriving DecidableEq, Repr

/-- `Tree::default()`: the empty tree. -/
def Tree.default : Tree := ⟨[]⟩

instance : Inhabited Tree := ⟨Tree.default⟩

/-! ## The entry comparison (`cmp_entry_with_name`) -/

/-- Byte comparison (Rust `u8: Ord`). -/
def byteCmp (a b : Nat) : Ordering :=
  if a < b then .lt else if a = b then .eq else .gt

/-- Lexicographic byte-string comparison (Rust `[u8]: Ord`). -/
def listCmp : List Nat → List Nat → Ordering
  | [], [] => .eq
  | [], _ :: _ => .lt
  | _ :: _, [] => .gt
  | a :: as_, b :: bs => (byteCmp a b).then (listCmp as_ bs)

/-- `Option<&u8>: Ord` (Rust: `None < Some _`). -/
def optByteCmp : Option Nat → Option Nat → Ordering
  | none, none => .eq
  | none, some _ => .lt
  | some _, none => .gt
  | some a, some b => byteCmp a b

/-- `o.or_else(|| t.then_some(&b'/'))`: fall back to a synthetic `/` byte when
the side is tree-kind. -/
def slashExt (o : Option Nat) (t : Bool) : Option Nat :=
  match o with
  | some x => some x
  | none => if t then some 47 else none

/-- `cmp_entry_with_name` from the source, verbatim: compare the two filenames
over their common prefix, then compare the byte following the common prefix on
each side, where an exhausted side contributes a synthetic `/` iff it is
tree-kind. -/
def cmp_entry_with_name (a : TreeEntry) (filename : FName) (is_tree : Bool) : Ordering :=
  let common := min a.filename.length filename.length
  (listCmp (a.filename.take common) (filename.take common)).then
    (optByteCmp (slashExt (a.filename.get? common) a.mode.is_tree)
      (slashExt (filename.get? common) is_tree))

/-- Modelled from the spec (section 4.1): the full order on entries used for
`Vec::sort` in `upsert_or_remove`.  The `Ord for tree::Entry` impl lives in
`gix-object/src/tree/mod.rs`, which is not among the provided sources; the
spec states that the same trailing-slash order is applied for the full
re-sort, i.e. an entry is compared against the other entry's
`(filename, is_tree)` pair. -/
def cmp_entries (a b : TreeEntry) : Ordering :=
  cmp_entry_with_name a b.filename b.mode.is_tree

/-- The comparison recursively, for proofs: walk the common prefix, then do the
single extended-byte comparison. -/
def cmpCore : List Nat → Bool → List Nat → Bool → Ordering
  | [], at_, [], bt => optByteCmp (if at_ then some 47 else none) (if bt then some 47 else none)
  | [], at_, b :: _, _ => optByteCmp (if at_ then some 47 else none) (some b)
  | a :: _, _, [], bt => optByteCmp (some a) (if bt then some 47 else none)
  | a :: as_, at_, b :: bs, bt => (byteCmp a b).then (cmpCore as_ at_ bs bt)

/-- The specification order of claim C1: append a synthetic `/` to a tree-kind
name. -/
def decorate (f : FName) (t : Bool) : List Nat :=
  f ++ (if t then [47] else [])

/-- The specification order of claim C1 (section 4.1 of the spec, read
literally): compare the decorated names bytewise-lexicographically. -/
def specEntryOrder (f : FName) (ft : Bool) (g : FName) (gt_ : Bool) : Ordering :=
  listCmp (decorate f ft) (decorate g gt_)

/-- Rank of an `Ordering`, to express monotone classification along a sorted
list. -/
def ordRank : Ordering → Nat
  | .lt => 0
  | .eq => 1
  | .gt => 2

/-! ## Rust `slice::binary_search_by` -/

/-- Result of `binary_search_by`: `Ok(found index)` or `Err(insertion index)`. -/
inductive SearchResult where
  | found : Nat → SearchResult
  | notFound : Nat → SearchResult
deriving DecidableEq, Repr

/-- The classic Rust binary-search loop: interval `[left, right)`, midpoint
probe, narrowing by the probe's ordering.  The structural fuel keeps the
definition kernel-reducible; the interval shrinks by at least one element per
iteration, so any fuel `≥ right - left` gives the loop's exact behaviour. -/
def bsGo (f : TreeEntry → Ordering) (l : List TreeEntry) : Nat → Nat → Nat → SearchResult
  | 0, left, _ => .notFound left
  | fuel + 1, left, right =>
    if left < right then
      let mid := left + (right - left) / 2
      match f ((l.get? mid).getD default) with
      | .lt => bsGo f l fuel (mid + 1) right
      | .gt => bsGo f l fuel left mid
      | .eq => .found mid
    else .notFound left

/-- `slice::binary_search_by` over the whole list. -/
def binary_search_by (l : List TreeEntry) (f : TreeEntry → Ordering) : SearchResult :=
  bsGo f l l.length 0 l.length

/-- Monotone classification of a list against a probe function: ranks of the
probe results never decrease along the list. -/
def MonoClass (f : TreeEntry → Ordering) (l : List TreeEntry) : Prop :=
  ∀ i j e1 e2, i ≤ j → l.get? i = some e1 → l.get? j = some e2 →
    ordRank (f e1) ≤ ordRank (f e2)

/-! ## Pending-tree store

The source keeps `trees: HashMap<ObjectId, Tree>` keyed by the SHA1 hash of
the path bytes; we key by the path bytes themselves (injective digest model)
and use an association list. -/

abbrev Store := List (PathKey × Tree)

/-- `HashMap::get` (`get_mut` reads the same binding). -/
def Store.find? : Store → PathKey → Option Tree
  | [], _ => none
  | (k, t) :: st, q => if k = q then some t else Store.find? st q

/-- Write back through a mutable binding: replace the value at an existing
key.  All call sites only use this on keys that are present. -/
def Store.update : Store → PathKey → Tree → Store
  | [], k, t => [(k, t)]
  | (k', t') :: st, k, t => if k' = k then (k, t) :: st else (k', t') :: Store.update st k t

/-- `HashMap::remove`. -/
def Store.erase : Store → PathKey → Store
  | [], _ => []
  | (k', t') :: st, k => if k' = k then st else (k', t') :: Store.erase st k

/-- `Entry::Vacant(e) => e.insert(..)`: add a binding for an absent key. -/
def Store.insert (st : Store) (k : PathKey) (t : Tree) : Store :=
  (k, t) :: st

def Store.keys (st : Store) : List PathKey :=
  st.map (fun kv => kv.1)

/-! ## Path utilities -/

/-- `push_path_component`: append `/` (when the base is non-empty) and then
the component. -/
def push_path_component (base : PathKey) (component : FName) : PathKey :=
  base ++ (if base.isEmpty then [] else [47]) ++ component

/-- `filename`: the portion of a path after the last `/` (the whole path when
it has no `/`). -/
def filename (path : PathKey) : FName :=
  (path.reverse.takeWhile (fun b => b ≠ 47)).reverse

/-- Ancestor test on relative paths, boolean form: `p` is a strict ancestor of
`q` when `q` extends `p` by at least one `/`-separated component (the root
path `[]` is an ancestor of every non-empty path). -/
def hasPrefAux : List Nat → List Nat → Bool
  | [], _ => true
  | _ :: _, [] => false
  | a :: as_, b :: bs => a == b && hasPrefAux as_ bs

/-- `p` strictly contains the path `q` (i.e. `q` lies inside the subtree at
`p`). -/
def strictAnc (p q : PathKey) : Prop :=
  ((decide (p = []) && decide (q ≠ [])) || hasPrefAux (p ++ [47]) q) = true

instance (p q : PathKey) : Decidable (strictAnc p q) := by
  unfold strictAnc
  infer_instance

def ancEq (p q : PathKey) : Prop :=
  p = q ∨ strictAnc p q

/-! ## Sorting (`Vec::sort` on entries)

`Vec::sort` is a stable sort by `Ord for tree::Entry` (see `cmp_entries`).  We
model it as insertion sort; on entry lists whose decorated names are pairwise
distinct — which is the case wherever the editor sorts, given trees with
unique, slash-free filenames — every sort agrees with it, so stability does
not matter for the claims. -/

def insertEntry (e : TreeEntry) : List TreeEntry → List TreeEntry
  | [] => [e]
  | x :: xs => if cmp_entries x e = .gt then e :: x :: xs else x :: insertEntry e xs

def sortEntries (l : List TreeEntry) : List TreeEntry :=
  l.foldr insertEntry []

/-! ## `upsert_or_remove` -/

/-- The two-probe search of `upsert_or_remove`: search the candidate first as
non-tree, then as tree; on a double miss choose the insertion index according
to `current_level_must_be_tree`. -/
def entrySearch (entries : List TreeEntry) (name : FName) (clmbt : Bool) : SearchResult :=
  match binary_search_by entries (fun e => cmp_entry_with_name e name false) with
  | .found i => .found i
  | .notFound file_insertion_idx =>
    match binary_search_by entries (fun e => cmp_entry_with_name e name true) with
    | .found i => .found i
    | .notFound dir_insertion_index =>
      .notFound (if clmbt then dir_insertion_index else file_insertion_idx)

/-- Control flow of one loop iteration of `upsert_or_remove`: `stop b` models
`break` (with `b` recording whether an entry was removed, for claim C7), and
`descend tree_to_lookup` models falling through to the cursor advance. -/
inductive StepCtl where
  | stop : Bool → StepCtl
  | descend : Option ObjectId → StepCtl
deriving DecidableEq, Repr

/-- The body of the `upsert_or_remove` loop for one component `name`, acting
on the cursor tree: the `match` over the two-probe search result in the
source, returning the updated cursor (the source mutates it in place) and the
control decision.  The final `if needs_sorting { cursor.entries.sort() }` is
folded into the branches that can set `needs_sorting` (the `break`s inside
the match arms skip it in the source, and in those branches it is false). -/
def uorStep (cursor : Tree) (name : FName) (is_last : Bool)
    (kind_and_id : Option (EntryKind × ObjectId)) (new_kind_is_tree : Bool) :
    Tree × StepCtl :=
  let current_level_must_be_tree := !is_last || new_kind_is_tree
  match entrySearch cursor.entries name current_level_must_be_tree with
  | .found idx =>
    match kind_and_id with
    | none =>
      if is_last then (⟨cursor.entries.eraseIdx idx⟩, .stop true)
      else
        let entry := (cursor.entries.get? idx).getD default
        if entry.mode.is_tree then (cursor, .descend (some entry.oid))
        else (cursor, .stop false)
    | some (kind, id) =>
      let entry := (cursor.entries.get? idx).getD default
      if is_last then
        let needs_sorting := entry.mode.is_tree != current_level_must_be_tree
        let entries' := cursor.entries.set idx ⟨entry.filename, kind, id⟩
        (⟨if needs_sorting then sortEntries entries' else entries'⟩, .stop false)
      else if entry.mode.is_tree then
        (cursor, .descend (some entry.oid))
      else
        let needs_sorting := entry.mode.is_tree != current_level_must_be_tree
        let entries' := cursor.entries.set idx ⟨entry.filename, .Tree, .null⟩
        (⟨if needs_sorting then sortEntries entries' else entries'⟩, .descend none)
  | .notFound insertion_idx =>
    match kind_and_id with
    | none => (cursor, .stop false)
    | some (kind, id) =>
      let entries' := cursor.entries.insertIdx insertion_idx
        ⟨name, if is_last then kind else .Tree, if is_last then id else .null⟩
      (⟨entries'⟩, if is_last then .stop false else .descend none)

/-- Result of one `upsert`/`remove`: the new store, the path keys at which
`find_tree` was invoked (in order), and whether an entry was removed. -/
structure OpResult where
  store : Store
  fetched : List PathKey
  removed : Bool
deriving DecidableEq, Repr

/-- The `while let Some(name) = rela_path.next()` loop of `upsert_or_remove`:
process one component against the cursor at `pathBuf` (which is both the
current `path_buf` contents and — via the injective digest model — the store
key of the cursor), then either stop or advance the cursor, fetching the
subtree through `find` when the key is vacant and a real id is available. -/
def uorGo (find : ObjectId → Option Tree) (st : Store) (pathBuf : PathKey) :
    List FName → Option (EntryKind × ObjectId) → Option OpResult
  | [], _ => some ⟨st, [], false⟩
  | name :: rest, kind_and_id =>
    let cursor := (Store.find? st pathBuf).getD Tree.default
    let new_kind_is_tree := (kind_and_id.map (fun ki => ki.1 == EntryKind.Tree)).getD false
    match uorStep cursor name rest.isEmpty kind_and_id new_kind_is_tree with
    | (cursor', ctl) =>
      let st' := Store.update st pathBuf cursor'
      match ctl with
      | .stop removed => some ⟨st', [], removed⟩
      | .descend tree_to_lookup =>
        let pathBuf' := push_path_component pathBuf name
        match Store.find? st' pathBuf' with
        | some _ => uorGo find st' pathBuf' rest kind_and_id
        | none =>
          match tree_to_lookup.filter (fun tid => !tid.is_empty_tree) with
          | some tree_id =>
            match find tree_id with
            | none => none
            | some t =>
              (uorGo find (Store.insert st' pathBuf' t) pathBuf' rest kind_and_id).map
                (fun r => ⟨r.store, pathBuf' :: r.fetched, r.removed⟩)
          | none => uorGo find (Store.insert st' pathBuf' Tree.default) pathBuf' rest kind_and_id

/-- `upsert_or_remove`: look up the root cursor (panic, modelled as `none`, if
the root key is absent), clear `path_buf`, run the loop. -/
def upsert_or_remove (find : ObjectId → Option Tree) (st : Store) (rela_path : List FName)
    (kind_and_id : Option (EntryKind × ObjectId)) : Option OpResult :=
  match Store.find? st [] with
  | none => none
  | some _ => uorGo find st [] rela_path kind_and_id

/-- `Editor::upsert`. -/
def upsert (find : ObjectId → Option Tree) (st : Store) (rela_path : List FName)
    (kind : EntryKind) (id : ObjectId) : Option OpResult :=
  upsert_or_remove find st rela_path (some (kind, id))

/-- `Editor::remove`. -/
def remove (find : ObjectId → Option Tree) (st : Store) (rela_path : List FName) :
    Option OpResult :=
  upsert_or_remove find st rela_path none

/-- `Editor::new`: seed the store with the root under the empty path. -/
def editor_new (root : Tree) : Store :=
  [([], root)]

/-- `Editor::set_root`: clear the store and reseed. -/
def set_root (root : Tree) : Store :=
  [([], root)]

/-- An editing operation (for claims over operation sequences). -/
inductive Op where
  | up : List FName → EntryKind → ObjectId → Op
  | del : List FName → Op

/-- Apply one operation, returning the new store and the fetched path keys. -/
def applyOp (find : ObjectId → Option Tree) (st : Store) : Op → Option (Store × List PathKey)
  | .up p k i => (upsert find st p k i).map (fun r => (r.store, r.fetched))
  | .del p => (remove find st p).map (fun r => (r.store, r.fetched))

/-- Apply a sequence of operations, concatenating the fetch traces. -/
def applyOps (find : ObjectId → Option Tree) (st : Store) :
    List Op → Option (Store × List PathKey)
  | [] => some (st, [])
  | op :: ops =>
    match applyOp find st op with
    | none => none
    | some (st', f1) =>
      (applyOps find st' ops).map (fun r => (r.1, f1 ++ r.2))

/-! ## `Editor::write` -/

/-- A work-list frame of `write`: `(parent_idx, rela_path, tree)`. -/
structure Frame where
  parent_idx : Option Nat
  rela_path : PathKey
  tree : Tree
deriving DecidableEq, Repr

/-- `Vec::pop` on a stack whose bottom is the list head (so indices from the
bottom match `Vec` indices). -/
def popTop : List Frame → Option (List Frame × Frame)
  | [] => none
  | f :: fs =>
    match popTop fs with
    | none => some ([], f)
    | some (gs, g) => some (f :: gs, g)

/-- The scan over `tree.entries` at the start of each `write` iteration: for
every tree-kind entry whose extended path is a key of the store, remove that
subtree from the store and emit a child frame (in entry order, i.e. push
order).  Returns the reduced store and the pushed frames;
`all_entries_unchanged_or_written` is their emptiness. -/
def scanEntries (st : Store) (rela_path : PathKey) (next_parent_idx : Nat) :
    List TreeEntry → Store × List Frame
  | [] => (st, [])
  | e :: es =>
    if e.mode.is_tree then
      let p' := push_path_component rela_path e.filename
      match Store.find? st p' with
      | some sub_tree =>
        let r := scanEntries (Store.erase st p') rela_path next_parent_idx es
        (r.1, ⟨some next_parent_idx, p', sub_tree⟩ :: r.2)
      | none => scanEntries st rela_path next_parent_idx es
    else scanEntries st rela_path next_parent_idx es

/-- A sink invocation: the relative path of the frame and the tree passed to
the sink. -/
abbrev Emit := PathKey × Tree

/-- The body of one `write` loop iteration, for a popped `frame` with the
stacks already adjusted for the pop (`parents'`, `children'`): scan for
unflushed descendants; if none, drop placeholder entries and either patch the
parent entry (overwriting its id with the sink result, or removing it when
the subtree became empty), emit the root and return, or emit an orphaned
subtree for its side effect; otherwise re-push the frame and its children.
`recur` is the rest of the loop.  The two `expect` panics are `none`. -/
def writeStep (σ : Tree → ObjectId)
    (recur : Store → List Frame → List Frame → Option (ObjectId × Store × List Emit))
    (st : Store) (frame : Frame) (parents' children' : List Frame) :
    Option (ObjectId × Store × List Emit) :=
  match scanEntries st frame.rela_path parents'.length frame.tree.entries with
  | (st', kids) =>
    if kids.isEmpty then
      let retained : Tree := ⟨frame.tree.entries.filter (fun e => !e.oid.is_null)⟩
      match frame.parent_idx with
      | some idx =>
        match parents'.get? idx with
        | none => none
        | some parent_to_adjust =>
          let name := filename frame.rela_path
          match binary_search_by parent_to_adjust.tree.entries
              (fun e => cmp_entry_with_name e name true) with
          | .notFound _ => none
          | .found entry_idx =>
            if retained.entries.isEmpty then
              recur st'
                (parents'.set idx
                  ⟨parent_to_adjust.parent_idx, parent_to_adjust.rela_path,
                    ⟨parent_to_adjust.tree.entries.eraseIdx entry_idx⟩⟩)
                children'
            else
              let pe := (parent_to_adjust.tree.entries.get? entry_idx).getD default
              (recur st'
                  (parents'.set idx
                    ⟨parent_to_adjust.parent_idx, parent_to_adjust.rela_path,
                      ⟨parent_to_adjust.tree.entries.set entry_idx
                        ⟨pe.filename, pe.mode, σ retained⟩⟩⟩)
                  children').map
                (fun r => (r.1, r.2.1, (frame.rela_path, retained) :: r.2.2))
      | none =>
        if parents'.isEmpty then
          some (σ retained, [([], retained)], [(frame.rela_path, retained)])
        else if retained.entries.isEmpty then
          recur st' parents' children'
        else
          (recur st' parents' children').map
            (fun r => (r.1, r.2.1, (frame.rela_path, retained) :: r.2.2))
    else
      recur st'
        (parents' ++ [⟨frame.parent_idx, frame.rela_path, frame.tree⟩])
        (kids.reverse ++ children')

/-- The `while let Some(..) = children.pop().or_else(|| parents.pop())` loop
of `write`, with explicit fuel (the measure `2·|store| + |frames|` strictly
decreases per iteration, so the fuel supplied by `write` is never exhausted;
exhaustion, the loop falling off its natural end (`unreachable!`), and the
`expect` panics are all modelled as `none`).  `children` keeps its top at the
head; `parents` keeps its bottom at the head so `parent_idx` indexes it
directly.  Returns the root id, the post-write store, and the chronological
list of sink invocations. -/
def writeLoop (σ : Tree → ObjectId) : Nat → Store → List Frame → List Frame →
    Option (ObjectId × Store × List Emit)
  | 0, _, _, _ => none
  | fuel + 1, st, parents, children =>
    match children with
    | c :: cs => writeStep σ (writeLoop σ fuel) st c parents cs
    | [] =>
      match popTop parents with
      | some (ps, f) => writeStep σ (writeLoop σ fuel) st f ps []
      | none => none

/-- `Editor::write` with a pure sink `σ`: seed the work list with the root
frame and run the loop.  A missing root models the `assert!`/`expect` panic. -/
def write (σ : Tree → ObjectId) (st : Store) : Option (ObjectId × Store × List Emit) :=
  match Store.find? st [] with
  | none => none
  | some root => writeLoop σ (2 * st.length + 2) (Store.erase st []) [⟨none, [], root⟩] []

/-! ## Well-formedness predicates used in claim statements -/

/-- No filename contains the `/` byte (git filenames never do). -/
def EntriesSlashFree (l : List TreeEntry) : Prop :=
  ∀ e ∈ l, 47 ∉ e.filename

/-- Entries strictly sorted by the canonical entry order. -/
def SortedStrict (l : List TreeEntry) : Prop :=
  l.Pairwise (fun a b => cmp_entries a b = .lt)

/-- Every filename is non-empty and slash-free (as git requires). -/
def EntriesValidNames (l : List TreeEntry) : Prop :=
  ∀ e ∈ l, 47 ∉ e.filename ∧ e.filename ≠ []

/-- A well-formed git tree as the editor assumes them: strictly sorted,
valid (non-empty, slash-free) filenames, duplicate-free filenames. -/
def GoodTree (t : Tree) : Prop :=
  SortedStrict t.entries ∧ EntriesValidNames t.entries ∧
    (t.entries.map TreeEntry.filename).Nodup

instance (t : Tree) : Decidable (GoodTree t) := by
  unfold GoodTree SortedStrict EntriesValidNames
  infer_instance

/-- Every tree in the store is well-formed. -/
def GoodStore (st : Store) : Prop :=
  ∀ k t, Store.find? st k = some t → GoodTree t

/-- The tree-finder only produces well-formed trees (decoded git trees are
sorted with unique names). -/
def FindGood (find : ObjectId → Option Tree) : Prop :=
  ∀ i t, find i = some t → GoodTree t

/-- A path given as components: each component non-empty and slash-free. -/
def GoodPath (p : List FName) : Prop :=
  ∀ c ∈ p, c ≠ [] ∧ 47 ∉ c

instance (p : List FName) : Decidable (GoodPath p) := by
  unfold GoodPath
  infer_instance


/-! ## The write-loop invariant -/

/-- The relative paths of all live frames. -/
def framePaths (parents children : List Frame) : List PathKey :=
  (parents ++ children).map Frame.rela_path

/-- `q` can still give rise to a frame (hence an emission) from a state with
live frame paths `paths`: some `p ∈ paths` sits at or above `q`, and every
strict `/`-boundary between `p` (exclusive) and `q` (inclusive) is still a
store key, so the chain of scans from `p` can reach down to `q`. -/
def canEmitL (st : Store) (paths : List PathKey) (q : PathKey) : Prop :=
  ∃ p ∈ paths, ancEq p q ∧ ∀ b, strictAnc p b → ancEq b q → b ∈ Store.keys st

/-- `canEmitL` over the live frame paths of a loop state. -/
def canEmitP (st : Store) (parents children : List Frame) (q : PathKey) : Prop :=
  canEmitL st (framePaths parents children) q

/-- The invariant of the `write` work-list loop, for the state between
iterations.  `parents` has its bottom (the root frame) at the head. -/
structure LoopInv (st : Store) (parents children : List Frame) : Prop where
  keysNd : (Store.keys st).Nodup
  storeGood : ∀ k t, Store.find? st k = some t → GoodTree t
  framesGood : ∀ f ∈ parents ++ children, GoodTree f.tree
  rootFrame : ∃ rt, parents.head? = some ⟨none, [], rt⟩
  parentsIdx : ∀ j f, parents.get? j = some f → 1 ≤ j → ∃ i, f.parent_idx = some i ∧ i < j
  childIdx : ∀ f ∈ children, ∃ i, f.parent_idx = some i ∧ i < parents.length
  childKnown : ∀ f ∈ children, ∀ i, f.parent_idx = some i →
    ∃ pf e, parents.get? i = some pf ∧ e ∈ pf.tree.entries ∧ e.mode.is_tree = true ∧
      f.rela_path = push_path_component pf.rela_path e.filename
  parentKnown : ∀ j f, parents.get? j = some f → 1 ≤ j → ∀ i, f.parent_idx = some i →
    ∃ pf e, parents.get? i = some pf ∧ e ∈ pf.tree.entries ∧ e.mode.is_tree = true ∧
      f.rela_path = push_path_component pf.rela_path e.filename
  pathsNd : (framePaths parents children).Nodup
  framesStore : ∀ f ∈ parents ++ children, Store.find? st f.rela_path = none
  childNoDesc : ∀ f ∈ children, ∀ g ∈ parents ++ children,
    ¬ strictAnc f.rela_path g.rela_path
  parentsNoDescDown : ∀ j1 j2 f1 f2, parents.get? j1 = some f1 → parents.get? j2 = some f2 →
    j2 < j1 → ¬ strictAnc f1.rela_path f2.rela_path

/-- The popped view of the loop invariant: the state right after the
`children.pop().or_else(|| parents.pop())` of one iteration, with `frame` the
popped frame and `parents'`, `children'` the remaining stacks. -/
structure StepInv (st : Store) (frame : Frame) (parents' children' : List Frame) : Prop where
  keysNd : (Store.keys st).Nodup
  storeGood : ∀ k t, Store.find? st k = some t → GoodTree t
  framesGood : ∀ f ∈ parents' ++ frame :: children', GoodTree f.tree
  rootCase : frame.parent_idx = none → parents' = [] ∧ children' = [] ∧ frame.rela_path = []
  rootHead : parents' ≠ [] → ∃ rt, parents'.head? = some ⟨none, [], rt⟩
  parentsIdx : ∀ j f, parents'.get? j = some f → 1 ≤ j → ∃ i, f.parent_idx = some i ∧ i < j
  frameIdx : ∀ i, frame.parent_idx = some i → i < parents'.length
  childIdx : ∀ f ∈ children', ∃ i, f.parent_idx = some i ∧ i < parents'.length
  frameKnown : ∀ i, frame.parent_idx = some i →
    ∃ pf e, parents'.get? i = some pf ∧ e ∈ pf.tree.entries ∧ e.mode.is_tree = true ∧
      frame.rela_path = push_path_component pf.rela_path e.filename
  childKnown : ∀ f ∈ children', ∀ i, f.parent_idx = some i →
    ∃ pf e, parents'.get? i = some pf ∧ e ∈ pf.tree.entries ∧ e.mode.is_tree = true ∧
      f.rela_path = push_path_component pf.rela_path e.filename
  parentKnown : ∀ j f, parents'.get? j = some f → 1 ≤ j → ∀ i, f.parent_idx = some i →
    ∃ pf e, parents'.get? i = some pf ∧ e ∈ pf.tree.entries ∧ e.mode.is_tree = true ∧
      f.rela_path = push_path_component pf.rela_path e.filename
  pathsNd : ((parents' ++ frame :: children').map Frame.rela_path).Nodup
  framesStore : ∀ f ∈ parents' ++ frame :: children', Store.find? st f.rela_path = none
  frameNoDesc : ∀ g ∈ parents' ++ frame :: children', ¬ strictAnc frame.rela_path g.rela_path
  childNoDesc : ∀ f ∈ children', ∀ g ∈ parents' ++ frame :: children',
    ¬ strictAnc f.rela_path g.rela_path
  parentsNoDescDown : ∀ j1 j2 f1 f2, parents'.get? j1 = some f1 → parents'.get? j2 = some f2 →
    j2 < j1 → ¬ strictAnc f1.rela_path f2.rela_path

/-- What the loop established when it returns: success with the root tree
emitted last, its sink value returned, every emission reachable from the
start state (`canEmitL` over the live paths), and no emission a strict
ancestor of a later one (post-order). -/
def StepConcl (σ : Tree → ObjectId) (st : Store) (paths : List PathKey)
    (res : Option (ObjectId × Store × List Emit)) : Prop :=
  ∃ t out emits, res = some (σ t, out, emits) ∧ emits ≠ [] ∧
    emits.getLast? = some (([] : PathKey), t) ∧
    (∀ e ∈ emits, canEmitL st paths e.1) ∧
    emits.Pairwise (fun a b => ¬ strictAnc a.1 b.1)

/-- The editor's data-model invariant on the pending store: every stored tree
is well-formed, the digest keys are duplicate-free, and the root binding is
present. -/
def StoreOk (st : Store) : Prop :=
  GoodStore st ∧ (Store.keys st).Nodup ∧ ∃ rt, Store.find? st [] = some rt

/-- An operation whose path components are valid git filenames. -/
def OpGood : Op → Prop
  | .up p _ _ => GoodPath p
  | .del p => GoodPath p

/-! ### WITNESS_DEFS_HERE -/

/-! ## Theorems -/

/-! ### Store lemmas -/

theorem Store.find?_update (st : Store) (k : PathKey) (t : Tree) (q : PathKey) :
    Store.find? (Store.update st k t) q = if k = q then some t else Store.find? st q := by
  induction st with
  | nil =>
    by_cases h : k = q <;> simp [Store.update, Store.find?, h]
  | cons kv st ih =>
    obtain ⟨k', t'⟩ := kv
    by_cases h1 : k' = k
    · subst h1
      by_cases h2 : k' = q <;> simp [Store.update, Store.find?, h2]
    · by_cases h2 : k' = q
      · subst h2
        have : ¬ k = k' := fun h => h1 h.symm
        simp [Store.update, Store.find?, h1, this]
      · simp [Store.update, Store.find?, h1, h2, ih]

theorem Store.update_self (st : Store) (k : PathKey) (t : Tree)
    (h : Store.find? st k = some t) : Store.update st k t = st := by
  induction st with
  | nil => simp [Store.find?] at h
  | cons kv st ih =>
    obtain ⟨k', t'⟩ := kv
    by_cases h1 : k' = k
    · subst h1
      simp [Store.find?] at h
      simp [Store.update, h]
    · simp [Store.find?, h1] at h
      simp [Store.update, h1, ih h]

theorem Store.find?_insert (st : Store) (k : PathKey) (t : Tree) (q : PathKey) :
    Store.find? (Store.insert st k t) q = if k = q then some t else Store.find? st q := by
  simp [Store.insert, Store.find?]

theorem Store.find?_erase_ne (st : Store) (k q : PathKey) (h : k ≠ q) :
    Store.find? (Store.erase st k) q = Store.find? st q := by
  induction st with
  | nil => simp [Store.erase]
  | cons kv st ih =>
    obtain ⟨k', t'⟩ := kv
    by_cases h1 : k' = k
    · subst h1
      have : ¬ k' = q := fun hq => h (hq ▸ rfl)
      simp [Store.erase, Store.find?, this]
    · simp [Store.erase, Store.find?, h1]
      by_cases h2 : k' = q <;> simp [h2, ih]

theorem Store.keys_update (st : Store) (k : PathKey) (t : Tree)
    (h : Store.find? st k ≠ none) : Store.keys (Store.update st k t) = Store.keys st := by
  induction st with
  | nil => simp [Store.find?] at h
  | cons kv st ih =>
    obtain ⟨k', t'⟩ := kv
    by_cases h1 : k' = k
    · subst h1
      simp [Store.update, Store.keys]
    · simp [Store.find?, h1] at h
      simp [Store.update, Store.keys, h1] at ih ⊢
      exact ih h

theorem Store.find?_mem_keys (st : Store) (k : PathKey) (h : Store.find? st k ≠ none) :
    k ∈ Store.keys st := by
  induction st with
  | nil => simp [Store.find?] at h
  | cons kv st ih =>
    obtain ⟨k', t'⟩ := kv
    by_cases h1 : k' = k
    · subst h1
      simp [Store.keys]
    · simp [Store.find?, h1] at h
      simp [Store.keys]
      exact Or.inr (by simpa [Store.keys] using ih h)

theorem Store.not_mem_keys_find? (st : Store) (k : PathKey) (h : k ∉ Store.keys st) :
    Store.find? st k = none := by
  by_contra hne
  exact h (Store.find?_mem_keys st k hne)

/-! ### C4: fetch at most once -/

/-- Store monotonicity and fetch discipline of one `upsert_or_remove` loop
run: keys are never removed; every fetched key was vacant beforehand and is
present afterwards; no key is fetched twice. -/
theorem uorGo_fetch_spec (find : ObjectId → Option Tree) :
    ∀ (comps : List FName) (st : Store) (pathBuf : PathKey)
      (kid : Option (EntryKind × ObjectId)) (res : OpResult),
      uorGo find st pathBuf comps kid = some res →
      (∀ k, Store.find? st k ≠ none → Store.find? res.store k ≠ none) ∧
        res.fetched.Nodup ∧
        ∀ k ∈ res.fetched, Store.find? st k = none ∧ Store.find? res.store k ≠ none := by
  intro comps
  induction comps with
  | nil =>
    intro st pathBuf kid res h
    simp only [uorGo] at h
    cases h
    exact ⟨fun k hk => hk, List.nodup_nil, by simp⟩
  | cons name rest ih =>
    intro st pathBuf kid res h
    simp only [uorGo] at h
    rcases hstep : uorStep ((Store.find? st pathBuf).getD Tree.default) name rest.isEmpty kid
      ((kid.map (fun ki => ki.1 == EntryKind.Tree)).getD false) with ⟨cursor', ctl⟩
    rw [hstep] at h
    set st' := Store.update st pathBuf cursor' with hst'
    have hmono1 : ∀ k, Store.find? st k ≠ none → Store.find? st' k ≠ none := by
      intro k hk
      rw [hst', Store.find?_update]
      by_cases hq : pathBuf = k <;> simp [hq, hk]
    cases ctl with
    | stop removed =>
      cases h
      exact ⟨hmono1, List.nodup_nil, by simp⟩
    | descend ttl =>
      set pathBuf' := push_path_component pathBuf name with hpb
      cases hocc : Store.find? st' pathBuf' with
      | some t0 =>
        have h' : uorGo find st' pathBuf' rest kid = some res := by
          simpa only [hocc] using h
        have := ih st' pathBuf' kid res h'
        refine ⟨fun k hk => this.1 k (hmono1 k hk), this.2.1, ?_⟩
        intro k hk
        have h3 := this.2.2 k hk
        refine ⟨?_, h3.2⟩
        by_contra hne
        exact (hmono1 k hne) h3.1
      | none =>
        cases httl : ttl.filter (fun tid => !tid.is_empty_tree) with
        | none =>
          have h' : uorGo find (Store.insert st' pathBuf' Tree.default) pathBuf' rest kid
              = some res := by
            simpa only [hocc, httl] using h
          set st'' := Store.insert st' pathBuf' Tree.default with hst''
          have hmono2 : ∀ k, Store.find? st' k ≠ none → Store.find? st'' k ≠ none := by
            intro k hk
            rw [hst'', Store.find?_insert]
            by_cases hq : pathBuf' = k <;> simp [hq, hk]
          have := ih st'' pathBuf' kid res h'
          refine ⟨fun k hk => this.1 k (hmono2 k (hmono1 k hk)), this.2.1, ?_⟩
          intro k hk
          have h3 := this.2.2 k hk
          refine ⟨?_, h3.2⟩
          by_contra hne
          exact (hmono2 k (hmono1 k hne)) h3.1
        | some tid =>
          cases hfind : find tid with
          | none =>
            exact absurd h (by simp [hocc, httl, hfind])
          | some t1 =>
            have h' : Option.map
                (fun r => OpResult.mk r.store (pathBuf' :: r.fetched) r.removed)
                (uorGo find (Store.insert st' pathBuf' t1) pathBuf' rest kid) = some res := by
              simpa only [hocc, httl, hfind] using h
            cases hrec : uorGo find (Store.insert st' pathBuf' t1) pathBuf' rest kid with
            | none => rw [hrec] at h'; cases h'
            | some r =>
              rw [hrec] at h'
              simp only [Option.map] at h'
              cases h'
              set st'' := Store.insert st' pathBuf' t1 with hst''
              have hmono2 : ∀ k, Store.find? st' k ≠ none → Store.find? st'' k ≠ none := by
                intro k hk
                rw [hst'', Store.find?_insert]
                by_cases hq : pathBuf' = k <;> simp [hq, hk]
              have hr := ih st'' pathBuf' kid r hrec
              have hpbin : Store.find? st'' pathBuf' ≠ none := by
                rw [hst'', Store.find?_insert]
                simp
              have hpbnotin : pathBuf' ∉ r.fetched := by
                intro hmem
                exact hpbin (hr.2.2 pathBuf' hmem).1
              refine ⟨?_, ?_, ?_⟩
              · intro k hk
                exact hr.1 k (hmono2 k (hmono1 k hk))
              · simp only [List.nodup_cons]
                exact ⟨hpbnotin, hr.2.1⟩
              · intro k hk
                simp only [List.mem_cons] at hk
                rcases hk with hk | hk
                · subst hk
                  constructor
                  · by_contra hne
                    exact (hmono1 _ hne) hocc
                  · exact hr.1 _ hpbin
                · have h3 := hr.2.2 k hk
                  refine ⟨?_, h3.2⟩
                  by_contra hne
                  exact (hmono2 k (hmono1 k hne)) h3.1

/-- The fetch discipline lifted through the `upsert_or_remove` entry point. -/
theorem upsert_or_remove_fetch_spec (find : ObjectId → Option Tree) (st : Store)
    (p : List FName) (kid : Option (EntryKind × ObjectId)) (res : OpResult)
    (h : upsert_or_remove find st p kid = some res) :
    (∀ k, Store.find? st k ≠ none → Store.find? res.store k ≠ none) ∧
      res.fetched.Nodup ∧
      ∀ k ∈ res.fetched, Store.find? st k = none ∧ Store.find? res.store k ≠ none := by
  simp only [upsert_or_remove] at h
  split at h
  · cases h
  · exact uorGo_fetch_spec find p st [] kid res h

/-- Lift to sequences of operations. -/
theorem applyOps_fetch_spec (find : ObjectId → Option Tree) :
    ∀ (ops : List Op) (st : Store) (st' : Store) (fetches : List PathKey),
      applyOps find st ops = some (st', fetches) →
      (∀ k, Store.find? st k ≠ none → Store.find? st' k ≠ none) ∧
        fetches.Nodup ∧
        ∀ k ∈ fetches, Store.find? st k = none ∧ Store.find? st' k ≠ none := by
  intro ops
  induction ops with
  | nil =>
    intro st st' fetches h
    simp only [applyOps] at h
    cases h
    exact ⟨fun k hk => hk, List.nodup_nil, by simp⟩
  | cons op ops ih =>
    intro st st' fetches h
    cases hop : applyOp find st op with
    | none =>
      exact absurd h (by simp [applyOps, hop])
    | some p =>
      obtain ⟨st1, f1⟩ := p
      have h' : Option.map (fun r => (r.1, f1 ++ r.2)) (applyOps find st1 ops)
          = some (st', fetches) := by
        simpa only [applyOps, hop] using h
      cases hrec : applyOps find st1 ops with
      | none => rw [hrec] at h'; cases h'
      | some q =>
        obtain ⟨st2, f2⟩ := q
        rw [hrec] at h'
        simp only [Option.map] at h'
        cases h'
        have h1 : (∀ k, Store.find? st k ≠ none → Store.find? st1 k ≠ none) ∧
            f1.Nodup ∧ ∀ k ∈ f1, Store.find? st k = none ∧ Store.find? st1 k ≠ none := by
          cases op with
          | up pa ka ia =>
            simp only [applyOp, upsert] at hop
            cases hres : upsert_or_remove find st pa (some (ka, ia)) with
            | none => rw [hres] at hop; cases hop
            | some res =>
              rw [hres] at hop
              simp only [Option.map] at hop
              cases hop
              exact upsert_or_remove_fetch_spec find st pa _ res hres
          | del pa =>
            simp only [applyOp, remove] at hop
            cases hres : upsert_or_remove find st pa none with
            | none => rw [hres] at hop; cases hop
            | some res =>
              rw [hres] at hop
              simp only [Option.map] at hop
              cases hop
              exact upsert_or_remove_fetch_spec find st pa _ res hres
        have h2 := ih st1 _ _ hrec
        refine ⟨fun k hk => h2.1 k (h1.1 k hk), ?_, ?_⟩
        · rw [List.nodup_append]
          refine ⟨h1.2.1, h2.2.1, ?_⟩
          intro k hk1 hk2
          exact (h1.2.2 k hk1).2 (h2.2.2 k hk2).1
        · intro k hk
          rw [List.mem_append] at hk
          rcases hk with hk | hk
          · exact ⟨(h1.2.2 k hk).1, h2.1 k (h1.2.2 k hk).2⟩
          · refine ⟨?_, (h2.2.2 k hk).2⟩
            by_contra hne
            exact (h1.1 k hne) (h2.2.2 k hk).1

/-- **C4.** Across any sequence of `upsert`/`remove` operations performed on an
editor state (between construction or the previous `write`/`set_root` and the
next `write`), the tree-finder is called at most once for the tree at any
given path (the fetch trace has no duplicate path), and only for paths whose
trees were not already in the pending store; each fetched path's tree is in
the store from then on, so later operations traversing the same path reuse
the in-memory tree without fetching. -/
theorem C4_fetch_at_most_once (find : ObjectId → Option Tree) (st : Store) (ops : List Op)
    (st' : Store) (fetches : List PathKey)
    (h : applyOps find st ops = some (st', fetches)) :
    fetches.Nodup ∧
      ∀ k ∈ fetches, Store.find? st k = none ∧ Store.find? st' k ≠ none := by
  have := applyOps_fetch_spec find ops st st' fetches h
  exact ⟨this.2.1, this.2.2⟩

/-- Witness for C4: two removes along `a/b` from a root with an unfetched
subtree `a`; the subtree is fetched exactly once and is in the store at the
end. -/
theorem C4_witness :
    ([[97]] : List PathKey).Nodup ∧
      ∀ k ∈ ([[97]] : List PathKey),
        Store.find? [([], ⟨[⟨[97], .Tree, .oid 5⟩]⟩)] k = none ∧
          Store.find? [([97], ⟨[⟨[99], .Blob, .oid 7⟩]⟩),
            ([], ⟨[⟨[97], .Tree, .oid 5⟩]⟩)] k ≠ none :=
  C4_fetch_at_most_once
    (fun i => if i = .oid 5 then some ⟨[⟨[99], .Blob, .oid 7⟩]⟩ else none)
    [([], ⟨[⟨[97], .Tree, .oid 5⟩]⟩)]
    [.del [[97], [98]], .del [[97], [98]]]
    [([97], ⟨[⟨[99], .Blob, .oid 7⟩]⟩), ([], ⟨[⟨[97], .Tree, .oid 5⟩]⟩)]
    [[97]]
    (by decide)

/-! ### C2: placeholders never reach the sink -/

/-- One step of the write loop only emits trees whose entries survived the
`retain(|e| !e.oid.is_null())`. -/
theorem writeStep_no_null (σ : Tree → ObjectId)
    (recur : Store → List Frame → List Frame → Option (ObjectId × Store × List Emit))
    (st : Store) (frame : Frame) (parents' children' : List Frame)
    (hrec : ∀ st2 p2 c2 id st3 tr, recur st2 p2 c2 = some (id, st3, tr) →
      ∀ pt ∈ tr, ∀ e ∈ pt.2.entries, e.oid.is_null = false) :
    ∀ id st3 tr, writeStep σ recur st frame parents' children' = some (id, st3, tr) →
      ∀ pt ∈ tr, ∀ e ∈ pt.2.entries, e.oid.is_null = false := by
  intro id st3 tr h
  have hretained : ∀ e ∈ frame.tree.entries.filter (fun e => !e.oid.is_null),
      e.oid.is_null = false := by
    intro e he
    have := (List.mem_filter.mp he).2
    simpa using this
  rw [writeStep] at h
  rcases hscan : scanEntries st frame.rela_path parents'.length frame.tree.entries
    with ⟨st1, kids⟩
  simp only [hscan] at h
  by_cases hkids : kids.isEmpty
  · rw [if_pos hkids] at h
    cases hpi : frame.parent_idx with
    | some idx =>
      simp only [hpi] at h
      cases hget : parents'.get? idx with
      | none => simp only [hget] at h; cases h
      | some parent_to_adjust =>
        simp only [hget] at h
        cases hbs : binary_search_by parent_to_adjust.tree.entries
            (fun e => cmp_entry_with_name e (filename frame.rela_path) true) with
        | notFound j => simp only [hbs] at h; cases h
        | found entry_idx =>
          simp only [hbs] at h
          by_cases hemp : (frame.tree.entries.filter (fun e => !e.oid.is_null)).isEmpty
          · rw [if_pos hemp] at h
            exact hrec _ _ _ _ _ _ h
          · rw [if_neg hemp] at h
            cases hr : recur st1
                (parents'.set idx
                  ⟨parent_to_adjust.parent_idx, parent_to_adjust.rela_path,
                    ⟨parent_to_adjust.tree.entries.set entry_idx
                      ⟨((parent_to_adjust.tree.entries.get? entry_idx).getD default).filename,
                        ((parent_to_adjust.tree.entries.get? entry_idx).getD default).mode,
                        σ ⟨frame.tree.entries.filter (fun e => !e.oid.is_null)⟩⟩⟩⟩)
                children' with
            | none => rw [hr] at h; cases h
            | some r =>
              rw [hr] at h
              simp only [Option.map] at h
              cases h
              intro pt hpt
              simp only [List.mem_cons] at hpt
              rcases hpt with hpt | hpt
              · subst hpt
                intro e he
                exact hretained e (by simpa using he)
              · exact hrec _ _ _ _ _ _ hr pt hpt
    | none =>
      simp only [hpi] at h
      by_cases hpe : parents'.isEmpty
      · rw [if_pos hpe] at h
        cases h
        intro pt hpt
        simp only [List.mem_cons, List.not_mem_nil, or_false] at hpt
        subst hpt
        intro e he
        exact hretained e (by simpa using he)
      · rw [if_neg hpe] at h
        by_cases hemp : (frame.tree.entries.filter (fun e => !e.oid.is_null)).isEmpty
        · rw [if_pos hemp] at h
          exact hrec _ _ _ _ _ _ h
        · rw [if_neg hemp] at h
          cases hr : recur st1 parents' children' with
          | none => rw [hr] at h; cases h
          | some r =>
            rw [hr] at h
            simp only [Option.map] at h
            cases h
            intro pt hpt
            simp only [List.mem_cons] at hpt
            rcases hpt with hpt | hpt
            · subst hpt
              intro e he
              exact hretained e (by simpa using he)
            · exact hrec _ _ _ _ _ _ hr pt hpt
  · rw [if_neg hkids] at h
    exact hrec _ _ _ _ _ _ h

theorem writeLoop_no_null (σ : Tree → ObjectId) :
    ∀ fuel st parents children id st3 tr,
      writeLoop σ fuel st parents children = some (id, st3, tr) →
      ∀ pt ∈ tr, ∀ e ∈ pt.2.entries, e.oid.is_null = false := by
  intro fuel
  induction fuel with
  | zero =>
    intro st parents children id st3 tr h
    cases h
  | succ fuel ih =>
    intro st parents children id st3 tr h
    simp only [writeLoop] at h
    cases children with
    | cons c cs =>
      exact writeStep_no_null σ _ st c parents cs (fun st2 p2 c2 => ih st2 p2 c2) id st3 tr h
    | nil =>
      cases hpop : popTop parents with
      | none => rw [hpop] at h; cases h
      | some p =>
        obtain ⟨ps, f⟩ := p
        rw [hpop] at h
        exact writeStep_no_null σ _ st f ps [] (fun st2 p2 c2 => ih st2 p2 c2) id st3 tr h

/-- **C2.** For every sequence of editing operations and every call to
`write`, every tree passed to the caller-supplied sink contains no entry
whose identifier is the null sentinel: placeholder entries are dropped
(`retain(|e| !e.oid.is_null())`) before any of the three emission sites
runs.  Stated for an arbitrary store, hence for every editor state. -/
theorem C2_no_placeholder_reaches_sink (σ : Tree → ObjectId) (st : Store)
    (id : ObjectId) (st' : Store) (tr : List Emit)
    (h : write σ st = some (id, st', tr)) :
    ∀ pt ∈ tr, ∀ e ∈ pt.2.entries, e.oid.is_null = false := by
  rw [write] at h
  cases hroot : Store.find? st [] with
  | none => rw [hroot] at h; cases h
  | some root =>
    rw [hroot] at h
    exact writeLoop_no_null σ _ _ _ _ id st' tr h

/-- Witness for C2: a root containing a null placeholder entry; the emitted
root has dropped it. -/
theorem C2_witness :
    (⟨[98], .Blob, .oid 1⟩ : TreeEntry).oid.is_null = false :=
  C2_no_placeholder_reaches_sink (fun t => ObjectId.oid t.entries.length)
    [([], ⟨[⟨[97], .Tree, .null⟩, ⟨[98], .Blob, .oid 1⟩]⟩)]
    (ObjectId.oid 1) [([], ⟨[⟨[98], .Blob, .oid 1⟩]⟩)]
    [([], ⟨[⟨[98], .Blob, .oid 1⟩]⟩)]
    (by decide)
    ([], ⟨[⟨[98], .Blob, .oid 1⟩]⟩) (by decide)
    ⟨[98], .Blob, .oid 1⟩ (by decide)

/-! ### C7: remove of a non-resolving path -/

/-- Case analysis of the loop body for a `remove` payload: either the cursor
is untouched (and the loop stops without removing, or descends through a
tree entry), or the resolving entry is erased and the loop stops with a
removal. -/
theorem uorStep_remove_cases (cursor : Tree) (name : FName) (il : Bool) (nkit : Bool)
    (cursor' : Tree) (ctl : StepCtl)
    (h : uorStep cursor name il none nkit = (cursor', ctl)) :
    (cursor' = cursor ∧ (ctl = .stop false ∨ ∃ o, ctl = .descend (some o))) ∨
      (∃ idx, cursor' = ⟨cursor.entries.eraseIdx idx⟩ ∧ ctl = .stop true) := by
  rw [uorStep] at h
  cases hes : entrySearch cursor.entries name (!il || nkit) with
  | found idx =>
    simp only [hes] at h
    by_cases hil : il = true
    · rw [if_pos hil] at h
      injection h with h1 h2
      exact Or.inr ⟨idx, h1.symm, h2.symm⟩
    · rw [if_neg hil] at h
      by_cases htree : ((cursor.entries.get? idx).getD default).mode.is_tree
      · rw [if_pos htree] at h
        injection h with h1 h2
        exact Or.inl ⟨h1.symm, Or.inr ⟨_, h2.symm⟩⟩
      · rw [if_neg htree] at h
        injection h with h1 h2
        exact Or.inl ⟨h1.symm, Or.inl h2.symm⟩
  | notFound j =>
    simp only [hes] at h
    injection h with h1 h2
    exact Or.inl ⟨h1.symm, Or.inl h2.symm⟩

/-- A non-removing `remove` run preserves every existing store binding
exactly (it can only add freshly materialised keys). -/
theorem uorGo_remove_preserves (find : ObjectId → Option Tree) :
    ∀ (comps : List FName) (st : Store) (pathBuf : PathKey) (res : OpResult),
      uorGo find st pathBuf comps none = some res → res.removed = false →
      ∀ k t0, Store.find? st k = some t0 → Store.find? res.store k = some t0 := by
  intro comps
  induction comps with
  | nil =>
    intro st pathBuf res h hnr k t0 hk
    simp only [uorGo] at h
    cases h
    exact hk
  | cons name rest ih =>
    intro st pathBuf res h hnr k t0 hk
    simp only [uorGo] at h
    rcases hstep : uorStep ((Store.find? st pathBuf).getD Tree.default) name rest.isEmpty none
      ((Option.map (fun ki => ki.1 == EntryKind.Tree) (none : Option (EntryKind × ObjectId))).getD
        false) with ⟨cursor', ctl⟩
    rw [hstep] at h
    rcases uorStep_remove_cases _ _ _ _ _ _ hstep with ⟨hc, hctl⟩ | ⟨idx, hc, hctl⟩
    · subst hc
      have hpres : ∀ q u, Store.find? st q = some u →
          Store.find? (Store.update st pathBuf ((Store.find? st pathBuf).getD Tree.default)) q
            = some u := by
        intro q u hq
        rw [Store.find?_update]
        by_cases hpq : pathBuf = q
        · subst hpq
          rw [hq]
          simp [Option.getD]
        · rw [if_neg hpq]
          exact hq
      rcases hctl with hctl | ⟨o, hctl⟩
      · subst hctl
        cases h
        exact hpres k t0 hk
      · subst hctl
        set st' := Store.update st pathBuf ((Store.find? st pathBuf).getD Tree.default) with hst'
        set pathBuf' := push_path_component pathBuf name with hpb
        cases hocc : Store.find? st' pathBuf' with
        | some t1 =>
          have h' : uorGo find st' pathBuf' rest none = some res := by
            simpa only [hocc] using h
          exact ih st' pathBuf' res h' hnr k t0 (hpres k t0 hk)
        | none =>
          cases httl : (some o).filter (fun tid => !tid.is_empty_tree) with
          | none =>
            have h' : uorGo find (Store.insert st' pathBuf' Tree.default) pathBuf' rest none
                = some res := by
              simpa only [hocc, httl] using h
            refine ih _ pathBuf' res h' hnr k t0 ?_
            rw [Store.find?_insert]
            have hne : pathBuf' ≠ k := by
              intro he
              subst he
              rw [hpres _ t0 hk] at hocc
              cases hocc
            rw [if_neg hne]
            exact hpres k t0 hk
          | some tid =>
            cases hfind : find tid with
            | none =>
              exact absurd h (by simp [hocc, httl, hfind])
            | some t1 =>
              have h' : Option.map
                  (fun r => OpResult.mk r.store (pathBuf' :: r.fetched) r.removed)
                  (uorGo find (Store.insert st' pathBuf' t1) pathBuf' rest none)
                  = some res := by
                simpa only [hocc, httl, hfind] using h
              cases hrec : uorGo find (Store.insert st' pathBuf' t1) pathBuf' rest none with
              | none => rw [hrec] at h'; cases h'
              | some r =>
                rw [hrec] at h'
                simp only [Option.map] at h'
                cases h'
                have hnr' : r.removed = false := hnr
                refine ih _ pathBuf' r hrec hnr' k t0 ?_
                rw [Store.find?_insert]
                have hne : pathBuf' ≠ k := by
                  intro he
                  subst he
                  rw [hpres _ t0 hk] at hocc
                  cases hocc
                rw [if_neg hne]
                exact hpres k t0 hk
    · subst hc
      subst hctl
      cases h
      simp at hnr

/-- **C7 (amended).** A `remove(p)` call that removes no entry — i.e. `p` does
not resolve to an existing entry; the only removing `break` is the resolving
one — keeps every previously stored tree bound unchanged under its key and
removes no key.  It may, however, insert *new* keys: intermediate trees
materialised (fetched or created empty) while traversing `p`.  This is the
claim as amended by the counterexample below, which shows the store's key set
can grow. -/
theorem C7_remove_absent_preserves_bindings (find : ObjectId → Option Tree) (st : Store)
    (p : List FName) (res : OpResult)
    (h : remove find st p = some res) (hnr : res.removed = false) :
    ∀ k t0, Store.find? st k = some t0 → Store.find? res.store k = some t0 := by
  simp only [remove, upsert_or_remove] at h
  split at h
  · cases h
  · exact uorGo_remove_preserves find p st [] res h hnr

/-- Counterexample for C7 as frozen: removing `a/b` from a root whose `a` is
an unfetched tree lacking `b` resolves nothing (`removed = false`, no tree's
entries change), yet the pending store gains the key `a` — the key sets
before and after differ, so the store is not "unchanged". -/
theorem C7_counterexample :
    remove (fun i => if i = .oid 5 then some ⟨[⟨[99], .Blob, .oid 7⟩]⟩ else none)
        [([], ⟨[⟨[97], .Tree, .oid 5⟩]⟩)] [[97], [98]]
      = some ⟨[([97], ⟨[⟨[99], .Blob, .oid 7⟩]⟩), ([], ⟨[⟨[97], .Tree, .oid 5⟩]⟩)],
          [[97]], false⟩ ∧
      Store.find? [([], ⟨[⟨[97], .Tree, .oid 5⟩]⟩)] [97] = none ∧
      Store.keys [([], ⟨[⟨[97], .Tree, .oid 5⟩]⟩)] ≠
        Store.keys [([97], ⟨[⟨[99], .Blob, .oid 7⟩]⟩), ([], ⟨[⟨[97], .Tree, .oid 5⟩]⟩)] := by
  refine ⟨by decide, by decide, by decide⟩

/-- Witness for the amended C7 at the same concrete input: the root's binding
survives untouched. -/
theorem C7_witness :
    Store.find? [([97], ⟨[⟨[99], .Blob, .oid 7⟩]⟩), ([], ⟨[⟨[97], .Tree, .oid 5⟩]⟩)] []
      = some ⟨[⟨[97], .Tree, .oid 5⟩]⟩ :=
  C7_remove_absent_preserves_bindings
    (fun i => if i = .oid 5 then some ⟨[⟨[99], .Blob, .oid 7⟩]⟩ else none)
    [([], ⟨[⟨[97], .Tree, .oid 5⟩]⟩)] [[97], [98]]
    ⟨[([97], ⟨[⟨[99], .Blob, .oid 7⟩]⟩), ([], ⟨[⟨[97], .Tree, .oid 5⟩]⟩)], [[97]], false⟩
    (by decide) (by decide) [] ⟨[⟨[97], .Tree, .oid 5⟩]⟩ (by decide)

/-! ### C5: empty-subtree pruning, C6: orphaned subtrees -/

/-- **C5.** During `write`, whenever a flushed non-root subtree (a frame
carrying a parent index) has an empty entry list after placeholder entries
are dropped, the corresponding entry of its parent tree is removed
(`entries.remove(entry_idx)`) and the sink is *not* called for that subtree:
the step is exactly the continuation on the patched parent, with no emission
recorded and `σ` never applied to the subtree.  The pruning cascades because
the parent, when its own frame is later flushed by the same rule with a
now-emptier entry list, is removed from *its* parent in turn (this theorem
applies to that flush as well, for any continuation `recur`). -/
theorem C5_empty_subtree_pruned (σ : Tree → ObjectId)
    (recur : Store → List Frame → List Frame → Option (ObjectId × Store × List Emit))
    (st : Store) (frame : Frame) (parents' children' : List Frame) (idx : Nat)
    (st1 : Store) (parent_to_adjust : Frame) (entry_idx : Nat)
    (hpi : frame.parent_idx = some idx)
    (hscan : scanEntries st frame.rela_path parents'.length frame.tree.entries = (st1, []))
    (hemp : frame.tree.entries.filter (fun e => !e.oid.is_null) = [])
    (hget : parents'.get? idx = some parent_to_adjust)
    (hbs : binary_search_by parent_to_adjust.tree.entries
      (fun e => cmp_entry_with_name e (filename frame.rela_path) true) = .found entry_idx) :
    writeStep σ recur st frame parents' children' =
      recur st1
        (parents'.set idx
          ⟨parent_to_adjust.parent_idx, parent_to_adjust.rela_path,
            ⟨parent_to_adjust.tree.entries.eraseIdx entry_idx⟩⟩)
        children' := by
  rw [writeStep]
  simp only [hscan, hpi, hget, hbs, hemp]
  rfl

/-- Witness for C5 at a concrete state: a subtree `a/b` holding only a
placeholder entry; its parent (the frame for `a`) loses its `b` entry and no
sink call is recorded for `a/b`. -/
theorem C5_witness :
    writeStep (fun t => ObjectId.oid t.entries.length)
        (writeLoop (fun t => ObjectId.oid t.entries.length) 3) []
        ⟨some 0, [97, 47, 98], ⟨[⟨[99], .Blob, .null⟩]⟩⟩
        [⟨none, [], ⟨[⟨[98], .Tree, .null⟩]⟩⟩] []
      = writeLoop (fun t => ObjectId.oid t.entries.length) 3 []
          [⟨none, [], ⟨[]⟩⟩] [] :=
  C5_empty_subtree_pruned (fun t => ObjectId.oid t.entries.length)
    (writeLoop (fun t => ObjectId.oid t.entries.length) 3) []
    ⟨some 0, [97, 47, 98], ⟨[⟨[99], .Blob, .null⟩]⟩⟩
    [⟨none, [], ⟨[⟨[98], .Tree, .null⟩]⟩⟩] [] 0 [] ⟨none, [], ⟨[⟨[98], .Tree, .null⟩]⟩⟩ 0
    (by decide) (by decide) (by decide) (by decide) (by decide)

/-- **C6 (amended).** During `write`, when a flushed frame has no parent index
while the parents stack is non-empty (an orphaned subtree), the sink is
invoked on the placeholder-stripped tree *iff that tree still has entries*;
when invoked, its returned identifier is discarded — the continuation state
`(st1, parents', children')` does not depend on `σ`'s value on the tree, the
call is only recorded in the emission trace. -/
theorem C6_orphan_sink_guarded (σ : Tree → ObjectId)
    (recur : Store → List Frame → List Frame → Option (ObjectId × Store × List Emit))
    (st : Store) (frame : Frame) (parents' children' : List Frame) (st1 : Store)
    (hpi : frame.parent_idx = none)
    (hscan : scanEntries st frame.rela_path parents'.length frame.tree.entries = (st1, []))
    (hpe : parents' ≠ []) :
    writeStep σ recur st frame parents' children' =
      if frame.tree.entries.filter (fun e => !e.oid.is_null) = [] then
        recur st1 parents' children'
      else
        (recur st1 parents' children').map
          (fun r => (r.1, r.2.1,
            (frame.rela_path, ⟨frame.tree.entries.filter (fun e => !e.oid.is_null)⟩) :: r.2.2)) := by
  rw [writeStep]
  simp only [hscan, hpi]
  have hpe' : parents'.isEmpty = false := by
    cases parents' with
    | nil => exact absurd rfl hpe
    | cons a l => rfl
  rw [hpe']
  by_cases hemp : frame.tree.entries.filter (fun e => !e.oid.is_null) = []
  · rw [if_pos hemp]
    simp only [hemp]
    rfl
  · rw [if_neg hemp]
    have : (frame.tree.entries.filter (fun e => !e.oid.is_null)).isEmpty = false := by
      cases hl : frame.tree.entries.filter (fun e => !e.oid.is_null) with
      | nil => exact absurd hl hemp
      | cons a l => rfl
    simp only [this]
    rfl

/-- Witness for the amended C6, non-empty case: the orphan tree is emitted
for its side effect (it appears in the trace) and the continuation result is
otherwise untouched. -/
theorem C6_witness :
    writeStep (fun t => ObjectId.oid t.entries.length)
        (writeLoop (fun t => ObjectId.oid t.entries.length) 3) []
        ⟨none, [120], ⟨[⟨[121], .Blob, .oid 9⟩]⟩⟩
        [⟨none, [], ⟨[⟨[97], .Blob, .oid 1⟩]⟩⟩] []
      = (writeLoop (fun t => ObjectId.oid t.entries.length) 3 []
            [⟨none, [], ⟨[⟨[97], .Blob, .oid 1⟩]⟩⟩] []).map
          (fun r => (r.1, r.2.1, (([120] : PathKey),
            (⟨[⟨[121], .Blob, .oid 9⟩]⟩ : Tree)) :: r.2.2)) := by
  have h := C6_orphan_sink_guarded (fun t => ObjectId.oid t.entries.length)
    (writeLoop (fun t => ObjectId.oid t.entries.length) 3) []
    ⟨none, [120], ⟨[⟨[121], .Blob, .oid 9⟩]⟩⟩
    [⟨none, [], ⟨[⟨[97], .Blob, .oid 1⟩]⟩⟩] [] []
    (by decide) (by decide) (by decide)
  rw [h]
  rfl

/-- Counterexample for C6 as frozen: a flushed frame with no parent index
while the parents stack is non-empty, whose tree holds only placeholder
entries.  The claim says the sink is invoked on that tree; the code also
requires the placeholder-stripped tree to be non-empty, so no sink call
happens for it — the only recorded emission of the whole run is the root's. -/
theorem C6_counterexample :
    writeStep (fun t => ObjectId.oid t.entries.length)
        (writeLoop (fun t => ObjectId.oid t.entries.length) 3) []
        ⟨none, [120], ⟨[⟨[121], .Blob, .null⟩]⟩⟩
        [⟨none, [], ⟨[⟨[97], .Blob, .oid 1⟩]⟩⟩] []
      = some (ObjectId.oid 1, [([], ⟨[⟨[97], .Blob, .oid 1⟩]⟩)],
          [([], ⟨[⟨[97], .Blob, .oid 1⟩]⟩)]) := by
  decide

/-! ### C10: empty path iterator -/

/-- **C10.** For every editor state with the root present, calling `upsert` or
`remove` with an empty path-component iterator returns `Ok(self)`: the store
is returned unchanged (no tree modified, no key inserted), no `find_tree`
call is made, and nothing is removed.  The root-presence hypothesis reflects
the `expect` at the top of `upsert_or_remove`, which runs before the loop. -/
theorem C10_empty_path_is_noop (find : ObjectId → Option Tree) (st : Store)
    (kind_and_id : Option (EntryKind × ObjectId)) (root : Tree)
    (hroot : Store.find? st [] = some root) :
    upsert_or_remove find st [] kind_and_id = some ⟨st, [], false⟩ := by
  unfold upsert_or_remove
  rw [hroot]
  rfl

/-- Witness for C10 at a concrete store (both for an upsert payload and for a
remove payload). -/
theorem C10_witness :
    upsert_or_remove (fun _ => none) [([], ⟨[⟨[97], .Blob, .oid 3⟩]⟩)] []
        (some (.Blob, .oid 9)) = some ⟨[([], ⟨[⟨[97], .Blob, .oid 3⟩]⟩)], [], false⟩ ∧
      upsert_or_remove (fun _ => none) [([], ⟨[⟨[97], .Blob, .oid 3⟩]⟩)] [] none
        = some ⟨[([], ⟨[⟨[97], .Blob, .oid 3⟩]⟩)], [], false⟩ :=
  ⟨C10_empty_path_is_noop (fun _ => none) _ _ _ rfl,
    C10_empty_path_is_noop (fun _ => none) _ _ _ rfl⟩


theorem ordThen_assoc (a b c : Ordering) :
    (a.then b).then c = a.then (b.then c) := by
  cases a <;> rfl

theorem cmpTake_eq_cmpCore (f : List Nat) (ft : Bool) (g : List Nat) (t : Bool) :
    (listCmp (f.take (min f.length g.length)) (g.take (min f.length g.length))).then
      (optByteCmp (slashExt (f.get? (min f.length g.length)) ft)
        (slashExt (g.get? (min f.length g.length)) t)) = cmpCore f ft g t := by
  induction f generalizing g with
  | nil =>
    cases g with
    | nil => simp [cmpCore, listCmp, slashExt, optByteCmp, Ordering.then]
    | cons b bs => simp [cmpCore, listCmp, slashExt, optByteCmp, Ordering.then]
  | cons x xs ih =>
    cases g with
    | nil => simp [cmpCore, listCmp, slashExt, optByteCmp, Ordering.then]
    | cons b bs =>
      have hmin : min (x :: xs).length (b :: bs).length = min xs.length bs.length + 1 := by
        simp [Nat.succ_min_succ]
      rw [hmin]
      simp only [List.take_succ_cons, List.get?_cons_succ, listCmp, cmpCore]
      rw [ordThen_assoc, ih]

theorem cmp_entry_eq_cmpCore (a : TreeEntry) (name : FName) (t : Bool) :
    cmp_entry_with_name a name t = cmpCore a.filename a.mode.is_tree name t := by
  rw [← cmpTake_eq_cmpCore]
  rfl

theorem byteCmp_eq_iff (a b : Nat) : byteCmp a b = .eq ↔ a = b := by
  unfold byteCmp
  split <;> rename_i h
  · simp
    omega
  · split <;> rename_i h2
    · simpa using h2
    · simp
      omega

theorem cmpCore_eq_lex (f : List Nat) (ft : Bool) (g : List Nat) (t : Bool)
    (hf : 47 ∉ f) (hg : 47 ∉ g) :
    cmpCore f ft g t = listCmp (decorate f ft) (decorate g t) := by
  induction f generalizing g with
  | nil =>
    cases g with
    | nil => cases ft <;> cases t <;> simp [cmpCore, decorate, listCmp, optByteCmp, byteCmp, Ordering.then]
    | cons b bs =>
      have hb : b ≠ 47 := by
        intro h
        exact hg (by simp [h])
      cases ft with
      | false => simp [cmpCore, decorate, listCmp, optByteCmp]
      | true =>
        have : byteCmp 47 b ≠ .eq := by
          rw [Ne, byteCmp_eq_iff]
          omega
        simp only [cmpCore, decorate, listCmp, optByteCmp, if_pos rfl, List.nil_append,
          List.cons_append]
        cases hc : byteCmp 47 b <;> simp_all [Ordering.then]
  | cons x xs ih =>
    cases g with
    | nil =>
      have hx : x ≠ 47 := by
        intro h
        exact hf (by simp [h])
      cases t with
      | false => simp [cmpCore, decorate, listCmp, optByteCmp]
      | true =>
        have : byteCmp x 47 ≠ .eq := by
          rw [Ne, byteCmp_eq_iff]
          omega
        simp only [cmpCore, decorate, listCmp, optByteCmp, if_pos rfl, List.nil_append,
          List.cons_append]
        cases hc : byteCmp x 47 <;> simp_all [Ordering.then]
    | cons b bs =>
      have hf' : 47 ∉ xs := fun h => hf (by simp [h])
      have hg' : 47 ∉ bs := fun h => hg (by simp [h])
      simp only [cmpCore, decorate, List.cons_append, listCmp]
      rw [ih bs hf' hg']
      rfl

/-- Shared bridge: under slash-free filenames, `cmp_entry_with_name` is the
lexicographic byte order on the names decorated with a trailing `/` for
tree-kind sides. -/
theorem cmp_entry_eq_spec (a : TreeEntry) (name : FName) (t : Bool)
    (hf : 47 ∉ a.filename) (hg : 47 ∉ name) :
    cmp_entry_with_name a name t = specEntryOrder a.filename a.mode.is_tree name t := by
  rw [cmp_entry_eq_cmpCore, cmpCore_eq_lex _ _ _ _ hf hg]
  rfl

/-- **C1.** The entry comparison used for binary search and insertion orders an
entry against a candidate `(filename, is_tree)` pair exactly as the spec
states: the filenames are compared bytewise over their common prefix, the
first differing byte decides, and a side that is a prefix of the other is
extended by a single synthetic `/` byte exactly when that side is tree-kind
and otherwise simply ends.  This holds for every pair of filenames (filenames
contain no `/` byte, per the data model) and every combination of tree-kind
flags. -/
theorem C1_cmp_entry_with_name_matches_spec (a : TreeEntry) (name : FName) (t : Bool)
    (hf : 47 ∉ a.filename) (hg : 47 ∉ name) :
    cmp_entry_with_name a name t = specEntryOrder a.filename a.mode.is_tree name t :=
  cmp_entry_eq_spec a name t hf hg

/-- Witness for C1 at a concrete input: `foo` as a tree against `foo.bar` as a
non-tree (the synthetic `/` = 47 sorts after `.` = 46). -/
theorem C1_witness :
    (47 ∉ ([102, 111, 111] : List Nat)) ∧ (47 ∉ ([102, 111, 111, 46, 98] : List Nat)) ∧
      cmp_entry_with_name ⟨[102, 111, 111], .Tree, .null⟩ [102, 111, 111, 46, 98] false
        = specEntryOrder [102, 111, 111] true [102, 111, 111, 46, 98] false :=
  ⟨by decide, by decide,
    C1_cmp_entry_with_name_matches_spec ⟨[102, 111, 111], .Tree, .null⟩ [102, 111, 111, 46, 98]
      false (by decide) (by decide)⟩

/-! ## Order theory for the lexicographic comparison -/

theorem byteCmp_swap (a b : Nat) : byteCmp b a = (byteCmp a b).swap := by
  unfold byteCmp
  rcases Nat.lt_trichotomy a b with h | h | h
  · rw [if_pos h, if_neg (by omega), if_neg (by omega)]
    rfl
  · rw [if_neg (by omega), if_pos h.symm, if_neg (by omega), if_pos h]
    rfl
  · rw [if_pos h, if_neg (by omega), if_neg (by omega)]
    rfl

theorem byteCmp_lt_iff {a b : Nat} : byteCmp a b = .lt ↔ a < b := by
  unfold byteCmp
  split <;> rename_i h
  · simp [h]
  · split <;> simp <;> omega

theorem byteCmp_lt_trans {a b c : Nat} (h1 : byteCmp a b = .lt) (h2 : byteCmp b c = .lt) :
    byteCmp a c = .lt := by
  rw [byteCmp_lt_iff] at *
  omega

theorem listCmp_refl (a : List Nat) : listCmp a a = .eq := by
  induction a with
  | nil => rfl
  | cons x xs ih => simp [listCmp, (byteCmp_eq_iff x x).mpr rfl, Ordering.then, ih]

theorem listCmp_eq_iff (a b : List Nat) : listCmp a b = .eq ↔ a = b := by
  constructor
  · induction a generalizing b with
    | nil =>
      cases b <;> simp [listCmp]
    | cons x xs ih =>
      cases b with
      | nil => simp [listCmp]
      | cons y ys =>
        intro h
        simp only [listCmp] at h
        have hx : byteCmp x y = .eq := by
          cases hxy : byteCmp x y <;> simp [hxy, Ordering.then] at h ⊢
        rw [hx, Ordering.then] at h
        have := ih ys h
        have hx' := (byteCmp_eq_iff x y).mp hx
        simp [hx', this]
  · intro h
    subst h
    exact listCmp_refl a

theorem listCmp_swap (a b : List Nat) : listCmp b a = (listCmp a b).swap := by
  induction a generalizing b with
  | nil => cases b <;> rfl
  | cons x xs ih =>
    cases b with
    | nil => rfl
    | cons y ys =>
      simp only [listCmp, byteCmp_swap x y]
      cases byteCmp x y <;> simp [Ordering.then, Ordering.swap, ih]

theorem listCmp_lt_trans {a b c : List Nat} (h1 : listCmp a b = .lt) (h2 : listCmp b c = .lt) :
    listCmp a c = .lt := by
  induction a generalizing b c with
  | nil =>
    cases b with
    | nil => simp [listCmp] at h1
    | cons y ys => cases c <;> simp_all [listCmp]
  | cons x xs ih =>
    cases b with
    | nil => simp [listCmp] at h1
    | cons y ys =>
      cases c with
      | nil => simp [listCmp] at h2
      | cons z zs =>
        simp only [listCmp] at h1 h2 ⊢
        cases hxy : byteCmp x y with
        | lt =>
          cases hyz : byteCmp y z with
          | lt => rw [byteCmp_lt_trans hxy hyz]; rfl
          | eq => rw [← (byteCmp_eq_iff y z).mp hyz, hxy]; rfl
          | gt => simp [hyz, Ordering.then] at h2
        | eq =>
          rw [(byteCmp_eq_iff x y).mp hxy]
          rw [hxy, Ordering.then] at h1
          cases hyz : byteCmp y z with
          | lt => rfl
          | eq =>
            simp only [hyz, Ordering.then] at h2
            simp only [Ordering.then]
            exact ih h1 h2
          | gt => simp [hyz, Ordering.then] at h2
        | gt => rw [hxy] at h1; simp [Ordering.then] at h1

theorem ordRank_eq_zero {o : Ordering} : ordRank o = 0 ↔ o = .lt := by
  cases o <;> simp [ordRank]

theorem ordRank_eq_two {o : Ordering} : ordRank o = 2 ↔ o = .gt := by
  cases o <;> simp [ordRank]

/-- Monotone classification: if `a` precedes-or-equals `b` in the lexicographic
order, then comparing against a fixed target cannot decrease in rank. -/
theorem listCmp_rank_mono {a b t : List Nat} (hab : listCmp a b ≠ .gt) :
    ordRank (listCmp a t) ≤ ordRank (listCmp b t) := by
  rcases hab' : listCmp a b with _ | _ | _
  · -- a < b
    rcases hbt : listCmp b t with _ | _ | _
    · have := listCmp_lt_trans hab' hbt
      simp [this, ordRank]
    · have hbt' := (listCmp_eq_iff b t).mp hbt
      subst hbt'
      simp [hab', ordRank]
    · cases hat : listCmp a t <;> simp [ordRank]
  · have := (listCmp_eq_iff a b).mp hab'
    subst this
    exact le_refl _
  · exact absurd hab' hab

theorem bsGo_found_spec (f : TreeEntry → Ordering) (l : List TreeEntry) :
    ∀ fuel left right, right - left ≤ fuel → right ≤ l.length →
      ∀ i, bsGo f l fuel left right = .found i →
        left ≤ i ∧ i < right ∧ ∃ e, l.get? i = some e ∧ f e = .eq := by
  intro fuel
  induction fuel with
  | zero =>
    intro left right hfuel hlen i hres
    cases hres
  | succ fuel ih =>
    intro left right hfuel hlen i hres
    rw [bsGo] at hres
    by_cases hlr : left < right
    · rw [if_pos hlr] at hres
      set mid := left + (right - left) / 2 with hmid
      have hmlt : mid < right := by omega
      have hmge : left ≤ mid := by omega
      have hmlen : mid < l.length := lt_of_lt_of_le hmlt hlen
      have he : l.get? mid = some (l.get ⟨mid, hmlen⟩) := List.get?_eq_get hmlen
      cases hf : f ((l.get? mid).getD default) with
      | lt =>
        simp only [hf] at hres
        have := ih (mid + 1) right (by omega) hlen i hres
        exact ⟨by omega, this.2.1, this.2.2⟩
      | gt =>
        simp only [hf] at hres
        have := ih left mid (by omega) (le_of_lt hmlen) i hres
        exact ⟨this.1, by omega, this.2.2⟩
      | eq =>
        simp only [hf] at hres
        injection hres with hmi
        subst hmi
        refine ⟨hmge, hmlt, l.get ⟨mid, hmlen⟩, he, ?_⟩
        rw [he] at hf
        exact hf
    · rw [if_neg hlr] at hres
      cases hres

theorem bsGo_notFound_spec (f : TreeEntry → Ordering) (l : List TreeEntry) :
    ∀ fuel left right, right - left ≤ fuel → left ≤ right → right ≤ l.length →
      MonoClass f l →
      (∀ j e, j < left → l.get? j = some e → f e = .lt) →
      (∀ j e, right ≤ j → l.get? j = some e → f e = .gt) →
      ∀ i, bsGo f l fuel left right = .notFound i →
        left ≤ i ∧ i ≤ right ∧
          ∀ j e, l.get? j = some e → (j < i → f e = .lt) ∧ (i ≤ j → f e = .gt) := by
  intro fuel
  induction fuel with
  | zero =>
    intro left right hfuel hlr hlen hmono hlo hhi i hres
    have hlr' : left = right := by omega
    subst hlr'
    injection hres with hli
    subst hli
    refine ⟨le_refl _, le_refl _, ?_⟩
    intro j e hje
    exact ⟨fun hj => hlo j e hj hje, fun hj => hhi j e hj hje⟩
  | succ fuel ih =>
    intro left right hfuel hlr hlen hmono hlo hhi i hres
    rw [bsGo] at hres
    by_cases hlr' : left < right
    · rw [if_pos hlr'] at hres
      set mid := left + (right - left) / 2 with hmid
      have hmlt : mid < right := by omega
      have hmge : left ≤ mid := by omega
      have hmlen : mid < l.length := lt_of_lt_of_le hmlt hlen
      have he : l.get? mid = some (l.get ⟨mid, hmlen⟩) := List.get?_eq_get hmlen
      cases hf : f ((l.get? mid).getD default) with
      | lt =>
        simp only [hf] at hres
        rw [he] at hf
        simp only [Option.getD_some] at hf
        have hlo' : ∀ j e, j < mid + 1 → l.get? j = some e → f e = .lt := by
          intro j e hj hje
          have hmr := hmono j mid e (l.get ⟨mid, hmlen⟩) (by omega) hje he
          rw [hf] at hmr
          cases hfe : f e with
          | lt => rfl
          | eq => rw [hfe] at hmr; simp [ordRank] at hmr
          | gt => rw [hfe] at hmr; simp [ordRank] at hmr
        have := ih (mid + 1) right (by omega) (by omega) hlen hmono hlo' hhi i hres
        exact ⟨by omega, this.2.1, this.2.2⟩
      | gt =>
        simp only [hf] at hres
        rw [he] at hf
        simp only [Option.getD_some] at hf
        have hhi' : ∀ j e, mid ≤ j → l.get? j = some e → f e = .gt := by
          intro j e hj hje
          have hmr := hmono mid j (l.get ⟨mid, hmlen⟩) e hj he hje
          rw [hf] at hmr
          cases hfe : f e with
          | gt => rfl
          | lt => rw [hfe] at hmr; simp [ordRank] at hmr
          | eq => rw [hfe] at hmr; simp [ordRank] at hmr
        have := ih left mid (by omega) (by omega) (le_of_lt hmlen) hmono hlo hhi' i hres
        exact ⟨this.1, by omega, this.2.2⟩
      | eq =>
        simp only [hf] at hres
        cases hres
    · rw [if_neg hlr'] at hres
      injection hres with hli
      subst hli
      refine ⟨le_refl _, hlr, ?_⟩
      intro j e hje
      constructor
      · intro hj
        exact hlo j e hj hje
      · intro hj
        exact hhi j e (by omega) hje

/-- `binary_search_by` success characterisation (no sortedness needed). -/
theorem binary_search_found (l : List TreeEntry) (f : TreeEntry → Ordering) (i : Nat)
    (hres : binary_search_by l f = .found i) :
    i < l.length ∧ ∃ e, l.get? i = some e ∧ f e = .eq := by
  have := bsGo_found_spec f l l.length 0 l.length (by omega) (le_refl _) i hres
  exact ⟨this.2.1, this.2.2⟩

/-- `binary_search_by` failure characterisation on a monotonically classified
list: `Err(i)` is the unique boundary, everything before is `lt`, everything
from `i` on is `gt`. -/
theorem binary_search_notFound (l : List TreeEntry) (f : TreeEntry → Ordering) (i : Nat)
    (hmono : MonoClass f l) (hres : binary_search_by l f = .notFound i) :
    i ≤ l.length ∧ ∀ j e, l.get? j = some e → (j < i → f e = .lt) ∧ (i ≤ j → f e = .gt) := by
  have := bsGo_notFound_spec f l l.length 0 l.length (by omega) (Nat.zero_le _) (le_refl _) hmono
    (by intro j e hj hje; omega) (by
      intro j e hj hje
      have := List.get?_eq_none.mpr hj
      rw [this] at hje
      cases hje) i hres
  exact ⟨this.2.1, this.2.2⟩

/-- On a monotonically classified list, `Err` implies no member classifies
as `eq`. -/
theorem binary_search_notFound_no_eq (l : List TreeEntry) (f : TreeEntry → Ordering) (i : Nat)
    (hmono : MonoClass f l) (hres : binary_search_by l f = .notFound i) :
    ∀ e ∈ l, f e ≠ .eq := by
  intro e he
  obtain ⟨j, hje⟩ := List.get_of_mem he
  have hget : l.get? (j : Nat) = some e := by
    rw [List.get?_eq_get j.isLt]
    exact congrArg some hje
  have hsp := (binary_search_notFound l f i hmono hres).2 j e hget
  by_cases hji : (j : Nat) < i
  · rw [hsp.1 hji]
    decide
  · rw [hsp.2 (by omega)]
    decide

/-! ### Path ancestry lemmas -/

theorem hasPrefAux_iff (a b : List Nat) : hasPrefAux a b = true ↔ ∃ r, b = a ++ r := by
  induction a generalizing b with
  | nil =>
    simp [hasPrefAux]
  | cons x xs ih =>
    cases b with
    | nil =>
      simp [hasPrefAux]
    | cons y ys =>
      simp only [hasPrefAux, Bool.and_eq_true, beq_iff_eq, ih, List.cons_append]
      constructor
      · rintro ⟨hx, r, hr⟩
        exact ⟨r, by rw [hx, hr]⟩
      · rintro ⟨r, hr⟩
        injection hr with h1 h2
        exact ⟨h1.symm, r, h2⟩

theorem strictAnc_iff (p q : PathKey) :
    strictAnc p q ↔ (p = [] ∧ q ≠ []) ∨ ∃ r, q = p ++ 47 :: r := by
  unfold strictAnc
  simp only [Bool.or_eq_true, Bool.and_eq_true, decide_eq_true_eq, hasPrefAux_iff]
  constructor
  · rintro (⟨hp, hq⟩ | ⟨r, hr⟩)
    · exact Or.inl ⟨hp, hq⟩
    · refine Or.inr ⟨r, ?_⟩
      rw [hr, List.append_assoc]
      rfl
  · rintro (⟨hp, hq⟩ | ⟨r, hr⟩)
    · exact Or.inl ⟨hp, hq⟩
    · refine Or.inr ⟨r, ?_⟩
      rw [hr, List.append_assoc]
      rfl

theorem strictAnc_length {p q : PathKey} (h : strictAnc p q) : p.length < q.length := by
  rcases (strictAnc_iff p q).mp h with ⟨hp, hq⟩ | ⟨r, hr⟩
  · subst hp
    cases q with
    | nil => exact absurd rfl hq
    | cons a l => simp
  · subst hr
    simp only [List.length_append, List.length_cons]
    omega

theorem ancEq_length {p q : PathKey} (h : ancEq p q) : p.length ≤ q.length := by
  rcases h with h | h
  · subst h; exact le_refl _
  · exact le_of_lt (strictAnc_length h)

theorem strictAnc_irrefl (p : PathKey) : ¬ strictAnc p p := by
  intro h
  exact absurd (strictAnc_length h) (lt_irrefl _)

theorem ancEq_refl (p : PathKey) : ancEq p p := Or.inl rfl

theorem chainSplit : ∀ (a b ra rb : List Nat), a ++ 47 :: ra = b ++ 47 :: rb →
    (∃ r, b = a ++ 47 :: r) ∨ a = b ∨ (∃ r, a = b ++ 47 :: r) := by
  intro a
  induction a with
  | nil =>
    intro b ra rb h
    cases b with
    | nil => exact Or.inr (Or.inl rfl)
    | cons y ys =>
      simp only [List.nil_append, List.cons_append] at h
      injection h with h1 h2
      refine Or.inl ⟨ys, ?_⟩
      rw [← h1]
      rfl
  | cons x xs ih =>
    intro b ra rb h
    cases b with
    | nil =>
      simp only [List.cons_append, List.nil_append] at h
      injection h with h1 h2
      refine Or.inr (Or.inr ⟨xs, ?_⟩)
      rw [h1]
      rfl
    | cons y ys =>
      simp only [List.cons_append] at h
      injection h with h1 h2
      rcases ih ys ra rb h2 with ⟨r, hr⟩ | hr | ⟨r, hr⟩
      · refine Or.inl ⟨r, ?_⟩
        rw [h1, hr]
        rfl
      · exact Or.inr (Or.inl (by rw [h1, hr]))
      · refine Or.inr (Or.inr ⟨r, ?_⟩)
        rw [h1, hr]
        rfl

theorem strictAnc_of_nil {q : PathKey} (h : q ≠ []) : strictAnc [] q :=
  (strictAnc_iff [] q).mpr (Or.inl ⟨rfl, h⟩)

theorem anc_comparable {a b c : PathKey} (ha : ancEq a c) (hb : ancEq b c) :
    ancEq a b ∨ ancEq b a := by
  rcases ha with ha | ha
  · subst ha
    exact Or.inr hb
  · rcases hb with hb | hb
    · subst hb
      exact Or.inl (Or.inr ha)
    · rcases (strictAnc_iff a c).mp ha with ⟨hp, _⟩ | ⟨ra, hra⟩
      · subst hp
        by_cases hbn : b = []
        · subst hbn
          exact Or.inl (Or.inl rfl)
        · exact Or.inl (Or.inr (strictAnc_of_nil hbn))
      · rcases (strictAnc_iff b c).mp hb with ⟨hp, _⟩ | ⟨rb, hrb⟩
        · subst hp
          by_cases han : a = []
          · subst han
            exact Or.inl (Or.inl rfl)
          · exact Or.inr (Or.inr (strictAnc_of_nil han))
        · rw [hra] at hrb
          rcases chainSplit a b ra rb hrb with ⟨r, hr⟩ | hr | ⟨r, hr⟩
          · exact Or.inl (Or.inr ((strictAnc_iff a b).mpr (Or.inr ⟨r, hr⟩)))
          · exact Or.inl (Or.inl hr)
          · exact Or.inr (Or.inr ((strictAnc_iff b a).mpr (Or.inr ⟨r, hr⟩)))

theorem strictAnc_trans {a b c : PathKey} (h1 : strictAnc a b) (h2 : strictAnc b c) :
    strictAnc a c := by
  rcases (strictAnc_iff a b).mp h1 with ⟨hp, hq⟩ | ⟨ra, hra⟩
  · subst hp
    refine strictAnc_of_nil ?_
    intro hc
    subst hc
    exact absurd (strictAnc_length h2) (by simp)
  · rcases (strictAnc_iff b c).mp h2 with ⟨hp, hq⟩ | ⟨rb, hrb⟩
    · rw [hp] at hra
      cases a <;> simp at hra
    · refine (strictAnc_iff a c).mpr (Or.inr ⟨ra ++ 47 :: rb, ?_⟩)
      rw [hrb, hra]
      simp

theorem ancEq_trans {a b c : PathKey} (h1 : ancEq a b) (h2 : ancEq b c) : ancEq a c := by
  rcases h1 with h1 | h1
  · subst h1; exact h2
  · rcases h2 with h2 | h2
    · subst h2; exact Or.inr h1
    · exact Or.inr (strictAnc_trans h1 h2)

theorem push_eq (p : PathKey) (n : FName) :
    push_path_component p n = if p = [] then n else p ++ 47 :: n := by
  unfold push_path_component
  cases p <;> simp

theorem strictAnc_push (p : PathKey) (n : FName) (hn : n ≠ []) :
    strictAnc p (push_path_component p n) := by
  rw [push_eq]
  by_cases hp : p = []
  · subst hp
    rw [if_pos rfl]
    exact strictAnc_of_nil hn
  · rw [if_neg hp]
    exact (strictAnc_iff _ _).mpr (Or.inr ⟨n, rfl⟩)

theorem anc_of_push {q p : PathKey} {n : FName} (hn : 47 ∉ n) (hne : n ≠ [])
    (h : strictAnc q (push_path_component p n)) : ancEq q p := by
  rw [push_eq] at h
  by_cases hp : p = []
  · subst hp
    rw [if_pos rfl] at h
    rcases (strictAnc_iff q n).mp h with ⟨h1, _⟩ | ⟨r, hr⟩
    · exact Or.inl h1
    · exact absurd (by rw [hr]; simp : (47 : Nat) ∈ n) hn
  · rw [if_neg hp] at h
    rcases (strictAnc_iff _ _).mp h with ⟨h1, _⟩ | ⟨r, hr⟩
    · subst h1
      exact Or.inr (strictAnc_of_nil hp)
    · rcases chainSplit q p r n hr.symm with ⟨r2, hr2⟩ | hr2 | ⟨r2, hr2⟩
      · exact Or.inr ((strictAnc_iff q p).mpr (Or.inr ⟨r2, hr2⟩))
      · exact Or.inl hr2
      · exfalso
        rw [hr2] at hr
        have heq : p ++ 47 :: n = p ++ 47 :: (r2 ++ 47 :: r) := by
          rw [hr]
          simp
        have h3 := List.append_cancel_left heq
        injection h3 with h4 h5
        apply hn
        rw [h5]
        simp

theorem push_length (p : PathKey) (n : FName) (hn : n ≠ []) :
    p.length < (push_path_component p n).length := by
  rw [push_eq]
  by_cases hp : p = []
  · subst hp
    rw [if_pos rfl]
    cases n with
    | nil => exact absurd rfl hn
    | cons a l => simp
  · rw [if_neg hp]
    simp only [List.length_append, List.length_cons]
    omega

theorem push_not_anc_push {p : PathKey} {n1 n2 : FName} (h1 : n1 ≠ [])
    (hn2 : 47 ∉ n2) (hne2 : n2 ≠ []) :
    ¬ strictAnc (push_path_component p n1) (push_path_component p n2) := by
  intro h
  have hlen := ancEq_length (anc_of_push hn2 hne2 h)
  exact absurd (push_length p n1 h1) (by omega)

theorem takeWhile_all {l : List Nat} (h : 47 ∉ l) :
    l.takeWhile (fun b => b ≠ 47) = l := by
  induction l with
  | nil => rfl
  | cons x xs ih =>
    have hx : x ≠ 47 := fun he => h (by simp [he])
    have hxs : 47 ∉ xs := fun he => h (by simp [he])
    rw [List.takeWhile_cons, if_pos (by simp [hx]), ih hxs]

theorem takeWhile_append_stop {l1 : List Nat} (h : 47 ∉ l1) (l2 : List Nat) :
    (l1 ++ 47 :: l2).takeWhile (fun b => b ≠ 47) = l1 := by
  induction l1 with
  | nil =>
    rw [List.nil_append, List.takeWhile_cons, if_neg (by simp)]
  | cons x xs ih =>
    have hx : x ≠ 47 := fun he => h (by simp [he])
    have hxs : 47 ∉ xs := fun he => h (by simp [he])
    rw [List.cons_append, List.takeWhile_cons, if_pos (by simp [hx]), ih hxs]

theorem filename_push (p : PathKey) (n : FName) (hn : 47 ∉ n) :
    filename (push_path_component p n) = n := by
  rw [push_eq]
  unfold filename
  by_cases hp : p = []
  · rw [if_pos hp]
    rw [takeWhile_all (by simpa using hn)]
    simp
  · rw [if_neg hp]
    have hrev : (p ++ 47 :: n).reverse = n.reverse ++ 47 :: p.reverse := by
      rw [List.reverse_append]
      simp
    rw [hrev, takeWhile_append_stop (by simpa using hn)]
    simp

/-! ### Erase and scan lemmas -/

theorem Store.erase_sublist (st : Store) (p : PathKey) :
    List.Sublist (Store.erase st p) st := by
  induction st with
  | nil => simp [Store.erase]
  | cons kv st ih =>
    obtain ⟨k', t'⟩ := kv
    by_cases h1 : k' = p
    · simp only [Store.erase, if_pos h1]
      exact List.sublist_cons_self _ _
    · simp only [Store.erase, if_neg h1]
      exact List.Sublist.cons₂ _ ih

theorem Store.keys_erase_nodup (st : Store) (p : PathKey)
    (h : (Store.keys st).Nodup) : (Store.keys (Store.erase st p)).Nodup :=
  List.Nodup.sublist (List.Sublist.map _ (Store.erase_sublist st p)) h

theorem Store.find?_erase_self (st : Store) (p : PathKey)
    (hnd : (Store.keys st).Nodup) : Store.find? (Store.erase st p) p = none := by
  induction st with
  | nil => rfl
  | cons kv st ih =>
    obtain ⟨k', t'⟩ := kv
    simp only [Store.keys, List.map_cons, List.nodup_cons] at hnd
    by_cases h1 : k' = p
    · subst h1
      simp only [Store.erase, if_pos rfl]
      apply Store.not_mem_keys_find?
      exact hnd.1
    · simp only [Store.erase, if_neg h1, Store.find?]
      exact ih hnd.2

theorem Store.find?_erase_subset (st : Store) (p : PathKey)
    (hnd : (Store.keys st).Nodup) :
    ∀ k t, Store.find? (Store.erase st p) k = some t → Store.find? st k = some t := by
  intro k t h
  by_cases hkp : p = k
  · subst hkp
    rw [Store.find?_erase_self st p hnd] at h
    cases h
  · rw [Store.find?_erase_ne st p k hkp] at h
    exact h

theorem Store.erase_length_present (st : Store) (p : PathKey)
    (h : Store.find? st p ≠ none) : (Store.erase st p).length + 1 = st.length := by
  induction st with
  | nil => simp [Store.find?] at h
  | cons kv st ih =>
    obtain ⟨k', t'⟩ := kv
    by_cases h1 : k' = p
    · simp only [Store.erase, if_pos h1, List.length_cons]
    · simp only [Store.find?, if_neg h1] at h
      simp only [Store.erase, if_neg h1, List.length_cons]
      rw [← ih h]

theorem scanEntries_store_subset (rp : PathKey) (npi : Nat) :
    ∀ (entries : List TreeEntry) (st st1 : Store) (kids : List Frame),
      (Store.keys st).Nodup →
      scanEntries st rp npi entries = (st1, kids) →
      (∀ k t, Store.find? st1 k = some t → Store.find? st k = some t) ∧
        (Store.keys st1).Nodup := by
  intro entries
  induction entries with
  | nil =>
    intro st st1 kids hnd h
    simp only [scanEntries] at h
    cases h
    exact ⟨fun k t hk => hk, hnd⟩
  | cons e es ih =>
    intro st st1 kids hnd h
    simp only [scanEntries] at h
    by_cases ht : e.mode.is_tree
    · rw [if_pos ht] at h
      cases hf : Store.find? st (push_path_component rp e.filename) with
      | some sub =>
        simp only [hf] at h
        rcases hr : scanEntries (Store.erase st (push_path_component rp e.filename)) rp npi es
          with ⟨st2, ks⟩
        rw [hr] at h
        cases h
        have hnd' := Store.keys_erase_nodup st (push_path_component rp e.filename) hnd
        have := ih _ st2 ks hnd' hr
        exact ⟨fun k t hk =>
          Store.find?_erase_subset st (push_path_component rp e.filename) hnd k t
            (this.1 k t hk), this.2⟩
      | none =>
        simp only [hf] at h
        exact ih st st1 kids hnd h
    · rw [if_neg ht] at h
      exact ih st st1 kids hnd h

theorem scanEntries_kids_spec (rp : PathKey) (npi : Nat) :
    ∀ (entries : List TreeEntry) (st st1 : Store) (kids : List Frame),
      (Store.keys st).Nodup →
      scanEntries st rp npi entries = (st1, kids) →
      ∀ f ∈ kids, f.parent_idx = some npi ∧
        (∃ e ∈ entries, e.mode.is_tree = true ∧
          f.rela_path = push_path_component rp e.filename) ∧
        Store.find? st f.rela_path = some f.tree := by
  intro entries
  induction entries with
  | nil =>
    intro st st1 kids hnd h
    simp only [scanEntries] at h
    cases h
    intro f hf
    cases hf
  | cons e es ih =>
    intro st st1 kids hnd h
    simp only [scanEntries] at h
    by_cases ht : e.mode.is_tree
    · rw [if_pos ht] at h
      cases hf : Store.find? st (push_path_component rp e.filename) with
      | some sub =>
        simp only [hf] at h
        rcases hr : scanEntries (Store.erase st (push_path_component rp e.filename)) rp npi es
          with ⟨st2, ks⟩
        rw [hr] at h
        cases h
        intro f hfm
        rcases List.mem_cons.mp hfm with hfm | hfm
        · subst hfm
          exact ⟨rfl, ⟨e, by simp, ht, rfl⟩, hf⟩
        · have hnd' := Store.keys_erase_nodup st (push_path_component rp e.filename) hnd
          have h3 := ih _ st2 ks hnd' hr f hfm
          refine ⟨h3.1, ?_, ?_⟩
          · obtain ⟨e2, he2, he2t, he2p⟩ := h3.2.1
            exact ⟨e2, by simp [he2], he2t, he2p⟩
          · exact Store.find?_erase_subset st _ hnd _ _ h3.2.2
      | none =>
        simp only [hf] at h
        intro f hfm
        have h3 := ih st st1 kids hnd h f hfm
        refine ⟨h3.1, ?_, h3.2.2⟩
        obtain ⟨e2, he2, he2t, he2p⟩ := h3.2.1
        exact ⟨e2, by simp [he2], he2t, he2p⟩
    · rw [if_neg ht] at h
      intro f hfm
      have h3 := ih st st1 kids hnd h f hfm
      refine ⟨h3.1, ?_, h3.2.2⟩
      obtain ⟨e2, he2, he2t, he2p⟩ := h3.2.1
      exact ⟨e2, by simp [he2], he2t, he2p⟩

theorem scanEntries_kids_removed (rp : PathKey) (npi : Nat) :
    ∀ (entries : List TreeEntry) (st st1 : Store) (kids : List Frame),
      (Store.keys st).Nodup →
      scanEntries st rp npi entries = (st1, kids) →
      (kids.map Frame.rela_path).Nodup ∧
        ∀ f ∈ kids, Store.find? st1 f.rela_path = none := by
  intro entries
  induction entries with
  | nil =>
    intro st st1 kids hnd h
    simp only [scanEntries] at h
    cases h
    exact ⟨List.nodup_nil, by intro f hf; cases hf⟩
  | cons e es ih =>
    intro st st1 kids hnd h
    simp only [scanEntries] at h
    by_cases ht : e.mode.is_tree
    · rw [if_pos ht] at h
      cases hf : Store.find? st (push_path_component rp e.filename) with
      | some sub =>
        simp only [hf] at h
        rcases hr : scanEntries (Store.erase st (push_path_component rp e.filename)) rp npi es
          with ⟨st2, ks⟩
        rw [hr] at h
        cases h
        have hnd' := Store.keys_erase_nodup st (push_path_component rp e.filename) hnd
        have hih := ih _ st2 ks hnd' hr
        have herased : Store.find? (Store.erase st (push_path_component rp e.filename))
            (push_path_component rp e.filename) = none :=
          Store.find?_erase_self st _ hnd
        have hnotin : push_path_component rp e.filename ∉ ks.map Frame.rela_path := by
          intro hmem
          obtain ⟨g, hg, hgp⟩ := List.mem_map.mp hmem
          have := (scanEntries_kids_spec rp npi es _ st2 ks hnd' hr g hg).2.2
          rw [hgp] at this
          rw [herased] at this
          cases this
        have hst1 : Store.find? st2 (push_path_component rp e.filename) = none := by
          cases hcontra : Store.find? st2 (push_path_component rp e.filename) with
          | none => rfl
          | some t =>
            have := (scanEntries_store_subset rp npi es _ st2 ks hnd' hr).1 _ _ hcontra
            rw [herased] at this
            cases this
        constructor
        · simp only [List.map_cons, List.nodup_cons]
          exact ⟨hnotin, hih.1⟩
        · intro f hfm
          rcases List.mem_cons.mp hfm with hfm | hfm
          · subst hfm
            exact hst1
          · exact hih.2 f hfm
      | none =>
        simp only [hf] at h
        exact ih st st1 kids hnd h
    · rw [if_neg ht] at h
      exact ih st st1 kids hnd h

theorem scanEntries_length (rp : PathKey) (npi : Nat) :
    ∀ (entries : List TreeEntry) (st st1 : Store) (kids : List Frame),
      scanEntries st rp npi entries = (st1, kids) →
      st1.length + kids.length = st.length := by
  intro entries
  induction entries with
  | nil =>
    intro st st1 kids h
    simp only [scanEntries] at h
    cases h
    simp
  | cons e es ih =>
    intro st st1 kids h
    simp only [scanEntries] at h
    by_cases ht : e.mode.is_tree
    · rw [if_pos ht] at h
      cases hf : Store.find? st (push_path_component rp e.filename) with
      | some sub =>
        simp only [hf] at h
        rcases hr : scanEntries (Store.erase st (push_path_component rp e.filename)) rp npi es
          with ⟨st2, ks⟩
        rw [hr] at h
        cases h
        have := ih _ st2 ks hr
        have hlen := Store.erase_length_present st (push_path_component rp e.filename)
          (by rw [hf]; exact (by simp))
        simp only [List.length_cons]
        omega
      | none =>
        simp only [hf] at h
        exact ih st st1 kids h
    · rw [if_neg ht] at h
      exact ih st st1 kids h

theorem scanEntries_no_kids (rp : PathKey) (npi : Nat) :
    ∀ (entries : List TreeEntry) (st st1 : Store),
      scanEntries st rp npi entries = (st1, []) → st1 = st := by
  intro entries
  induction entries with
  | nil =>
    intro st st1 h
    simp only [scanEntries] at h
    injection h with h1 h2
    exact h1.symm
  | cons e es ih =>
    intro st st1 h
    simp only [scanEntries] at h
    by_cases ht : e.mode.is_tree
    · rw [if_pos ht] at h
      cases hf : Store.find? st (push_path_component rp e.filename) with
      | some sub =>
        simp only [hf] at h
        rcases hr : scanEntries (Store.erase st (push_path_component rp e.filename)) rp npi es
          with ⟨st2, ks⟩
        rw [hr] at h
        injection h with h1 h2
        cases h2
      | none =>
        simp only [hf] at h
        exact ih st st1 h
    · rw [if_neg ht] at h
      exact ih st st1 h

/-! ### Stack and entry-classification lemmas -/

theorem popTop_none : ∀ (l : List Frame), popTop l = none → l = [] := by
  intro l
  cases l with
  | nil => intro h; rfl
  | cons x xs =>
    intro h
    simp only [popTop] at h
    cases hx : popTop xs with
    | none =>
      simp only [hx] at h
      cases h
    | some p =>
      obtain ⟨gs, g⟩ := p
      simp only [hx] at h
      cases h

theorem popTop_eq : ∀ (l ps : List Frame) (f : Frame), popTop l = some (ps, f) →
    l = ps ++ [f] := by
  intro l
  induction l with
  | nil => intro ps f h; cases h
  | cons x xs ih =>
    intro ps f h
    simp only [popTop] at h
    cases hx : popTop xs with
    | none =>
      simp only [hx] at h
      injection h with h1
      injection h1 with h2 h3
      subst h2
      subst h3
      rw [popTop_none xs hx]
      rfl
    | some p =>
      obtain ⟨gs, g⟩ := p
      simp only [hx] at h
      injection h with h1
      injection h1 with h2 h3
      subst h2
      subst h3
      rw [ih gs g hx]
      rfl

theorem get?_some_get {l : List TreeEntry} {i : Nat} {e : TreeEntry}
    (hget : l.get? i = some e) (h : i < l.length) : l.get ⟨i, h⟩ = e := by
  have h0 := List.get?_eq_get h
  rw [h0] at hget
  injection hget

theorem get?_some_lt {l : List TreeEntry} {i : Nat} {e : TreeEntry}
    (hget : l.get? i = some e) : i < l.length := by
  by_contra hc
  rw [List.get?_eq_none.mpr (by omega)] at hget
  cases hget

theorem cmp_entries_left_proj (f : FName) (m : EntryKind) (x y : ObjectId) (b : TreeEntry) :
    cmp_entries ⟨f, m, x⟩ b = cmp_entries ⟨f, m, y⟩ b := rfl

theorem cmp_entries_right_proj (a : TreeEntry) (f : FName) (m : EntryKind) (x y : ObjectId) :
    cmp_entries a ⟨f, m, x⟩ = cmp_entries a ⟨f, m, y⟩ := rfl

theorem cmp_entries_left_eta (pe : TreeEntry) (x : ObjectId) (b : TreeEntry) :
    cmp_entries ⟨pe.filename, pe.mode, x⟩ b = cmp_entries pe b := rfl

theorem cmp_entries_right_eta (a : TreeEntry) (pe : TreeEntry) (x : ObjectId) :
    cmp_entries a ⟨pe.filename, pe.mode, x⟩ = cmp_entries a pe := rfl

theorem monoClass_of_sorted (l : List TreeEntry) (name : FName) (t : Bool)
    (hs : SortedStrict l) (hsf : ∀ e ∈ l, 47 ∉ e.filename) (hn : 47 ∉ name) :
    MonoClass (fun e => cmp_entry_with_name e name t) l := by
  intro i j e1 e2 hij h1 h2
  rcases Nat.eq_or_lt_of_le hij with heq | hlt
  · subst heq
    rw [h1] at h2
    injection h2 with h2
    subst h2
    exact le_refl _
  · have hjlen : j < l.length := get?_some_lt h2
    have hilen : i < l.length := lt_trans hlt hjlen
    have hR := List.pairwise_iff_get.mp hs ⟨i, hilen⟩ ⟨j, hjlen⟩ hlt
    rw [get?_some_get h1 hilen, get?_some_get h2 hjlen] at hR
    have he1 : e1 ∈ l := List.get?_mem h1
    have he2 : e2 ∈ l := List.get?_mem h2
    have hb : specEntryOrder e1.filename e1.mode.is_tree e2.filename e2.mode.is_tree = .lt := by
      rw [← cmp_entry_eq_spec e1 e2.filename e2.mode.is_tree (hsf e1 he1) (hsf e2 he2)]
      exact hR
    have hf1 : cmp_entry_with_name e1 name t = specEntryOrder e1.filename e1.mode.is_tree name t :=
      cmp_entry_eq_spec e1 name t (hsf e1 he1) hn
    have hf2 : cmp_entry_with_name e2 name t = specEntryOrder e2.filename e2.mode.is_tree name t :=
      cmp_entry_eq_spec e2 name t (hsf e2 he2) hn
    simp only [hf1, hf2]
    refine @listCmp_rank_mono (decorate e1.filename e1.mode.is_tree)
      (decorate e2.filename e2.mode.is_tree) (decorate name t) ?_
    rw [show listCmp (decorate e1.filename e1.mode.is_tree)
        (decorate e2.filename e2.mode.is_tree)
        = specEntryOrder e1.filename e1.mode.is_tree e2.filename e2.mode.is_tree from rfl, hb]
    intro hc
    cases hc

theorem decorate_inj (f g : FName) (ft gt_ : Bool) (hf : 47 ∉ f) (hg : 47 ∉ g) :
    decorate f ft = decorate g gt_ ↔ (f = g ∧ ft = gt_) := by
  constructor
  · intro h
    unfold decorate at h
    cases ft <;> cases gt_
    · exact ⟨by simpa using h, rfl⟩
    · exfalso
      simp only [if_neg, if_pos] at h
      apply hf
      rw [show f = g ++ [47] by simpa using h]
      simp
    · exfalso
      simp only [if_neg, if_pos] at h
      apply hg
      rw [show g = f ++ [47] by simpa using h.symm]
      simp
    · simp only [if_pos] at h
      have : f.reverse = g.reverse := by
        have h2 := congrArg List.reverse h
        simpa using h2
      exact ⟨by simpa using congrArg List.reverse this, rfl⟩
  · rintro ⟨h1, h2⟩
    rw [h1, h2]

theorem cmp_eq_char (e : TreeEntry) (name : FName) (t : Bool)
    (he : 47 ∉ e.filename) (hn : 47 ∉ name) :
    cmp_entry_with_name e name t = .eq ↔ (e.filename = name ∧ e.mode.is_tree = t) := by
  rw [cmp_entry_eq_spec e name t he hn]
  unfold specEntryOrder
  rw [listCmp_eq_iff]
  exact decorate_inj _ _ _ _ he hn

theorem bs_found_of_eq_mem (l : List TreeEntry) (name : FName)
    (hs : SortedStrict l) (hsf : ∀ e ∈ l, 47 ∉ e.filename) (hn : 47 ∉ name)
    (hex : ∃ e ∈ l, e.filename = name ∧ e.mode.is_tree = true) :
    ∃ j pe, binary_search_by l (fun e => cmp_entry_with_name e name true) = .found j ∧
      l.get? j = some pe ∧ pe.filename = name ∧ pe.mode.is_tree = true := by
  obtain ⟨e, hem, hef, het⟩ := hex
  cases hres : binary_search_by l (fun e => cmp_entry_with_name e name true) with
  | notFound i =>
    exfalso
    have := binary_search_notFound_no_eq l _ i (monoClass_of_sorted l name true hs hsf hn) hres
    exact this e hem ((cmp_eq_char e name true (hsf e hem) hn).mpr ⟨hef, het⟩)
  | found j =>
    obtain ⟨hjl, pe, hpe, hpeq⟩ := binary_search_found l _ j hres
    have := (cmp_eq_char pe name true (hsf pe (List.get?_mem hpe)) hn).mp hpeq
    exact ⟨j, pe, rfl, hpe, this.1, this.2⟩

theorem map_filename_set (l : List TreeEntry) :
    ∀ (j : Nat) (pe : TreeEntry) (x : ObjectId), l.get? j = some pe →
      (l.set j ⟨pe.filename, pe.mode, x⟩).map TreeEntry.filename = l.map TreeEntry.filename := by
  induction l with
  | nil => intro j pe x h; cases h
  | cons a as ih =>
    intro j pe x h
    cases j with
    | zero =>
      simp only [List.get?] at h
      injection h with h
      subst h
      simp [List.set]
    | succ j =>
      simp only [List.get?] at h
      simp [List.set, ih j pe x h]

theorem sortedStrict_set_oid (l : List TreeEntry) :
    ∀ (j : Nat) (pe : TreeEntry) (x : ObjectId), l.get? j = some pe → SortedStrict l →
      SortedStrict (l.set j ⟨pe.filename, pe.mode, x⟩) := by
  induction l with
  | nil => intro j pe x hget hs; cases hget
  | cons b bs ih =>
    intro j pe x hget hs
    unfold SortedStrict at hs ⊢
    rw [List.pairwise_cons] at hs
    cases j with
    | zero =>
      simp only [List.get?] at hget
      injection hget with hget
      subst hget
      simp only [List.set]
      rw [List.pairwise_cons]
      constructor
      · intro e he
        rw [cmp_entries_left_eta]
        exact hs.1 e he
      · exact hs.2
    | succ j =>
      simp only [List.get?] at hget
      simp only [List.set]
      rw [List.pairwise_cons]
      constructor
      · intro e he
        rcases List.mem_or_eq_of_mem_set he with he | he
        · exact hs.1 e he
        · subst he
          rw [cmp_entries_right_eta]
          exact hs.1 pe (List.get?_mem hget)
      · exact ih j pe x hget hs.2

theorem goodTree_set_oid (l : List TreeEntry) (j : Nat) (pe : TreeEntry) (x : ObjectId)
    (hget : l.get? j = some pe) (hg : GoodTree ⟨l⟩) :
    GoodTree ⟨l.set j ⟨pe.filename, pe.mode, x⟩⟩ := by
  obtain ⟨hs, hv, hnd⟩ := hg
  refine ⟨sortedStrict_set_oid l j pe x hget hs, ?_, ?_⟩
  · intro e he
    rcases List.mem_or_eq_of_mem_set he with he | he
    · exact hv e he
    · subst he
      exact hv pe (List.get?_mem hget)
  · rw [show (Tree.mk (l.set j ⟨pe.filename, pe.mode, x⟩)).entries
        = l.set j ⟨pe.filename, pe.mode, x⟩ from rfl]
    rw [map_filename_set l j pe x hget]
    exact hnd

theorem goodTree_eraseIdx (l : List TreeEntry) (j : Nat) (hg : GoodTree ⟨l⟩) :
    GoodTree ⟨l.eraseIdx j⟩ := by
  obtain ⟨hs, hv, hnd⟩ := hg
  have hsub := List.eraseIdx_sublist l j
  exact ⟨List.Pairwise.sublist hsub hs, fun e he => hv e (hsub.mem he),
    List.Nodup.sublist (List.Sublist.map _ hsub) hnd⟩

theorem mem_set_of_filename_ne (l : List TreeEntry) (j : Nat) (pe a : TreeEntry)
    (x : ObjectId) (hget : l.get? j = some pe) (ha : a ∈ l)
    (hne : a.filename ≠ pe.filename) :
    a ∈ l.set j ⟨pe.filename, pe.mode, x⟩ := by
  induction l generalizing j with
  | nil => cases ha
  | cons b bs ih =>
    cases j with
    | zero =>
      simp only [List.get?] at hget
      injection hget with hget
      subst hget
      rcases List.mem_cons.mp ha with ha | ha
      · exact absurd (by rw [ha]) hne
      · simp [List.set, ha]
    | succ j =>
      simp only [List.get?] at hget
      rcases List.mem_cons.mp ha with ha | ha
      · simp [List.set, ha]
      · simp only [List.set]
        exact List.mem_cons_of_mem _ (ih j hget ha)

theorem mem_eraseIdx_of_filename_ne (l : List TreeEntry) (j : Nat) (pe a : TreeEntry)
    (hget : l.get? j = some pe) (ha : a ∈ l) (hne : a.filename ≠ pe.filename) :
    a ∈ l.eraseIdx j := by
  induction l generalizing j with
  | nil => cases ha
  | cons b bs ih =>
    cases j with
    | zero =>
      simp only [List.get?] at hget
      injection hget with hget
      subst hget
      rcases List.mem_cons.mp ha with ha | ha
      · exact absurd (by rw [ha]) hne
      · simpa [List.eraseIdx] using ha
    | succ j =>
      simp only [List.get?] at hget
      rcases List.mem_cons.mp ha with ha | ha
      · simp [List.eraseIdx, ha]
      · simp only [List.eraseIdx]
        exact List.mem_cons_of_mem _ (ih j hget ha)

/-! ### Generic list and store utilities for the write-loop invariant -/

theorem Frame.eta (f : Frame) : (⟨f.parent_idx, f.rela_path, f.tree⟩ : Frame) = f := rfl

theorem get?_lt {α : Type} {l : List α} {i : Nat} {e : α} (h : l.get? i = some e) :
    i < l.length := by
  by_contra hc
  rw [List.get?_eq_none.mpr (by omega)] at h
  cases h

theorem between_push {p b : PathKey} {n : FName} (hn47 : 47 ∉ n) (hnne : n ≠ [])
    (h1 : strictAnc p b) (h2 : strictAnc b (push_path_component p n)) : False := by
  have hle := ancEq_length (anc_of_push hn47 hnne h2)
  exact absurd (strictAnc_length h1) (by omega)

theorem Store.mem_keys_find? (st : Store) (k : PathKey) (h : k ∈ Store.keys st) :
    Store.find? st k ≠ none := by
  induction st with
  | nil => simp [Store.keys] at h
  | cons kv st ih =>
    obtain ⟨k', t'⟩ := kv
    by_cases h1 : k' = k
    · subst h1
      simp [Store.find?]
    · simp only [Store.keys, List.map_cons, List.mem_cons] at h
      rcases h with h | h
      · exact absurd h.symm h1
      · simp only [Store.find?, if_neg h1]
        exact ih h

theorem find?_none_not_mem_keys {st : Store} {k : PathKey}
    (h : Store.find? st k = none) : k ∉ Store.keys st := by
  intro hk
  exact Store.mem_keys_find? st k hk h

theorem keys_subset_of_graph {st1 st : Store}
    (hsub : ∀ k t, Store.find? st1 k = some t → Store.find? st k = some t) :
    ∀ k ∈ Store.keys st1, k ∈ Store.keys st := by
  intro k hk
  have h1 := Store.mem_keys_find? st1 k hk
  cases hf : Store.find? st1 k with
  | none => exact absurd hf h1
  | some t =>
    apply Store.find?_mem_keys
    rw [hsub k t hf]
    simp

theorem getLast?_cons_of_ne_nil {α : Type} (x : α) {l : List α} (h : l ≠ []) :
    (x :: l).getLast? = l.getLast? := by
  cases l with
  | nil => exact absurd rfl h
  | cons y ys => exact List.getLast?_cons_cons

theorem nodup_middle_facts {α : Type} {A B : List α} {x : α} (h : (A ++ x :: B).Nodup) :
    x ∉ A ∧ x ∉ B ∧ (A ++ B).Nodup := by
  rw [List.nodup_middle, List.nodup_cons] at h
  exact ⟨fun hm => h.1 (by simp [hm]), fun hm => h.1 (by simp [hm]), h.2⟩

theorem map_rela_set (l : List Frame) :
    ∀ (idx : Nat) (pf g : Frame), l.get? idx = some pf → g.rela_path = pf.rela_path →
      (l.set idx g).map Frame.rela_path = l.map Frame.rela_path := by
  induction l with
  | nil =>
    intro idx pf g h _
    cases h
  | cons a as ih =>
    intro idx pf g h hg
    cases idx with
    | zero =>
      simp only [List.get?] at h
      injection h with h
      subst h
      simp [List.set, hg]
    | succ idx =>
      simp only [List.get?] at h
      simp [List.set, ih idx pf g h hg]

theorem mem_of_paths {l : List Frame} {p : PathKey}
    (h : p ∈ l.map Frame.rela_path) : ∃ g ∈ l, g.rela_path = p := by
  obtain ⟨g, hg, hgp⟩ := List.mem_map.mp h
  exact ⟨g, hg, hgp⟩

/-! ### Popping a frame preserves the invariant (in popped view) -/

theorem pop_inv_child {st : Store} {parents : List Frame} {c : Frame} {cs : List Frame}
    (h : LoopInv st parents (c :: cs)) : StepInv st c parents cs := by
  obtain ⟨i0, hi0, hi0lt⟩ := h.childIdx c (by simp)
  refine ⟨h.keysNd, h.storeGood, h.framesGood, ?_, ?_, h.parentsIdx, ?_, ?_, ?_, ?_,
    h.parentKnown, h.pathsNd, h.framesStore, ?_, ?_, h.parentsNoDescDown⟩
  · intro hn
    rw [hn] at hi0
    cases hi0
  · intro _
    exact h.rootFrame
  · intro i hi
    rw [hi] at hi0
    injection hi0 with hi0
    subst hi0
    exact hi0lt
  · intro f hf
    exact h.childIdx f (by simp [hf])
  · intro i hi
    exact h.childKnown c (by simp) i hi
  · intro f hf i hi
    exact h.childKnown f (by simp [hf]) i hi
  · intro g hg
    exact h.childNoDesc c (by simp) g hg
  · intro f hf g hg
    exact h.childNoDesc f (by simp [hf]) g hg

theorem pop_inv_parent {st : Store} {parents ps : List Frame} {f : Frame}
    (h : LoopInv st parents []) (hpop : popTop parents = some (ps, f)) :
    StepInv st f ps [] := by
  have hsplit : parents = ps ++ [f] := popTop_eq parents ps f hpop
  have hgetf : parents.get? ps.length = some f := by
    rw [hsplit, List.get?_append_right (le_refl _)]
    simp
  have hgetps : ∀ j (g : Frame), ps.get? j = some g → parents.get? j = some g := by
    intro j g hj
    rw [hsplit, List.get?_append (get?_lt hj)]
    exact hj
  have hmem : ∀ g : Frame, g ∈ ps ++ f :: [] → g ∈ parents ++ [] := by
    intro g hg
    rw [hsplit]
    simpa using hg
  have hpsne : 1 ≤ ps.length → f.parent_idx ≠ none := by
    intro hlen hn
    obtain ⟨i, hi, _⟩ := h.parentsIdx ps.length f hgetf hlen
    rw [hn] at hi
    cases hi
  refine ⟨h.keysNd, h.storeGood, ?_, ?_, ?_, ?_, ?_, ?_, ?_, ?_, ?_, ?_, ?_, ?_, ?_, ?_⟩
  · intro g hg
    exact h.framesGood g (hmem g hg)
  · intro hn
    by_cases hps : ps = []
    · subst hps
      obtain ⟨rt, hrt⟩ := h.rootFrame
      rw [hsplit] at hrt
      simp only [List.nil_append, List.head?] at hrt
      injection hrt with hrt
      refine ⟨rfl, rfl, ?_⟩
      rw [hrt]
    · exfalso
      have hlen : 1 ≤ ps.length := by
        cases ps with
        | nil => exact absurd rfl hps
        | cons a tl => simp
      exact hpsne hlen hn
  · intro hne
    obtain ⟨rt, hrt⟩ := h.rootFrame
    cases ps with
    | nil => exact absurd rfl hne
    | cons a tl =>
      rw [hsplit] at hrt
      simp only [List.cons_append, List.head?] at hrt
      exact ⟨rt, by simp [List.head?, hrt]⟩
  · intro j g hj h1j
    exact h.parentsIdx j g (hgetps j g hj) h1j
  · intro i hi
    have hlen : 1 ≤ ps.length := by
      by_contra hc
      have hps : ps = [] := by
        cases ps with
        | nil => rfl
        | cons a tl => simp at hc
      subst hps
      obtain ⟨rt, hrt⟩ := h.rootFrame
      rw [hsplit] at hrt
      simp only [List.nil_append, List.head?] at hrt
      injection hrt with hrt
      rw [hrt] at hi
      cases hi
    obtain ⟨i0, hi0, hi0lt⟩ := h.parentsIdx ps.length f hgetf hlen
    rw [hi] at hi0
    injection hi0 with hi0
    subst hi0
    exact hi0lt
  · intro g hg
    cases hg
  · intro i hi
    have hlen : 1 ≤ ps.length := by
      by_contra hc
      have hps : ps = [] := by
        cases ps with
        | nil => rfl
        | cons a tl => simp at hc
      subst hps
      obtain ⟨rt, hrt⟩ := h.rootFrame
      rw [hsplit] at hrt
      simp only [List.nil_append, List.head?] at hrt
      injection hrt with hrt
      rw [hrt] at hi
      cases hi
    obtain ⟨pf, e, hpf, he, het, hp⟩ := h.parentKnown ps.length f hgetf hlen i hi
    have hilt : i < ps.length := by
      obtain ⟨i0, hi0, hi0lt⟩ := h.parentsIdx ps.length f hgetf hlen
      rw [hi] at hi0
      injection hi0 with hi0
      subst hi0
      exact hi0lt
    refine ⟨pf, e, ?_, he, het, hp⟩
    rw [hsplit, List.get?_append hilt] at hpf
    exact hpf
  · intro g hg
    cases hg
  · intro j g hj h1j i hi
    have hjlt : j < ps.length := get?_lt hj
    obtain ⟨pf, e, hpf, he, het, hp⟩ := h.parentKnown j g (hgetps j g hj) h1j i hi
    obtain ⟨i0, hi0, hi0lt⟩ := h.parentsIdx j g (hgetps j g hj) h1j
    rw [hi] at hi0
    injection hi0 with hi0
    subst hi0
    refine ⟨pf, e, ?_, he, het, hp⟩
    rw [hsplit, List.get?_append (by omega)] at hpf
    exact hpf
  · have := h.pathsNd
    unfold framePaths at this
    rw [hsplit] at this
    simpa using this
  · intro g hg
    exact h.framesStore g (hmem g hg)
  · intro g hg
    rcases List.mem_append.mp hg with hg | hg
    · obtain ⟨j, hj⟩ := List.get?_of_mem hg
      exact h.parentsNoDescDown ps.length j f g hgetf (hgetps j g hj) (get?_lt hj)
    · rcases List.mem_cons.mp hg with hg | hg
      · subst hg
        exact strictAnc_irrefl _
      · cases hg
  · intro g hg
    cases hg
  · intro j1 j2 f1 f2 hj1 hj2 hlt
    exact h.parentsNoDescDown j1 j2 f1 f2 (hgetps j1 f1 hj1) (hgetps j2 f2 hj2) hlt

/-! ### The descend branch preserves the invariant -/

theorem inv_step_kids {st st2 : Store} {frame : Frame} {parents' children' kids : List Frame}
    (hs : StepInv st frame parents' children')
    (hscan : scanEntries st frame.rela_path parents'.length frame.tree.entries = (st2, kids)) :
    LoopInv st2 (parents' ++ [frame]) (kids.reverse ++ children') := by
  have hsub := scanEntries_store_subset frame.rela_path parents'.length frame.tree.entries
    st st2 kids hs.keysNd hscan
  have hkidfacts := scanEntries_kids_spec frame.rela_path parents'.length frame.tree.entries
    st st2 kids hs.keysNd hscan
  have hkrem := scanEntries_kids_removed frame.rela_path parents'.length frame.tree.entries
    st st2 kids hs.keysNd hscan
  have hgframe : GoodTree frame.tree := hs.framesGood frame (by simp)
  have hfv : EntriesValidNames frame.tree.entries := hgframe.2.1
  have hgetf : (parents' ++ [frame]).get? parents'.length = some frame := by
    rw [List.get?_append_right (le_refl _)]
    simp
  have hmem2 : ∀ g : Frame, g ∈ (parents' ++ [frame]) ++ (kids.reverse ++ children') →
      g ∈ parents' ++ frame :: children' ∨ g ∈ kids := by
    intro g hg
    simp only [List.mem_append, List.mem_reverse, List.mem_cons, List.mem_singleton] at hg ⊢
    tauto
  have holdmem : ∀ g : Frame, g ∈ parents' ++ children' → g ∈ parents' ++ frame :: children' := by
    intro g hg
    simp only [List.mem_append, List.mem_cons] at hg ⊢
    tauto
  refine ⟨hsub.2, ?_, ?_, ?_, ?_, ?_, ?_, ?_, ?_, ?_, ?_, ?_⟩
  · intro k t hk
    exact hs.storeGood k t (hsub.1 k t hk)
  · intro g hg
    rcases hmem2 g hg with hg | hg
    · exact hs.framesGood g hg
    · exact hs.storeGood _ _ (hkidfacts g hg).2.2
  · cases hps : parents' with
    | nil =>
      cases hpi : frame.parent_idx with
      | some i =>
        have := hs.frameIdx i hpi
        rw [hps] at this
        simp at this
      | none =>
        obtain ⟨hpe, hce, hre⟩ := hs.rootCase hpi
        refine ⟨frame.tree, ?_⟩
        simp only [List.nil_append, List.head?]
        cases frame with
        | mk pi rp tr =>
          simp only at hpi hre
          rw [hpi, hre]
    | cons a tl =>
      obtain ⟨rt, hrt⟩ := hs.rootHead (by rw [hps]; simp)
      rw [hps] at hrt
      simp only [List.head?] at hrt
      refine ⟨rt, ?_⟩
      simp only [List.cons_append, List.head?]
      exact hrt
  · intro j g hj h1j
    rcases Nat.lt_trichotomy j parents'.length with hlt | heq | hgt
    · rw [List.get?_append hlt] at hj
      exact hs.parentsIdx j g hj h1j
    · subst heq
      rw [hgetf] at hj
      injection hj with hj
      subst hj
      cases hpi : frame.parent_idx with
      | some i => exact ⟨i, rfl, hs.frameIdx i hpi⟩
      | none =>
        obtain ⟨hpe, _, _⟩ := hs.rootCase hpi
        rw [hpe] at h1j
        simp at h1j
    · rw [List.get?_eq_none.mpr (by simp; omega)] at hj
      cases hj
  · intro g hg
    rcases List.mem_append.mp hg with hg | hg
    · rw [List.mem_reverse] at hg
      refine ⟨parents'.length, (hkidfacts g hg).1, ?_⟩
      simp
    · obtain ⟨i, hi, hilt⟩ := hs.childIdx g hg
      refine ⟨i, hi, ?_⟩
      simp only [List.length_append, List.length_cons, List.length_nil]
      omega
  · intro g hg i hi
    rcases List.mem_append.mp hg with hg | hg
    · rw [List.mem_reverse] at hg
      obtain ⟨hpi, ⟨e, he, het, hpath⟩, _⟩ := hkidfacts g hg
      rw [hpi] at hi
      injection hi with hi
      subst hi
      exact ⟨frame, e, hgetf, he, het, hpath⟩
    · obtain ⟨pf, e, hpf, he, het, hpath⟩ := hs.childKnown g hg i hi
      refine ⟨pf, e, ?_, he, het, hpath⟩
      rw [List.get?_append (get?_lt hpf)]
      exact hpf
  · intro j g hj h1j i hi
    rcases Nat.lt_trichotomy j parents'.length with hlt | heq | hgt
    · rw [List.get?_append hlt] at hj
      obtain ⟨pf, e, hpf, he, het, hpath⟩ := hs.parentKnown j g hj h1j i hi
      refine ⟨pf, e, ?_, he, het, hpath⟩
      rw [List.get?_append (get?_lt hpf)]
      exact hpf
    · subst heq
      rw [hgetf] at hj
      injection hj with hj
      subst hj
      obtain ⟨pf, e, hpf, he, het, hpath⟩ := hs.frameKnown i hi
      refine ⟨pf, e, ?_, he, het, hpath⟩
      rw [List.get?_append (get?_lt hpf)]
      exact hpf
    · rw [List.get?_eq_none.mpr (by simp; omega)] at hj
      cases hj
  · unfold framePaths
    have h5 : (parents' ++ (kids.reverse ++ children')).Perm
        (kids.reverse ++ (parents' ++ children')) := by
      have h5a := List.Perm.append_right children'
        (@List.perm_append_comm _ parents' kids.reverse)
      rw [List.append_assoc, List.append_assoc] at h5a
      exact h5a
    have hpermF : ((parents' ++ [frame]) ++ (kids.reverse ++ children')).Perm
        (kids.reverse ++ (parents' ++ frame :: children')) := by
      have h1 : (parents' ++ [frame]) ++ (kids.reverse ++ children')
          = parents' ++ (frame :: (kids.reverse ++ children')) := by
        simp
      have h2 : (parents' ++ (frame :: (kids.reverse ++ children'))).Perm
          (frame :: (parents' ++ (kids.reverse ++ children'))) := List.perm_middle
      have h3 : (kids.reverse ++ (parents' ++ frame :: children')).Perm
          (kids.reverse ++ (frame :: (parents' ++ children'))) :=
        List.Perm.append_left _ List.perm_middle
      have h4 : (kids.reverse ++ (frame :: (parents' ++ children'))).Perm
          (frame :: (kids.reverse ++ (parents' ++ children'))) := List.perm_middle
      rw [h1]
      exact (h2.trans ((h5.cons frame).trans (h4.symm))).trans h3.symm
    have hperm : ((((parents' ++ [frame]) ++ (kids.reverse ++ children')).map
        Frame.rela_path)).Perm
        ((kids.reverse ++ (parents' ++ frame :: children')).map Frame.rela_path) :=
      hpermF.map _
    rw [List.Perm.nodup_iff hperm, List.map_append, List.nodup_append]
    refine ⟨?_, hs.pathsNd, ?_⟩
    · rw [List.map_reverse, List.nodup_reverse]
      exact hkrem.1
    · intro p hp hp2
      rw [List.map_reverse, List.mem_reverse] at hp
      obtain ⟨g, hg, hgp⟩ := mem_of_paths hp
      obtain ⟨g2, hg2, hg2p⟩ := mem_of_paths hp2
      have hkey : p ∈ Store.keys st := by
        apply Store.find?_mem_keys
        rw [← hgp, (hkidfacts g hg).2.2]
        simp
      have hnone : Store.find? st p = none := by
        rw [← hg2p]
        exact hs.framesStore g2 hg2
      exact find?_none_not_mem_keys hnone hkey
  · intro g hg
    rcases hmem2 g hg with hg | hg
    · have := hs.framesStore g hg
      cases hf2 : Store.find? st2 g.rela_path with
      | none => rfl
      | some t =>
        rw [hsub.1 _ _ hf2] at this
        cases this
    · exact hkrem.2 g hg
  · intro g hg g2 hg2
    rcases List.mem_append.mp hg with hgk | hgc
    · rw [List.mem_reverse] at hgk
      obtain ⟨_, ⟨e, he, het, hpath⟩, _⟩ := hkidfacts g hgk
      rcases hmem2 g2 hg2 with hg2 | hg2
      · intro hanc
        rw [hpath] at hanc
        have hne : e.filename ≠ [] := (hfv e he).2
        exact hs.frameNoDesc g2 hg2
          (strictAnc_trans (strictAnc_push frame.rela_path e.filename hne) hanc)
      · obtain ⟨_, ⟨e2, he2, het2, hpath2⟩, _⟩ := hkidfacts g2 hg2
        rw [hpath, hpath2]
        exact push_not_anc_push (hfv e he).2 (hfv e2 he2).1 (hfv e2 he2).2
    · rcases hmem2 g2 hg2 with hg2 | hg2
      · exact hs.childNoDesc g hgc g2 hg2
      · obtain ⟨_, ⟨e2, he2, het2, hpath2⟩, _⟩ := hkidfacts g2 hg2
        intro hanc
        rw [hpath2] at hanc
        rcases anc_of_push (hfv e2 he2).1 (hfv e2 he2).2 hanc with heq | hanc2
        · have hndm : ((parents' ++ frame :: children').map Frame.rela_path).Nodup :=
            hs.pathsNd
          rw [List.map_append, List.map_cons] at hndm
          have hfacts := nodup_middle_facts hndm
          apply hfacts.2.1
          rw [← heq]
          exact List.mem_map.mpr ⟨g, hgc, rfl⟩
        · exact hs.childNoDesc g hgc frame (by simp) hanc2
  · intro j1 j2 f1 f2 hj1 hj2 hlt
    rcases Nat.lt_trichotomy j1 parents'.length with hlt1 | heq1 | hgt1
    · rw [List.get?_append hlt1] at hj1
      rw [List.get?_append (by omega)] at hj2
      exact hs.parentsNoDescDown j1 j2 f1 f2 hj1 hj2 hlt
    · subst heq1
      rw [hgetf] at hj1
      injection hj1 with hj1
      subst hj1
      rw [List.get?_append (by omega)] at hj2
      exact hs.frameNoDesc f2 (holdmem f2 (List.mem_append_left _ (List.get?_mem hj2)))
    · rw [List.get?_eq_none.mpr (by simp; omega)] at hj1
      cases hj1

/-! ### The parent-patch branch preserves the invariant -/

theorem inv_step_patch {st : Store} {frame : Frame} {parents' children' : List Frame}
    (hs : StepInv st frame parents' children')
    {idx : Nat} {pf : Frame} (hidx : frame.parent_idx = some idx)
    (hpf : parents'.get? idx = some pf)
    (newEntries : List TreeEntry) (pf2 : Frame)
    (hpf2pi : pf2.parent_idx = pf.parent_idx) (hpf2rp : pf2.rela_path = pf.rela_path)
    (hpf2t : pf2.tree = ⟨newEntries⟩)
    (hgood : GoodTree ⟨newEntries⟩)
    (hkeep : ∀ e ∈ pf.tree.entries, e.filename ≠ filename frame.rela_path → e ∈ newEntries) :
    LoopInv st (parents'.set idx pf2) children' := by
  have hidxlt : idx < parents'.length := get?_lt hpf
  have hpfmem2 : pf ∈ parents' ++ frame :: children' :=
    List.mem_append_left _ (List.get?_mem hpf)
  have hgpf : GoodTree pf.tree := hs.framesGood pf hpfmem2
  obtain ⟨pfr, ef, hpfr, hef, heft, hfrp⟩ := hs.frameKnown idx hidx
  rw [hpf] at hpfr
  injection hpfr with hpfr
  subst hpfr
  have hname : filename frame.rela_path = ef.filename := by
    rw [hfrp]
    exact filename_push _ _ (hgpf.2.1 ef hef).1
  have hgetset_eq : (parents'.set idx pf2).get? idx = some pf2 := by
    rw [List.get?_set, if_pos rfl, hpf]
    rfl
  have hgetset_ne : ∀ j, idx ≠ j → (parents'.set idx pf2).get? j = parents'.get? j := by
    intro j h
    exact List.get?_set_ne _ _ h
  have hmapset : (parents'.set idx pf2).map Frame.rela_path = parents'.map Frame.rela_path :=
    map_rela_set parents' idx pf pf2 hpf hpf2rp
  have hndm : ((parents' ++ frame :: children').map Frame.rela_path).Nodup := hs.pathsNd
  rw [List.map_append, List.map_cons] at hndm
  have hfacts := nodup_middle_facts hndm
  have hsetmem : ∀ g : Frame, g ∈ (parents'.set idx pf2) ++ children' →
      g ∈ parents' ++ children' ∨ g = pf2 := by
    intro g hg
    rcases List.mem_append.mp hg with hg | hg
    · rcases List.mem_or_eq_of_mem_set hg with hg | hg
      · exact Or.inl (List.mem_append_left _ hg)
      · exact Or.inr hg
    · exact Or.inl (List.mem_append_right _ hg)
  have hgetold : ∀ j (f : Frame), (parents'.set idx pf2).get? j = some f →
      ∃ f0, parents'.get? j = some f0 ∧ f0.rela_path = f.rela_path := by
    intro j f hj
    by_cases hij : idx = j
    · subst hij
      rw [hgetset_eq] at hj
      injection hj with hj
      subst hj
      exact ⟨pf, hpf, hpf2rp.symm⟩
    · rw [hgetset_ne j hij] at hj
      exact ⟨f, hj, rfl⟩
  refine ⟨hs.keysNd, hs.storeGood, ?_, ?_, ?_, ?_, ?_, ?_, ?_, ?_, ?_, ?_⟩
  · intro g hg
    rcases hsetmem g hg with hg | hg
    · exact hs.framesGood g (by
        simp only [List.mem_append, List.mem_cons] at hg ⊢
        tauto)
    · rw [hg, hpf2t]
      exact hgood
  · have hne : parents' ≠ [] := by
      intro h
      rw [h] at hidxlt
      simp at hidxlt
    obtain ⟨rt, hrt⟩ := hs.rootHead hne
    have hget0 : parents'.get? 0 = some ⟨none, [], rt⟩ := by
      rw [List.get?_zero, hrt]
    by_cases h0 : idx = 0
    · subst h0
      rw [hget0] at hpf
      injection hpf with hpf
      refine ⟨pf2.tree, ?_⟩
      rw [← List.get?_zero, hgetset_eq]
      cases pf2 with
      | mk p2 r2 t2 =>
        simp only at hpf2pi hpf2rp ⊢
        rw [hpf2pi, hpf2rp, ← hpf]
    · refine ⟨rt, ?_⟩
      rw [← List.get?_zero, hgetset_ne 0 h0, List.get?_zero, hrt]
  · intro j g hj h1j
    by_cases hij : idx = j
    · subst hij
      rw [hgetset_eq] at hj
      injection hj with hj
      subst hj
      obtain ⟨i, hi, hilt⟩ := hs.parentsIdx idx pf hpf h1j
      exact ⟨i, by rw [hpf2pi, hi], hilt⟩
    · rw [hgetset_ne j hij] at hj
      exact hs.parentsIdx j g hj h1j
  · intro f hf
    obtain ⟨i, hi, hilt⟩ := hs.childIdx f hf
    exact ⟨i, hi, by rw [List.length_set]; exact hilt⟩
  · intro f hf i hfi
    obtain ⟨pfi, e, hpfi, he, het, hp⟩ := hs.childKnown f hf i hfi
    by_cases hij : idx = i
    · subst hij
      rw [hpf] at hpfi
      injection hpfi with hpfi
      subst hpfi
      have hne2 : e.filename ≠ filename frame.rela_path := by
        intro hfe
        apply hfacts.2.1
        have : f.rela_path = frame.rela_path := by
          rw [hp, hfe, hname, ← hfrp]
        rw [← this]
        exact List.mem_map.mpr ⟨f, hf, rfl⟩
      refine ⟨pf2, e, hgetset_eq, ?_, het, ?_⟩
      · rw [hpf2t]
        exact hkeep e he hne2
      · rw [hpf2rp]
        exact hp
    · rw [← hgetset_ne i hij] at hpfi
      exact ⟨pfi, e, hpfi, he, het, hp⟩
  · intro j g hj h1j i hgi
    by_cases hij : idx = j
    · subst hij
      rw [hgetset_eq] at hj
      injection hj with hj
      subst hj
      have hgi2 : pf.parent_idx = some i := by
        rw [← hpf2pi]
        exact hgi
      obtain ⟨pfi, e, hpfi, he, het, hp⟩ := hs.parentKnown idx pf hpf h1j i hgi2
      obtain ⟨i0, hi0, hi0lt⟩ := hs.parentsIdx idx pf hpf h1j
      rw [hgi2] at hi0
      injection hi0 with hi0
      subst hi0
      refine ⟨pfi, e, ?_, he, het, ?_⟩
      · rw [hgetset_ne i (by omega)]
        exact hpfi
      · rw [hpf2rp]
        exact hp
    · rw [hgetset_ne j hij] at hj
      obtain ⟨pfi, e, hpfi, he, het, hp⟩ := hs.parentKnown j g hj h1j i hgi
      by_cases hii : idx = i
      · subst hii
        rw [hpf] at hpfi
        injection hpfi with hpfi
        subst hpfi
        have hne2 : e.filename ≠ filename frame.rela_path := by
          intro hfe
          apply hfacts.1
          have : g.rela_path = frame.rela_path := by
            rw [hp, hfe, hname, ← hfrp]
          rw [← this]
          exact List.mem_map.mpr ⟨g, List.get?_mem hj, rfl⟩
        refine ⟨pf2, e, hgetset_eq, ?_, het, ?_⟩
        · rw [hpf2t]
          exact hkeep e he hne2
        · rw [hpf2rp]
          exact hp
      · rw [← hgetset_ne i hii] at hpfi
        exact ⟨pfi, e, hpfi, he, het, hp⟩
  · unfold framePaths
    rw [List.map_append, hmapset]
    exact hfacts.2.2
  · intro g hg
    rcases hsetmem g hg with hg | hg
    · exact hs.framesStore g (by
        simp only [List.mem_append, List.mem_cons] at hg ⊢
        tauto)
    · rw [hg, hpf2rp]
      exact hs.framesStore pf hpfmem2
  · intro f hf g hg
    rcases hsetmem g hg with hg | hg
    · exact hs.childNoDesc f hf g (by
        simp only [List.mem_append, List.mem_cons] at hg ⊢
        tauto)
    · rw [hg, hpf2rp]
      exact hs.childNoDesc f hf pf hpfmem2
  · intro j1 j2 f1 f2 hj1 hj2 hlt
    obtain ⟨f10, hf10, hf10p⟩ := hgetold j1 f1 hj1
    obtain ⟨f20, hf20, hf20p⟩ := hgetold j2 f2 hj2
    rw [← hf10p, ← hf20p]
    exact hs.parentsNoDescDown j1 j2 f10 f20 hf10 hf20 hlt

/-! ### Reachability (`canEmitL`) transport across one iteration -/

theorem sub_canEmit_lift {st : Store} (frame : Frame) {parents' children' P2 : List Frame}
    (hP2 : P2.map Frame.rela_path = parents'.map Frame.rela_path) {q : PathKey}
    (hq : canEmitL st ((P2 ++ children').map Frame.rela_path) q) :
    canEmitL st ((parents' ++ frame :: children').map Frame.rela_path) q := by
  obtain ⟨p, hp, hpq, hchain⟩ := hq
  rw [List.map_append, hP2] at hp
  refine ⟨p, ?_, hpq, hchain⟩
  rw [List.map_append, List.map_cons]
  rcases List.mem_append.mp hp with hp | hp
  · exact List.mem_append_left _ hp
  · exact List.mem_append_right _ (List.mem_cons_of_mem _ hp)

theorem kids_canEmit_lift {st st2 : Store} {frame : Frame}
    {parents' children' kids : List Frame}
    (hs : StepInv st frame parents' children')
    (hscan : scanEntries st frame.rela_path parents'.length frame.tree.entries = (st2, kids))
    {q : PathKey}
    (hq : canEmitL st2 (((parents' ++ [frame]) ++ (kids.reverse ++ children')).map
      Frame.rela_path) q) :
    canEmitL st ((parents' ++ frame :: children').map Frame.rela_path) q := by
  have hsub := scanEntries_store_subset frame.rela_path parents'.length frame.tree.entries
    st st2 kids hs.keysNd hscan
  have hkidfacts := scanEntries_kids_spec frame.rela_path parents'.length frame.tree.entries
    st st2 kids hs.keysNd hscan
  have hgframe : GoodTree frame.tree := hs.framesGood frame (by simp)
  have hfv : EntriesValidNames frame.tree.entries := hgframe.2.1
  have hkeys : ∀ b ∈ Store.keys st2, b ∈ Store.keys st := keys_subset_of_graph hsub.1
  obtain ⟨p, hp, hpq, hchain⟩ := hq
  have hp2 : p ∈ (parents' ++ frame :: children').map Frame.rela_path ∨
      ∃ g ∈ kids, g.rela_path = p := by
    rw [List.map_append] at hp
    rcases List.mem_append.mp hp with hp | hp
    · rw [List.map_append] at hp
      rcases List.mem_append.mp hp with hp | hp
      · refine Or.inl ?_
        rw [List.map_append]
        exact List.mem_append_left _ hp
      · simp only [List.map_cons, List.map_nil, List.mem_singleton] at hp
        subst hp
        refine Or.inl ?_
        rw [List.map_append, List.map_cons]
        exact List.mem_append_right _ (List.mem_cons_self _ _)
    · rw [List.map_append] at hp
      rcases List.mem_append.mp hp with hp | hp
      · rw [List.map_reverse, List.mem_reverse] at hp
        exact Or.inr (mem_of_paths hp)
      · refine Or.inl ?_
        rw [List.map_append, List.map_cons]
        exact List.mem_append_right _ (List.mem_cons_of_mem _ hp)
  rcases hp2 with hp2 | ⟨g, hg, hgp⟩
  · exact ⟨p, hp2, hpq, fun b hb1 hb2 => hkeys b (hchain b hb1 hb2)⟩
  · obtain ⟨_, ⟨e, he, het, hpath⟩, hfind⟩ := hkidfacts g hg
    have hppath : p = push_path_component frame.rela_path e.filename := by
      rw [← hgp, hpath]
    have hanc : strictAnc frame.rela_path p := by
      rw [hppath]
      exact strictAnc_push _ _ (hfv e he).2
    refine ⟨frame.rela_path, ?_, ancEq_trans (Or.inr hanc) hpq, ?_⟩
    · rw [List.map_append, List.map_cons]
      exact List.mem_append_right _ (List.mem_cons_self _ _)
    · intro b hb1 hb2
      rcases anc_comparable hb2 hpq with hcmp | hcmp
      · rcases hcmp with hcmp | hcmp
        · rw [hcmp]
          apply Store.find?_mem_keys
          rw [← hgp, hfind]
          simp
        · exfalso
          rw [hppath] at hcmp
          exact between_push (hfv e he).1 (hfv e he).2 hb1 hcmp
      · rcases hcmp with hcmp | hcmp
        · rw [← hcmp]
          apply Store.find?_mem_keys
          rw [← hgp, hfind]
          simp
        · exact hkeys b (hchain b hcmp hb2)

/-- After the flush of `frame`, nothing reachable lies strictly below
`frame.rela_path`: the emission of `frame` is the last one in its subtree. -/
theorem patch_no_new_desc {st : Store} {frame : Frame} {parents' children' P2 : List Frame}
    (hs : StepInv st frame parents' children')
    (hP2 : P2.map Frame.rela_path = parents'.map Frame.rela_path) {q : PathKey}
    (hq : canEmitL st ((P2 ++ children').map Frame.rela_path) q) :
    ¬ strictAnc frame.rela_path q := by
  intro hanc
  obtain ⟨p, hp, hpq, hchain⟩ := hq
  rw [List.map_append, hP2] at hp
  have hndm : ((parents' ++ frame :: children').map Frame.rela_path).Nodup := hs.pathsNd
  rw [List.map_append, List.map_cons] at hndm
  have hfacts := nodup_middle_facts hndm
  have hpne : p ≠ frame.rela_path := by
    intro he
    subst he
    rcases List.mem_append.mp hp with hp | hp
    · exact hfacts.1 hp
    · exact hfacts.2.1 hp
  rcases anc_comparable hpq (Or.inr hanc) with hcmp | hcmp
  · rcases hcmp with hcmp | hcmp
    · exact hpne hcmp
    · have hkey := hchain frame.rela_path hcmp (Or.inr hanc)
      exact find?_none_not_mem_keys (hs.framesStore frame (by simp)) hkey
  · rcases hcmp with hcmp | hcmp
    · exact hpne hcmp.symm
    · have hmem : ∃ g ∈ parents' ++ frame :: children', g.rela_path = p := by
        rcases List.mem_append.mp hp with hp | hp
        · obtain ⟨g, hg, hgp⟩ := mem_of_paths hp
          exact ⟨g, List.mem_append_left _ hg, hgp⟩
        · obtain ⟨g, hg, hgp⟩ := mem_of_paths hp
          exact ⟨g, List.mem_append_right _ (List.mem_cons_of_mem _ hg), hgp⟩
      obtain ⟨g, hg, hgp⟩ := hmem
      rw [← hgp] at hcmp
      exact hs.frameNoDesc g hg hcmp

/-- The flushed frame's own path is reachable from the pre-iteration state. -/
theorem frame_canEmit {st : Store} (frame : Frame) (parents' children' : List Frame) :
    canEmitL st ((parents' ++ frame :: children').map Frame.rela_path) frame.rela_path := by
  refine ⟨frame.rela_path, ?_, ancEq_refl _, ?_⟩
  · rw [List.map_append, List.map_cons]
    exact List.mem_append_right _ (List.mem_cons_self _ _)
  · intro b hb1 hb2
    exfalso
    have h1 := strictAnc_length hb1
    have h2 := ancEq_length hb2
    omega

/-! ### One loop iteration meets the loop conclusion -/

theorem writeStep_main (σ : Tree → ObjectId) (fuel : Nat)
    (ih : ∀ st P C, LoopInv st P C → 2 * st.length + (P.length + C.length) ≤ fuel →
      StepConcl σ st ((P ++ C).map Frame.rela_path) (writeLoop σ fuel st P C))
    (st : Store) (frame : Frame) (parents' children' : List Frame)
    (hs : StepInv st frame parents' children')
    (hfuel : 2 * st.length + (parents'.length + 1 + children'.length) ≤ fuel + 1) :
    StepConcl σ st ((parents' ++ frame :: children').map Frame.rela_path)
      (writeStep σ (writeLoop σ fuel) st frame parents' children') := by
  rw [writeStep]
  rcases hscan : scanEntries st frame.rela_path parents'.length frame.tree.entries
    with ⟨st2, kids⟩
  simp only [hscan]
  by_cases hkids : kids.isEmpty
  · have hkids0 : kids = [] := by
      cases kids with
      | nil => rfl
      | cons a l => simp [List.isEmpty] at hkids
    subst hkids0
    have hst2 : st2 = st := scanEntries_no_kids _ _ _ _ _ hscan
    rw [hst2]
    rw [if_pos hkids]
    cases hpi : frame.parent_idx with
    | some idx =>
      simp only [hpi]
      have hidxlt := hs.frameIdx idx hpi
      cases hget : parents'.get? idx with
      | none =>
        exfalso
        rw [List.get?_eq_none] at hget
        omega
      | some pf =>
        simp only [hget]
        obtain ⟨pfr, ef, hpfr, hef, heft, hfrp⟩ := hs.frameKnown idx hpi
        rw [hget] at hpfr
        injection hpfr with hpfr
        subst hpfr
        have hgpf : GoodTree pf.tree :=
          hs.framesGood pf (List.mem_append_left _ (List.get?_mem hget))
        have hname : filename frame.rela_path = ef.filename := by
          rw [hfrp]
          exact filename_push _ _ (hgpf.2.1 ef hef).1
        have hsf : ∀ e ∈ pf.tree.entries, 47 ∉ e.filename := fun e he => (hgpf.2.1 e he).1
        obtain ⟨j, pe, hbs, hpe, hpef, hpet⟩ := bs_found_of_eq_mem pf.tree.entries
          (filename frame.rela_path) hgpf.1 hsf
          (by rw [hname]; exact (hgpf.2.1 ef hef).1) ⟨ef, hef, hname.symm, heft⟩
        simp only [hbs]
        have hmapeq : ∀ g : Frame, g.rela_path = pf.rela_path →
            (parents'.set idx g).map Frame.rela_path = parents'.map Frame.rela_path :=
          fun g hg => map_rela_set parents' idx pf g hget hg
        by_cases hemp : (frame.tree.entries.filter (fun e => !e.oid.is_null)).isEmpty
        · rw [if_pos hemp]
          have hinv2 := inv_step_patch hs hpi hget (pf.tree.entries.eraseIdx j)
            ⟨pf.parent_idx, pf.rela_path, ⟨pf.tree.entries.eraseIdx j⟩⟩ rfl rfl rfl
            (goodTree_eraseIdx pf.tree.entries j hgpf)
            (by
              intro e he hne
              refine mem_eraseIdx_of_filename_ne pf.tree.entries j pe e hpe he ?_
              rw [hpef]
              exact hne)
          have hfuel2 : 2 * st.length +
              ((parents'.set idx
                ⟨pf.parent_idx, pf.rela_path, ⟨pf.tree.entries.eraseIdx j⟩⟩).length +
                children'.length) ≤ fuel := by
            simp only [List.length_set]
            omega
          obtain ⟨t, out, emits, heq, hne, hlast, hcan, hpw⟩ :=
            ih st _ children' hinv2 hfuel2
          refine ⟨t, out, emits, heq, hne, hlast, ?_, hpw⟩
          intro e he
          exact sub_canEmit_lift frame
            (hmapeq ⟨pf.parent_idx, pf.rela_path, ⟨pf.tree.entries.eraseIdx j⟩⟩ rfl)
            (hcan e he)
        · rw [if_neg hemp]
          simp only [hpe, Option.getD_some]
          have hinv2 := inv_step_patch hs hpi hget
            (pf.tree.entries.set j
              ⟨pe.filename, pe.mode, σ ⟨frame.tree.entries.filter (fun e => !e.oid.is_null)⟩⟩)
            ⟨pf.parent_idx, pf.rela_path,
              ⟨pf.tree.entries.set j
                ⟨pe.filename, pe.mode,
                  σ ⟨frame.tree.entries.filter (fun e => !e.oid.is_null)⟩⟩⟩⟩ rfl rfl rfl
            (goodTree_set_oid pf.tree.entries j pe _ hpe hgpf)
            (by
              intro e he hne
              refine mem_set_of_filename_ne pf.tree.entries j pe e _ hpe he ?_
              rw [hpef]
              exact hne)
          have hfuel2 : 2 * st.length +
              ((parents'.set idx
                ⟨pf.parent_idx, pf.rela_path,
                  ⟨pf.tree.entries.set j
                    ⟨pe.filename, pe.mode,
                      σ ⟨frame.tree.entries.filter (fun e => !e.oid.is_null)⟩⟩⟩⟩).length +
                children'.length) ≤ fuel := by
            simp only [List.length_set]
            omega
          obtain ⟨t, out, emits, heq, hne, hlast, hcan, hpw⟩ :=
            ih st _ children' hinv2 hfuel2
          rw [heq]
          refine ⟨t, out,
            (frame.rela_path, ⟨frame.tree.entries.filter (fun e => !e.oid.is_null)⟩) :: emits,
            rfl, by simp, ?_, ?_, ?_⟩
          · rw [getLast?_cons_of_ne_nil _ hne]
            exact hlast
          · intro e he
            rcases List.mem_cons.mp he with he | he
            · rw [he]
              exact frame_canEmit frame parents' children'
            · exact sub_canEmit_lift frame
                (hmapeq ⟨pf.parent_idx, pf.rela_path,
                  ⟨pf.tree.entries.set j
                    ⟨pe.filename, pe.mode,
                      σ ⟨frame.tree.entries.filter (fun e => !e.oid.is_null)⟩⟩⟩⟩ rfl)
                (hcan e he)
          · refine List.Pairwise.cons ?_ hpw
            intro b hb
            exact patch_no_new_desc hs
              (hmapeq ⟨pf.parent_idx, pf.rela_path,
                ⟨pf.tree.entries.set j
                  ⟨pe.filename, pe.mode,
                    σ ⟨frame.tree.entries.filter (fun e => !e.oid.is_null)⟩⟩⟩⟩ rfl)
              (hcan b hb)
    | none =>
      simp only [hpi]
      obtain ⟨hpe, hce, hre⟩ := hs.rootCase hpi
      subst hpe
      subst hce
      rw [if_pos hkids]
      refine ⟨⟨frame.tree.entries.filter (fun e => !e.oid.is_null)⟩,
        [([], ⟨frame.tree.entries.filter (fun e => !e.oid.is_null)⟩)],
        [(frame.rela_path, ⟨frame.tree.entries.filter (fun e => !e.oid.is_null)⟩)],
        rfl, by simp, ?_, ?_, ?_⟩
      · rw [hre]
        rfl
      · intro e he
        simp only [List.mem_cons, List.not_mem_nil, or_false] at he
        rw [he]
        exact frame_canEmit frame [] []
      · simp
  · rw [if_neg hkids]
    rw [Frame.eta]
    have hinv2 := inv_step_kids hs hscan
    have hk1 : 1 ≤ kids.length := by
      cases kids with
      | nil => exact absurd rfl hkids
      | cons a l => simp
    have hlen := scanEntries_length frame.rela_path parents'.length frame.tree.entries
      st st2 kids hscan
    have hfuel2 : 2 * st2.length +
        ((parents' ++ [frame]).length + (kids.reverse ++ children').length) ≤ fuel := by
      simp only [List.length_append, List.length_reverse, List.length_cons, List.length_nil]
      omega
    obtain ⟨t, out, emits, heq, hne, hlast, hcan, hpw⟩ :=
      ih st2 (parents' ++ [frame]) (kids.reverse ++ children') hinv2 hfuel2
    exact ⟨t, out, emits, heq, hne, hlast,
      fun e he => kids_canEmit_lift hs hscan (hcan e he), hpw⟩

/-- The write loop, run with enough fuel from any state satisfying the loop
invariant, succeeds, emits the root last (returning its sink value), only
emits reachable paths, and emits in post-order. -/
theorem writeLoop_ok (σ : Tree → ObjectId) :
    ∀ (fuel : Nat) (st : Store) (parents children : List Frame),
      LoopInv st parents children →
      2 * st.length + (parents.length + children.length) ≤ fuel →
      StepConcl σ st ((parents ++ children).map Frame.rela_path)
        (writeLoop σ fuel st parents children) := by
  intro fuel
  induction fuel with
  | zero =>
    intro st parents children hinv hfuel
    obtain ⟨rt, hroot⟩ := hinv.rootFrame
    cases parents with
    | nil => cases hroot
    | cons a tl => simp at hfuel
  | succ fuel ih =>
    intro st parents children hinv hfuel
    cases children with
    | cons c cs =>
      simp only [writeLoop]
      have hsi := pop_inv_child hinv
      have := writeStep_main σ fuel ih st c parents cs hsi
        (by simp only [List.length_cons] at hfuel ⊢; omega)
      simpa using this
    | nil =>
      simp only [writeLoop]
      cases hpop : popTop parents with
      | none =>
        exfalso
        have := popTop_none parents hpop
        obtain ⟨rt, hroot⟩ := hinv.rootFrame
        rw [this] at hroot
        cases hroot
      | some p =>
        obtain ⟨ps, f⟩ := p
        have hsplit : parents = ps ++ [f] := popTop_eq parents ps f hpop
        have hsi := pop_inv_parent hinv hpop
        have hlen : parents.length = ps.length + 1 := by
          rw [hsplit]
          simp
        have := writeStep_main σ fuel ih st f ps [] hsi
          (by simp only [List.length_nil] at hfuel ⊢; omega)
        have hpatheq : (parents ++ ([] : List Frame)).map Frame.rela_path
            = (ps ++ f :: []).map Frame.rela_path := by
          rw [hsplit]
          simp
        rw [hpatheq]
        simpa using this

theorem get?_some_get2 {α : Type} {l : List α} {i : Nat} {a : α}
    (h : l.get? i = some a) (hlt : i < l.length) : l.get ⟨i, hlt⟩ = a := by
  have h0 := List.get?_eq_get hlt
  rw [h0] at h
  injection h

theorem pairwise_get?_rel {α : Type} {R : α → α → Prop} {l : List α}
    (h : l.Pairwise R) {i j : Nat} {a b : α} (hij : i < j)
    (ha : l.get? i = some a) (hb : l.get? j = some b) : R a b := by
  have hj : j < l.length := get?_lt hb
  have hi : i < l.length := lt_trans hij hj
  have hR := List.pairwise_iff_get.mp h ⟨i, hi⟩ ⟨j, hj⟩ hij
  rw [get?_some_get2 ha hi, get?_some_get2 hb hj] at hR
  exact hR

/-- `Editor::write` on a well-formed store with the root present: success,
the root tree is emitted last with its sink value returned, and the emission
order is post-order (no emission is a strict ancestor of a later one). -/
theorem write_ok (σ : Tree → ObjectId) (st : Store) (root : Tree)
    (hg : GoodStore st) (hnd : (Store.keys st).Nodup)
    (hroot : Store.find? st [] = some root) :
    ∃ t out emits, write σ st = some (σ t, out, emits) ∧ emits ≠ [] ∧
      emits.getLast? = some (([] : PathKey), t) ∧
      emits.Pairwise (fun a b => ¬ strictAnc a.1 b.1) := by
  unfold write
  rw [hroot]
  have hinv : LoopInv (Store.erase st []) [⟨none, [], root⟩] [] := by
    refine ⟨Store.keys_erase_nodup st [] hnd, ?_, ?_, ⟨root, rfl⟩, ?_, ?_, ?_, ?_, ?_, ?_,
      ?_, ?_⟩
    · intro k t hk
      exact hg k t (Store.find?_erase_subset st [] hnd k t hk)
    · intro f hf
      simp only [List.append_nil, List.mem_singleton] at hf
      subst hf
      exact hg [] root hroot
    · intro j f hj h1j
      cases j with
      | zero => omega
      | succ j =>
        simp [List.get?] at hj
    · intro f hf
      cases hf
    · intro f hf
      cases hf
    · intro j f hj h1j i hi
      cases j with
      | zero => omega
      | succ j =>
        simp [List.get?] at hj
    · simp [framePaths]
    · intro f hf
      simp only [List.append_nil, List.mem_singleton] at hf
      subst hf
      exact Store.find?_erase_self st [] hnd
    · intro f hf
      cases hf
    · intro j1 j2 f1 f2 hj1 hj2 hlt
      cases j1 with
      | zero => omega
      | succ j1 =>
        simp [List.get?] at hj1
  have hfl : 2 * (Store.erase st []).length +
      (([⟨none, [], root⟩] : List Frame).length + ([] : List Frame).length)
      ≤ 2 * st.length + 2 := by
    have := Store.erase_length_present st [] (by rw [hroot]; simp)
    simp only [List.length_singleton, List.length_nil]
    omega
  obtain ⟨t, out, emits, heq, hne, hlast, hcan, hpw⟩ :=
    writeLoop_ok σ (2 * st.length + 2) (Store.erase st []) [⟨none, [], root⟩] [] hinv hfl
  exact ⟨t, out, emits, heq, hne, hlast, hpw⟩

/-! ### Order toolkit for the editor's sorts and searches -/

theorem ordering_lt_of {o : Ordering} (h1 : o ≠ .gt) (h2 : o ≠ .eq) : o = .lt := by
  cases o
  · rfl
  · exact absurd rfl h2
  · exact absurd rfl h1

theorem listCmp_lt_of_lt_of_not_gt {a b c : List Nat} (h1 : listCmp a b = .lt)
    (h2 : listCmp b c ≠ .gt) : listCmp a c = .lt := by
  cases h3 : listCmp b c with
  | lt => exact listCmp_lt_trans h1 h3
  | eq =>
    rw [listCmp_eq_iff] at h3
    rw [← h3]
    exact h1
  | gt => exact absurd h3 h2

theorem cmp_entries_dec (a b : TreeEntry) (ha : 47 ∉ a.filename) (hb : 47 ∉ b.filename) :
    cmp_entries a b
      = listCmp (decorate a.filename a.mode.is_tree) (decorate b.filename b.mode.is_tree) :=
  cmp_entry_eq_spec a b.filename b.mode.is_tree ha hb

theorem cmp_entries_swap (a b : TreeEntry) (ha : 47 ∉ a.filename) (hb : 47 ∉ b.filename) :
    cmp_entries b a = (cmp_entries a b).swap := by
  rw [cmp_entries_dec b a hb ha, cmp_entries_dec a b ha hb]
  exact listCmp_swap _ _

theorem cmp_left_congr {a a' : TreeEntry} (h1 : a.filename = a'.filename)
    (h2 : a.mode.is_tree = a'.mode.is_tree) (b : TreeEntry) :
    cmp_entries a b = cmp_entries a' b := by
  unfold cmp_entries cmp_entry_with_name
  rw [h1, h2]

theorem cmp_right_congr (b : TreeEntry) {a a' : TreeEntry} (h1 : a.filename = a'.filename)
    (h2 : a.mode.is_tree = a'.mode.is_tree) :
    cmp_entries b a = cmp_entries b a' := by
  unfold cmp_entries
  rw [h1, h2]

theorem beq_tree_is_tree (k : EntryKind) : (k == EntryKind.Tree) = k.is_tree := by
  cases k <;> rfl

theorem insertEntry_perm (e : TreeEntry) : ∀ l, (insertEntry e l).Perm (e :: l) := by
  intro l
  induction l with
  | nil => exact List.Perm.refl _
  | cons x xs ih =>
    unfold insertEntry
    by_cases h : cmp_entries x e = .gt
    · rw [if_pos h]
    · rw [if_neg h]
      exact (ih.cons x).trans (List.Perm.swap e x xs)

theorem sortEntries_perm (l : List TreeEntry) : (sortEntries l).Perm l := by
  induction l with
  | nil => exact List.Perm.refl _
  | cons x xs ih =>
    show (insertEntry x (sortEntries xs)).Perm (x :: xs)
    exact (insertEntry_perm x (sortEntries xs)).trans (ih.cons x)

theorem insertEntry_pairwise (e : TreeEntry) (he : 47 ∉ e.filename) :
    ∀ l, (∀ y ∈ l, 47 ∉ y.filename) →
      l.Pairwise (fun a b => cmp_entries a b ≠ .gt) →
      (insertEntry e l).Pairwise (fun a b => cmp_entries a b ≠ .gt) := by
  intro l
  induction l with
  | nil =>
    intro _ _
    simp [insertEntry]
  | cons x xs ih =>
    intro hsf hp
    rw [List.pairwise_cons] at hp
    unfold insertEntry
    by_cases h : cmp_entries x e = .gt
    · rw [if_pos h]
      have hxe : cmp_entries e x = .lt := by
        rw [cmp_entries_swap x e (hsf x (by simp)) he, h]
        rfl
      refine List.Pairwise.cons ?_ (List.Pairwise.cons hp.1 hp.2)
      intro y hy
      rcases List.mem_cons.mp hy with hy | hy
      · subst hy
        rw [hxe]
        decide
      · have h1 : listCmp (decorate e.filename e.mode.is_tree)
            (decorate x.filename x.mode.is_tree) = .lt := by
          rw [← cmp_entries_dec e x he (hsf x (by simp))]
          exact hxe
        have h2 : listCmp (decorate x.filename x.mode.is_tree)
            (decorate y.filename y.mode.is_tree) ≠ .gt := by
          rw [← cmp_entries_dec x y (hsf x (by simp)) (hsf y (by simp [hy]))]
          exact hp.1 y hy
        rw [cmp_entries_dec e y he (hsf y (by simp [hy])),
          listCmp_lt_of_lt_of_not_gt h1 h2]
        decide
    · rw [if_neg h]
      refine List.Pairwise.cons ?_ (ih (fun y hy => hsf y (by simp [hy])) hp.2)
      intro y hy
      rcases List.mem_cons.mp ((insertEntry_perm e xs).mem_iff.mp hy) with hy2 | hy2
      · subst hy2
        exact h
      · exact hp.1 y hy2

theorem sortEntries_pairwise (l : List TreeEntry) (hsf : ∀ y ∈ l, 47 ∉ y.filename) :
    (sortEntries l).Pairwise (fun a b => cmp_entries a b ≠ .gt) := by
  induction l with
  | nil => simp [sortEntries]
  | cons x xs ih =>
    show (insertEntry x (sortEntries xs)).Pairwise _
    refine insertEntry_pairwise x (hsf x (by simp)) _ ?_
      (ih fun y hy => hsf y (by simp [hy]))
    intro y hy
    exact hsf y (by simp [(sortEntries_perm xs).mem_iff.mp hy])

theorem sortedStrict_of_pairwise_le (l : List TreeEntry)
    (hsf : ∀ y ∈ l, 47 ∉ y.filename) (hnd : (l.map TreeEntry.filename).Nodup)
    (hp : l.Pairwise (fun a b => cmp_entries a b ≠ .gt)) : SortedStrict l := by
  unfold SortedStrict
  rw [List.Nodup, List.pairwise_map] at hnd
  have hcomb := hp.and hnd
  refine hcomb.imp_of_mem ?_
  intro a b ha hb hab
  refine ordering_lt_of hab.1 ?_
  intro heq
  have := (cmp_eq_char a b.filename b.mode.is_tree (hsf a ha) (hsf b hb)).mp heq
  exact hab.2 this.1

theorem sortEntries_good (l : List TreeEntry) (hv : EntriesValidNames l)
    (hnd : (l.map TreeEntry.filename).Nodup) : GoodTree ⟨sortEntries l⟩ := by
  have hperm := sortEntries_perm l
  have hv2 : EntriesValidNames (sortEntries l) := fun y hy => hv y (hperm.mem_iff.mp hy)
  have hnd2 : ((sortEntries l).map TreeEntry.filename).Nodup := by
    rw [List.Perm.nodup_iff (hperm.map TreeEntry.filename)]
    exact hnd
  exact ⟨sortedStrict_of_pairwise_le _ (fun y hy => (hv2 y hy).1) hnd2
    (sortEntries_pairwise l fun y hy => (hv y hy).1), hv2, hnd2⟩

/-! ### Entry-list surgery preserves well-formedness -/

theorem map_filename_set2 (l : List TreeEntry) :
    ∀ (j : Nat) (pe en : TreeEntry), l.get? j = some pe → en.filename = pe.filename →
      (l.set j en).map TreeEntry.filename = l.map TreeEntry.filename := by
  induction l with
  | nil =>
    intro j pe en h _
    cases h
  | cons b bs ih =>
    intro j pe en h hf
    cases j with
    | zero =>
      simp only [List.get?] at h
      injection h with h
      subst h
      simp [List.set, hf]
    | succ j =>
      simp only [List.get?] at h
      simp [List.set, ih j pe en h hf]

theorem sortedStrict_set_dec (l : List TreeEntry) :
    ∀ (j : Nat) (pe en : TreeEntry), l.get? j = some pe →
      en.filename = pe.filename → en.mode.is_tree = pe.mode.is_tree →
      SortedStrict l → SortedStrict (l.set j en) := by
  induction l with
  | nil =>
    intro j pe en hget _ _ _
    cases hget
  | cons b bs ih =>
    intro j pe en hget hf ht hs
    unfold SortedStrict at hs ⊢
    rw [List.pairwise_cons] at hs
    cases j with
    | zero =>
      simp only [List.get?] at hget
      injection hget with hget
      subst hget
      simp only [List.set]
      rw [List.pairwise_cons]
      constructor
      · intro e he
        rw [cmp_left_congr hf ht e]
        exact hs.1 e he
      · exact hs.2
    | succ j =>
      simp only [List.get?] at hget
      simp only [List.set]
      rw [List.pairwise_cons]
      constructor
      · intro e he
        rcases List.mem_or_eq_of_mem_set he with he | he
        · exact hs.1 e he
        · subst he
          rw [cmp_right_congr b hf ht]
          exact hs.1 pe (List.get?_mem hget)
      · exact ih j pe en hget hf ht hs.2

theorem mem_set_ne2 (l : List TreeEntry) :
    ∀ (j : Nat) (pe a en : TreeEntry), l.get? j = some pe → a ∈ l →
      a.filename ≠ pe.filename → a ∈ l.set j en := by
  induction l with
  | nil =>
    intro j pe a en hget ha _
    cases ha
  | cons b bs ih =>
    intro j pe a en hget ha hne
    cases j with
    | zero =>
      simp only [List.get?] at hget
      injection hget with hget
      subst hget
      rcases List.mem_cons.mp ha with ha | ha
      · exact absurd (by rw [ha]) hne
      · simp [List.set, ha]
    | succ j =>
      simp only [List.get?] at hget
      rcases List.mem_cons.mp ha with ha | ha
      · simp [List.set, ha]
      · simp only [List.set]
        exact List.mem_cons_of_mem _ (ih j pe a en hget ha hne)

theorem goodTree_set_dec (l : List TreeEntry) (j : Nat) (pe en : TreeEntry)
    (hget : l.get? j = some pe) (hf : en.filename = pe.filename)
    (ht : en.mode.is_tree = pe.mode.is_tree) (hg : GoodTree ⟨l⟩) :
    GoodTree ⟨l.set j en⟩ := by
  obtain ⟨hs, hv, hnd⟩ := hg
  refine ⟨sortedStrict_set_dec l j pe en hget hf ht hs, ?_, ?_⟩
  · intro e he
    rcases List.mem_or_eq_of_mem_set he with he | he
    · exact hv e he
    · subst he
      have := hv pe (List.get?_mem hget)
      rw [show e.filename = pe.filename from hf]
      exact this
  · rw [show (Tree.mk (l.set j en)).entries = l.set j en from rfl,
      map_filename_set2 l j pe en hget hf]
    exact hnd

theorem set_get?_self {α : Type} : ∀ (l : List α) (i : Nat) (a : α),
    l.get? i = some a → l.set i a = l := by
  intro l
  induction l with
  | nil =>
    intro i a h
    cases h
  | cons x xs ih =>
    intro i a h
    cases i with
    | zero =>
      simp only [List.get?] at h
      injection h with h
      subst h
      simp [List.set]
    | succ i =>
      simp only [List.get?] at h
      simp [List.set, ih i a h]

theorem mem_filename_unique {l : List TreeEntry}
    (hnd : (l.map TreeEntry.filename).Nodup) :
    ∀ e1 ∈ l, ∀ e2 ∈ l, e1.filename = e2.filename → e1 = e2 := by
  induction l with
  | nil =>
    intro e1 h1
    cases h1
  | cons b bs ih =>
    simp only [List.map_cons, List.nodup_cons] at hnd
    intro e1 h1 e2 h2 hf
    rcases List.mem_cons.mp h1 with h1 | h1
    · rcases List.mem_cons.mp h2 with h2 | h2
      · rw [h1, h2]
      · exfalso
        apply hnd.1
        rw [← h1, hf]
        exact List.mem_map.mpr ⟨e2, h2, rfl⟩
    · rcases List.mem_cons.mp h2 with h2 | h2
      · exfalso
        apply hnd.1
        rw [← h2, ← hf]
        exact List.mem_map.mpr ⟨e1, h1, rfl⟩
      · exact ih hnd.2 e1 h1 e2 h2 hf

theorem insertIdx_perm {α : Type} : ∀ (l : List α) (i : Nat) (a : α), i ≤ l.length →
    (l.insertIdx i a).Perm (a :: l) := by
  intro l
  induction l with
  | nil =>
    intro i a h
    cases i with
    | zero => exact List.Perm.refl _
    | succ i => simp at h
  | cons x xs ih =>
    intro i a h
    cases i with
    | zero => exact List.Perm.refl _
    | succ i =>
      rw [List.insertIdx_succ_cons]
      exact ((ih i a (by simpa using h)).cons x).trans (List.Perm.swap a x xs)

theorem sortedStrict_insertIdx (en : TreeEntry) : ∀ (l : List TreeEntry) (i : Nat),
    i ≤ l.length → SortedStrict l →
    (∀ k e, l.get? k = some e → k < i → cmp_entries e en = .lt) →
    (∀ k e, l.get? k = some e → i ≤ k → cmp_entries en e = .lt) →
    SortedStrict (l.insertIdx i en) := by
  intro l
  induction l with
  | nil =>
    intro i hi _ _ _
    cases i with
    | zero =>
      rw [List.insertIdx_zero]
      exact List.pairwise_singleton _ _
    | succ i => simp at hi
  | cons x xs ih =>
    intro i hi hs hlo hhi
    unfold SortedStrict at hs ⊢
    rw [List.pairwise_cons] at hs
    cases i with
    | zero =>
      rw [List.insertIdx_zero, List.pairwise_cons]
      constructor
      · intro y hy
        obtain ⟨k, hk⟩ := List.get?_of_mem hy
        exact hhi k y hk (Nat.zero_le k)
      · rw [List.pairwise_cons]
        exact hs
    | succ i =>
      rw [List.insertIdx_succ_cons, List.pairwise_cons]
      constructor
      · intro y hy
        rcases List.mem_cons.mp ((insertIdx_perm xs i en (by simpa using hi)).mem_iff.mp hy)
          with hy | hy
        · subst hy
          exact hlo 0 x rfl (by omega)
        · exact hs.1 y hy
      · refine ih i (by simpa using hi) hs.2 ?_ ?_
        · intro k e hk hki
          exact hlo (k + 1) e hk (by omega)
        · intro k e hk hik
          exact hhi (k + 1) e hk (by omega)

theorem goodTree_insertIdx (l : List TreeEntry) (en : TreeEntry) (i : Nat)
    (hi : i ≤ l.length) (hg : GoodTree ⟨l⟩)
    (hvn : 47 ∉ en.filename ∧ en.filename ≠ [])
    (hfresh : en.filename ∉ l.map TreeEntry.filename)
    (hlo : ∀ k e, l.get? k = some e → k < i → cmp_entries e en = .lt)
    (hhi : ∀ k e, l.get? k = some e → i ≤ k → cmp_entries en e = .lt) :
    GoodTree ⟨l.insertIdx i en⟩ := by
  obtain ⟨hs, hv, hnd⟩ := hg
  refine ⟨sortedStrict_insertIdx en l i hi hs hlo hhi, ?_, ?_⟩
  · intro e he
    rcases List.mem_cons.mp ((insertIdx_perm l i en hi).mem_iff.mp he) with he | he
    · subst he
      exact hvn
    · exact hv e he
  · rw [List.Perm.nodup_iff (((insertIdx_perm l i en hi)).map TreeEntry.filename)]
    simp only [List.map_cons, List.nodup_cons]
    exact ⟨hfresh, hnd⟩

/-! ### The two-probe search, characterised -/

theorem entrySearch_found {entries : List TreeEntry} {name : FName} {clmbt : Bool} {idx : Nat}
    (hsf : ∀ e ∈ entries, 47 ∉ e.filename) (hn : 47 ∉ name)
    (h : entrySearch entries name clmbt = .found idx) :
    ∃ e, entries.get? idx = some e ∧ e.filename = name := by
  unfold entrySearch at h
  cases h1 : binary_search_by entries (fun e => cmp_entry_with_name e name false) with
  | found i =>
    simp only [h1] at h
    injection h with h
    subst h
    obtain ⟨_, e, hget, heq⟩ := binary_search_found _ _ _ h1
    exact ⟨e, hget,
      ((cmp_eq_char e name false (hsf e (List.get?_mem hget)) hn).mp heq).1⟩
  | notFound fi =>
    simp only [h1] at h
    cases h2 : binary_search_by entries (fun e => cmp_entry_with_name e name true) with
    | found i =>
      simp only [h2] at h
      injection h with h
      subst h
      obtain ⟨_, e, hget, heq⟩ := binary_search_found _ _ _ h2
      exact ⟨e, hget,
        ((cmp_eq_char e name true (hsf e (List.get?_mem hget)) hn).mp heq).1⟩
    | notFound di =>
      simp only [h2] at h
      cases h

theorem entrySearch_notFound {entries : List TreeEntry} {name : FName} {clmbt : Bool}
    {ins : Nat} (hs : SortedStrict entries)
    (hsf : ∀ e ∈ entries, 47 ∉ e.filename) (hn : 47 ∉ name)
    (h : entrySearch entries name clmbt = .notFound ins) :
    (∀ e ∈ entries, e.filename ≠ name) ∧ ins ≤ entries.length ∧
      ∀ k e, entries.get? k = some e →
        (k < ins → cmp_entry_with_name e name clmbt = .lt) ∧
        (ins ≤ k → cmp_entry_with_name e name clmbt = .gt) := by
  unfold entrySearch at h
  cases h1 : binary_search_by entries (fun e => cmp_entry_with_name e name false) with
  | found i =>
    simp only [h1] at h
    cases h
  | notFound fi =>
    simp only [h1] at h
    cases h2 : binary_search_by entries (fun e => cmp_entry_with_name e name true) with
    | found i =>
      simp only [h2] at h
      cases h
    | notFound di =>
      simp only [h2] at h
      injection h with h
      have hne1 := binary_search_notFound_no_eq _ _ _
        (monoClass_of_sorted entries name false hs hsf hn) h1
      have hne2 := binary_search_notFound_no_eq _ _ _
        (monoClass_of_sorted entries name true hs hsf hn) h2
      refine ⟨?_, ?_, ?_⟩
      · intro e he hf
        cases ht : e.mode.is_tree with
        | true =>
          exact hne2 e he ((cmp_eq_char e name true (hsf e he) hn).mpr ⟨hf, ht⟩)
        | false =>
          exact hne1 e he ((cmp_eq_char e name false (hsf e he) hn).mpr ⟨hf, ht⟩)
      · cases clmbt with
        | true =>
          rw [← h]
          simp only [if_pos rfl]
          exact (binary_search_notFound _ _ _
            (monoClass_of_sorted entries name true hs hsf hn) h2).1
        | false =>
          rw [← h]
          rw [if_neg (show ¬ (false = true) by decide)]
          exact (binary_search_notFound _ _ _
            (monoClass_of_sorted entries name false hs hsf hn) h1).1
      · cases clmbt with
        | true =>
          have hcl := (binary_search_notFound _ _ _
            (monoClass_of_sorted entries name true hs hsf hn) h2).2
          intro k e hk
          rw [← h]
          simp only [if_pos rfl]
          exact hcl k e hk
        | false =>
          have hcl := (binary_search_notFound _ _ _
            (monoClass_of_sorted entries name false hs hsf hn) h1).2
          intro k e hk
          rw [← h]
          rw [if_neg (show ¬ (false = true) by decide)]
          exact hcl k e hk

theorem cmp_entries_mk (e : TreeEntry) (f : FName) (m : EntryKind) (x : ObjectId) :
    cmp_entries e ⟨f, m, x⟩ = cmp_entry_with_name e f m.is_tree := rfl

/-- Every branch of the `upsert_or_remove` loop body leaves the cursor a
well-formed tree. -/
theorem uorStep_good (cursor : Tree) (name : FName) (il : Bool)
    (kai : Option (EntryKind × ObjectId)) (nkit : Bool) (cursor' : Tree) (ctl : StepCtl)
    (h : uorStep cursor name il kai nkit = (cursor', ctl))
    (hg : GoodTree cursor) (hn : 47 ∉ name) (hnne : name ≠ [])
    (hnkit : ∀ k i, kai = some (k, i) → nkit = k.is_tree) :
    GoodTree cursor' := by
  have hsf : ∀ e ∈ cursor.entries, 47 ∉ e.filename := fun e he => (hg.2.1 e he).1
  rw [uorStep] at h
  cases hes : entrySearch cursor.entries name (!il || nkit) with
  | found idx =>
    simp only [hes] at h
    obtain ⟨e0, hged, hfn⟩ := entrySearch_found hsf hn hes
    have hentry : (cursor.entries.get? idx).getD default = e0 := by
      rw [hged]
      rfl
    cases kai with
    | none =>
      by_cases hil : il = true
      · rw [if_pos hil] at h
        injection h with h1 _
        rw [← h1]
        exact goodTree_eraseIdx _ idx hg
      · rw [if_neg hil] at h
        by_cases htree : ((cursor.entries.get? idx).getD default).mode.is_tree
        · rw [if_pos htree] at h
          injection h with h1 _
          rw [← h1]
          exact hg
        · rw [if_neg htree] at h
          injection h with h1 _
          rw [← h1]
          exact hg
    | some ki =>
      obtain ⟨k, id⟩ := ki
      have hnk : nkit = k.is_tree := hnkit k id rfl
      simp only [hentry] at h
      by_cases hil : il = true
      · rw [if_pos hil] at h
        injection h with h1 _
        rw [← h1]
        by_cases hns : (e0.mode.is_tree != (!il || nkit)) = true
        · rw [if_pos hns]
          refine sortEntries_good _ ?_ ?_
          · intro e he
            rcases List.mem_or_eq_of_mem_set he with he | he
            · exact hg.2.1 e he
            · subst he
              exact hg.2.1 e0 (List.get?_mem hged)
          · rw [map_filename_set2 _ idx e0 ⟨e0.filename, k, id⟩ hged rfl]
            exact hg.2.2
        · rw [if_neg hns]
          refine goodTree_set_dec _ idx e0 _ hged rfl ?_ hg
          have : e0.mode.is_tree = (!il || nkit) := by
            simpa using hns
          rw [this, hil, hnk]
          simp [EntryKind.is_tree]
      · rw [if_neg hil] at h
        by_cases htree : e0.mode.is_tree
        · rw [if_pos htree] at h
          injection h with h1 _
          rw [← h1]
          exact hg
        · rw [if_neg htree] at h
          injection h with h1 _
          rw [← h1]
          have hns : (e0.mode.is_tree != (!il || nkit)) = true := by
            have hilf : il = false := by
              cases il
              · rfl
              · exact absurd rfl hil
            rw [hilf]
            simp only [Bool.not_false, Bool.true_or]
            simp [htree]
          rw [if_pos hns]
          refine sortEntries_good _ ?_ ?_
          · intro e he
            rcases List.mem_or_eq_of_mem_set he with he | he
            · exact hg.2.1 e he
            · subst he
              exact hg.2.1 e0 (List.get?_mem hged)
          · rw [map_filename_set2 _ idx e0 ⟨e0.filename, EntryKind.Tree, ObjectId.null⟩
              hged rfl]
            exact hg.2.2
  | notFound ins =>
    simp only [hes] at h
    cases kai with
    | none =>
      injection h with h1 _
      rw [← h1]
      exact hg
    | some ki =>
      obtain ⟨k, id⟩ := ki
      have hnk : nkit = k.is_tree := hnkit k id rfl
      injection h with h1 _
      rw [← h1]
      obtain ⟨hnomem, hle, hcl⟩ := entrySearch_notFound hg.1 hsf hn hes
      have hms : (if il = true then k else EntryKind.Tree).is_tree = (!il || nkit) := by
        cases il
        · simp [EntryKind.is_tree]
        · simp [hnk]
      refine goodTree_insertIdx _ _ _ hle hg ⟨hn, hnne⟩ ?_ ?_ ?_
      · intro hmem
        obtain ⟨e, he, hef⟩ := List.mem_map.mp hmem
        exact hnomem e he hef
      · intro k2 e hk2 hlt
        rw [cmp_entries_mk, hms]
        exact (hcl k2 e hk2).1 hlt
      · intro k2 e hk2 hge
        have hgt := (hcl k2 e hk2).2 hge
        have hmem : e ∈ cursor.entries := List.get?_mem hk2
        rw [cmp_entries_swap e ⟨name, if il = true then k else EntryKind.Tree,
          if il = true then id else ObjectId.null⟩ (hsf e hmem) hn]
        rw [cmp_entries_mk, hms, hgt]
        rfl

/-! ### The editor's store invariant through the loop -/

theorem StoreOk_update {st : Store} {k : PathKey} {t : Tree}
    (hok : StoreOk st) (hpresent : Store.find? st k ≠ none) (hgt : GoodTree t) :
    StoreOk (Store.update st k t) := by
  obtain ⟨hg, hnd, rt, hroot⟩ := hok
  refine ⟨?_, ?_, ?_⟩
  · intro q t2 hq
    rw [Store.find?_update] at hq
    by_cases hkq : k = q
    · rw [if_pos hkq] at hq
      injection hq with hq
      rw [← hq]
      exact hgt
    · rw [if_neg hkq] at hq
      exact hg q t2 hq
  · rw [Store.keys_update st k t hpresent]
    exact hnd
  · by_cases hk0 : k = []
    · exact ⟨t, by rw [Store.find?_update, if_pos hk0]⟩
    · exact ⟨rt, by rw [Store.find?_update, if_neg hk0]; exact hroot⟩

theorem StoreOk_insert {st : Store} {k : PathKey} {t : Tree}
    (hok : StoreOk st) (habsent : Store.find? st k = none) (hgt : GoodTree t)
    (hk : k ≠ []) : StoreOk (Store.insert st k t) := by
  obtain ⟨hg, hnd, rt, hroot⟩ := hok
  refine ⟨?_, ?_, ⟨rt, ?_⟩⟩
  · intro q t2 hq
    rw [Store.find?_insert] at hq
    by_cases hkq : k = q
    · rw [if_pos hkq] at hq
      injection hq with hq
      rw [← hq]
      exact hgt
    · rw [if_neg hkq] at hq
      exact hg q t2 hq
  · show (k :: Store.keys st).Nodup
    rw [List.nodup_cons]
    exact ⟨find?_none_not_mem_keys habsent, hnd⟩
  · rw [Store.find?_insert, if_neg hk]
    exact hroot

theorem push_ne_nil (p : PathKey) (n : FName) (hn : n ≠ []) :
    push_path_component p n ≠ [] := by
  intro h
  have := push_length p n hn
  rw [h] at this
  simp at this

theorem goodTree_default : GoodTree Tree.default := by
  refine ⟨List.Pairwise.nil, ?_, ?_⟩
  · intro e he
    cases he
  · simp [Tree.default]

theorem uorGo_good (find : ObjectId → Option Tree) (hfg : FindGood find) :
    ∀ (cs : List FName) (st : Store) (pathBuf : PathKey)
      (kai : Option (EntryKind × ObjectId)) (res : OpResult),
      StoreOk st → GoodPath cs → Store.find? st pathBuf ≠ none →
      uorGo find st pathBuf cs kai = some res → StoreOk res.store := by
  intro cs
  induction cs with
  | nil =>
    intro st pathBuf kai res hok _ _ h
    simp only [uorGo] at h
    injection h with h
    rw [← h]
    exact hok
  | cons name rest ih =>
    intro st pathBuf kai res hok hgp hcur h
    simp only [uorGo] at h
    rcases hstep : uorStep ((Store.find? st pathBuf).getD Tree.default) name rest.isEmpty kai
      ((Option.map (fun ki => ki.1 == EntryKind.Tree) kai).getD false) with ⟨cursor2, ctl⟩
    rw [hstep] at h
    have hcurg : GoodTree ((Store.find? st pathBuf).getD Tree.default) := by
      cases hf : Store.find? st pathBuf with
      | none => exact absurd hf hcur
      | some t => exact hok.1 pathBuf t hf
    have hname := hgp name (by simp)
    have hc2 : GoodTree cursor2 := uorStep_good _ name rest.isEmpty kai _ cursor2 ctl hstep
      hcurg hname.2 hname.1
      (by
        intro k i hk
        subst hk
        simp [beq_tree_is_tree])
    have hok1 : StoreOk (Store.update st pathBuf cursor2) := StoreOk_update hok hcur hc2
    have hgp' : GoodPath rest := fun c hc => hgp c (by simp [hc])
    cases ctl with
    | stop removed =>
      injection h with h
      rw [← h]
      exact hok1
    | descend ttl =>
      cases hocc : Store.find? (Store.update st pathBuf cursor2)
          (push_path_component pathBuf name) with
      | some t1 =>
        have h' : uorGo find (Store.update st pathBuf cursor2)
            (push_path_component pathBuf name) rest kai = some res := by
          simpa only [hocc] using h
        exact ih _ _ _ _ hok1 hgp' (by rw [hocc]; simp) h'
      | none =>
        cases httl : ttl.filter (fun tid => !tid.is_empty_tree) with
        | none =>
          have h' : uorGo find
              (Store.insert (Store.update st pathBuf cursor2)
                (push_path_component pathBuf name) Tree.default)
              (push_path_component pathBuf name) rest kai = some res := by
            simpa only [hocc, httl] using h
          have hok2 := StoreOk_insert hok1 hocc goodTree_default
            (push_ne_nil pathBuf name hname.1)
          exact ih _ _ _ _ hok2 hgp'
            (by rw [Store.find?_insert, if_pos rfl]; simp) h'
        | some tid =>
          cases hfind : find tid with
          | none => exact absurd h (by simp [hocc, httl, hfind])
          | some t1 =>
            have h' : Option.map
                (fun r => OpResult.mk r.store ((push_path_component pathBuf name) :: r.fetched)
                  r.removed)
                (uorGo find
                  (Store.insert (Store.update st pathBuf cursor2)
                    (push_path_component pathBuf name) t1)
                  (push_path_component pathBuf name) rest kai) = some res := by
              simpa only [hocc, httl, hfind] using h
            cases hrec : uorGo find
                (Store.insert (Store.update st pathBuf cursor2)
                  (push_path_component pathBuf name) t1)
                (push_path_component pathBuf name) rest kai with
            | none =>
              rw [hrec] at h'
              cases h'
            | some r =>
              rw [hrec] at h'
              simp only [Option.map] at h'
              injection h' with h'
              rw [← h']
              have hok2 := StoreOk_insert hok1 hocc (hfg tid t1 hfind)
                (push_ne_nil pathBuf name hname.1)
              exact ih _ _ _ r hok2 hgp'
                (by rw [Store.find?_insert, if_pos rfl]; simp) hrec

theorem upsert_or_remove_good (find : ObjectId → Option Tree) (hfg : FindGood find)
    (st : Store) (p : List FName) (kai : Option (EntryKind × ObjectId)) (res : OpResult)
    (hok : StoreOk st) (hgp : GoodPath p)
    (h : upsert_or_remove find st p kai = some res) : StoreOk res.store := by
  unfold upsert_or_remove at h
  cases hr : Store.find? st [] with
  | none =>
    rw [hr] at h
    cases h
  | some rt =>
    rw [hr] at h
    exact uorGo_good find hfg p st [] kai res hok hgp (by rw [hr]; simp) h

theorem applyOps_good (find : ObjectId → Option Tree) (hfg : FindGood find) :
    ∀ (ops : List Op) (st : Store) (res : Store × List PathKey),
      StoreOk st → (∀ op ∈ ops, OpGood op) →
      applyOps find st ops = some res → StoreOk res.1 := by
  intro ops
  induction ops with
  | nil =>
    intro st res hok _ h
    simp only [applyOps] at h
    injection h with h
    rw [← h]
    exact hok
  | cons op ops ih =>
    intro st res hok hops h
    simp only [applyOps] at h
    cases hap : applyOp find st op with
    | none =>
      rw [hap] at h
      cases h
    | some r1 =>
      obtain ⟨st1, f1⟩ := r1
      simp only [hap] at h
      have hok1 : StoreOk st1 := by
        cases op with
        | up p k i =>
          simp only [applyOp, upsert] at hap
          cases hu : upsert_or_remove find st p (some (k, i)) with
          | none =>
            rw [hu] at hap
            cases hap
          | some r =>
            rw [hu] at hap
            simp only [Option.map] at hap
            injection hap with hap
            have := upsert_or_remove_good find hfg st p (some (k, i)) r hok
              (hops (.up p k i) (by simp)) hu
            rw [show st1 = r.store by injection hap with h1 _; exact h1.symm]
            exact this
        | del p =>
          simp only [applyOp, remove] at hap
          cases hu : upsert_or_remove find st p none with
          | none =>
            rw [hu] at hap
            cases hap
          | some r =>
            rw [hu] at hap
            simp only [Option.map] at hap
            injection hap with hap
            have := upsert_or_remove_good find hfg st p none r hok
              (hops (.del p) (by simp)) hu
            rw [show st1 = r.store by injection hap with h1 _; exact h1.symm]
            exact this
      cases hrec : applyOps find st1 ops with
      | none =>
        rw [hrec] at h
        cases h
      | some r2 =>
        rw [hrec] at h
        simp only [Option.map] at h
        injection h with h
        rw [← h]
        exact ih st1 r2 hok1 (fun o ho => hops o (by simp [ho])) hrec

/-! ### C9: write returns from the root-emit branch -/

/-- **C9.** For every store reachable by a sequence of `upsert`/`remove`
operations from a well-formed root tree (a fresh editor; `set_root` yields a
store of exactly this shape, so sequences containing it are covered by their
suffix after the last reset), `write` terminates by returning from the
root-emit branch: it succeeds (the `unreachable!` after the loop and the two
in-loop `expect`s, all modelled as `none`, are never taken, given that the
pure sink always returns), its final sink invocation is the root tree (at
path `[]`), and the identifier it returns is the sink's value on that tree. -/
theorem C9_write_returns_root (find : ObjectId → Option Tree) (σ : Tree → ObjectId)
    (root : Tree) (ops : List Op) (st : Store) (fetches : List PathKey)
    (hfg : FindGood find) (hroot : GoodTree root) (hops : ∀ op ∈ ops, OpGood op)
    (happ : applyOps find (editor_new root) ops = some (st, fetches)) :
    ∃ t out emits, write σ st = some (σ t, out, emits) ∧ emits ≠ [] ∧
      emits.getLast? = some (([] : PathKey), t) := by
  have hok0 : StoreOk (editor_new root) := by
    refine ⟨?_, ?_, ⟨root, rfl⟩⟩
    · intro k t hk
      simp only [editor_new, Store.find?] at hk
      by_cases h : ([] : PathKey) = k
      · rw [if_pos h] at hk
        injection hk with hk
        rw [← hk]
        exact hroot
      · rw [if_neg h] at hk
        cases hk
    · simp [editor_new, Store.keys]
  have hok := applyOps_good find hfg ops (editor_new root) (st, fetches) hok0 hops happ
  obtain ⟨hg, hnd, rt, hrt⟩ := hok
  obtain ⟨t, out, emits, heq, hne, hlast, _⟩ := write_ok σ st rt hg hnd hrt
  exact ⟨t, out, emits, heq, hne, hlast⟩

theorem C9_witness :
    ∃ t out emits,
      write (fun _ => ObjectId.oid 1) [([], (⟨[]⟩ : Tree))]
        = some ((fun _ => ObjectId.oid 1) t, out, emits) ∧ emits ≠ [] ∧
      emits.getLast? = some (([] : PathKey), t) :=
  C9_write_returns_root (fun _ => none) (fun _ => ObjectId.oid 1) ⟨[]⟩ [] [([], ⟨[]⟩)] []
    (by intro i t h; cases h) (by decide) (by intro op h; cases h) rfl

/-! ### C3: post-order emission -/

/-- **C3.** In any single call to `write` on a well-formed editor store
(every stored tree strictly sorted with valid duplicate-free filenames,
digest keys duplicate-free, root binding present — the data-model invariant
every editor state satisfies), the sink runs in post-order: whenever emitted
subtree `P` strictly contains emitted subtree `C` (its relative path is a
strict ancestor of `C`'s), the sink call for `C` precedes the sink call for
`P`; and the final sink invocation is the root tree, whose sink identifier
`write` returns. -/
theorem C3_postorder_emission (σ : Tree → ObjectId) (st : Store) (root : Tree)
    (hg : GoodStore st) (hnd : (Store.keys st).Nodup)
    (hroot : Store.find? st [] = some root)
    (id : ObjectId) (out : Store) (emits : List Emit)
    (hw : write σ st = some (id, out, emits)) :
    (∀ iP iC pP tP pC tC, emits.get? iP = some (pP, tP) → emits.get? iC = some (pC, tC) →
      strictAnc pP pC → iC < iP) ∧
    ∃ t, emits.getLast? = some (([] : PathKey), t) ∧ id = σ t := by
  obtain ⟨t, out2, emits2, heq, hne2, hlast, hpw⟩ := write_ok σ st root hg hnd hroot
  rw [hw] at heq
  injection heq with heq
  injection heq with hid heq2
  injection heq2 with hout hemits
  subst hemits
  constructor
  · intro iP iC pP tP pC tC hP hC hanc
    by_contra hc
    push_neg at hc
    rcases Nat.eq_or_lt_of_le hc with hce | hclt
    · rw [← hce] at hC
      rw [hP] at hC
      injection hC with hC
      injection hC with hC1 hC2
      rw [hC1] at hanc
      exact strictAnc_irrefl _ hanc
    · exact pairwise_get?_rel hpw hclt hP hC hanc
  · exact ⟨t, hlast, hid⟩

theorem C3_witness :
    (∀ iP iC pP tP pC tC,
      ([(([97] : PathKey), (⟨[⟨[98], .Blob, .oid 7⟩]⟩ : Tree)),
        (([] : PathKey), (⟨[⟨[97], .Tree, .oid 1⟩]⟩ : Tree))] : List Emit).get? iP
          = some (pP, tP) →
      ([(([97] : PathKey), (⟨[⟨[98], .Blob, .oid 7⟩]⟩ : Tree)),
        (([] : PathKey), (⟨[⟨[97], .Tree, .oid 1⟩]⟩ : Tree))] : List Emit).get? iC
          = some (pC, tC) →
      strictAnc pP pC → iC < iP) ∧
    ∃ t, ([(([97] : PathKey), (⟨[⟨[98], .Blob, .oid 7⟩]⟩ : Tree)),
        (([] : PathKey), (⟨[⟨[97], .Tree, .oid 1⟩]⟩ : Tree))] : List Emit).getLast?
          = some (([] : PathKey), t) ∧
      ObjectId.oid 1 = (fun t => ObjectId.oid t.entries.length) t :=
  C3_postorder_emission (fun t => ObjectId.oid t.entries.length)
    [([], ⟨[⟨[97], .Tree, .oid 5⟩]⟩), ([97], ⟨[⟨[98], .Blob, .oid 7⟩]⟩)]
    ⟨[⟨[97], .Tree, .oid 5⟩]⟩
    (by
      intro k t h
      simp only [Store.find?] at h
      by_cases h1 : ([] : PathKey) = k
      · rw [if_pos h1] at h
        injection h with h
        rw [← h]
        decide
      · rw [if_neg h1] at h
        by_cases h2 : ([97] : PathKey) = k
        · rw [if_pos h2] at h
          injection h with h
          rw [← h]
          decide
        · rw [if_neg h2] at h
          cases h)
    (by decide) rfl (ObjectId.oid 1)
    [([], ⟨[⟨[97], .Tree, .oid 1⟩]⟩)]
    [([97], ⟨[⟨[98], .Blob, .oid 7⟩]⟩), ([], ⟨[⟨[97], .Tree, .oid 1⟩]⟩)]
    (by decide)

/-! ### C8: upsert idempotence -/

/-- What one upsert iteration guarantees about its output cursor: at the last
component it stops having written the `(name, kind, id)` entry; at an
intermediate component it descends, the cursor now holding a tree-kind entry
named `name`. -/
theorem uorStep_upsert_char (cursor : Tree) (name : FName) (il : Bool) (k : EntryKind)
    (id : ObjectId) (nkit : Bool) (c2 : Tree) (ctl : StepCtl)
    (h : uorStep cursor name il (some (k, id)) nkit = (c2, ctl))
    (hg : GoodTree cursor) (hn : 47 ∉ name) (hnne : name ≠ []) (hnk : nkit = k.is_tree) :
    (il = true → ctl = .stop false ∧ (⟨name, k, id⟩ : TreeEntry) ∈ c2.entries) ∧
    (il = false → (∃ o, ctl = .descend o) ∧
      ∃ e ∈ c2.entries, e.filename = name ∧ e.mode.is_tree = true) := by
  have hsf : ∀ e ∈ cursor.entries, 47 ∉ e.filename := fun e he => (hg.2.1 e he).1
  rw [uorStep] at h
  cases hes : entrySearch cursor.entries name (!il || nkit) with
  | found idx =>
    simp only [hes] at h
    obtain ⟨e0, hged, hfn⟩ := entrySearch_found hsf hn hes
    have hentry : (cursor.entries.get? idx).getD default = e0 := by
      rw [hged]
      rfl
    simp only [hentry] at h
    by_cases hil : il = true
    · rw [if_pos hil] at h
      injection h with h1 h2
      constructor
      · intro _
        refine ⟨h2.symm, ?_⟩
        rw [← h1]
        have hin : (⟨name, k, id⟩ : TreeEntry)
            ∈ cursor.entries.set idx ⟨e0.filename, k, id⟩ := by
          rw [hfn]
          exact List.mem_set cursor.entries idx (get?_lt hged) _
        by_cases hns : (e0.mode.is_tree != (!il || nkit)) = true
        · rw [if_pos hns]
          exact ((sortEntries_perm _).mem_iff).mpr hin
        · rw [if_neg hns]
          exact hin
      · intro hf
        rw [hil] at hf
        cases hf
    · rw [if_neg hil] at h
      have hilf : il = false := by
        cases il
        · rfl
        · exact absurd rfl hil
      by_cases htree : e0.mode.is_tree
      · rw [if_pos htree] at h
        injection h with h1 h2
        constructor
        · intro hf
          rw [hilf] at hf
          cases hf
        · intro _
          refine ⟨⟨some e0.oid, h2.symm⟩, e0, ?_, hfn, htree⟩
          rw [← h1]
          exact List.get?_mem hged
      · rw [if_neg htree] at h
        injection h with h1 h2
        constructor
        · intro hf
          rw [hilf] at hf
          cases hf
        · intro _
          refine ⟨⟨none, h2.symm⟩, ⟨e0.filename, EntryKind.Tree, ObjectId.null⟩, ?_, hfn, rfl⟩
          rw [← h1]
          have hin : (⟨e0.filename, EntryKind.Tree, ObjectId.null⟩ : TreeEntry)
              ∈ cursor.entries.set idx ⟨e0.filename, EntryKind.Tree, ObjectId.null⟩ :=
            List.mem_set cursor.entries idx (get?_lt hged) _
          by_cases hns : (e0.mode.is_tree != (!il || nkit)) = true
          · rw [if_pos hns]
            exact ((sortEntries_perm _).mem_iff).mpr hin
          · rw [if_neg hns]
            exact hin
  | notFound ins =>
    simp only [hes] at h
    obtain ⟨hnomem, hle, hcl⟩ := entrySearch_notFound hg.1 hsf hn hes
    injection h with h1 h2
    constructor
    · intro hil
      subst hil
      constructor
      · rw [← h2]
        rfl
      · rw [← h1]
        simp only [if_pos rfl]
        exact ((insertIdx_perm _ _ _ hle).mem_iff).mpr (List.mem_cons_self _ _)
    · intro hil
      subst hil
      constructor
      · exact ⟨none, by
          rw [← h2, if_neg (show ¬ ((false : Bool) = true) by decide)]⟩
      · refine ⟨⟨name, EntryKind.Tree, ObjectId.null⟩, ?_, rfl, rfl⟩
        rw [← h1]
        have : (⟨name, if (false : Bool) = true then k else EntryKind.Tree,
            if (false : Bool) = true then id else ObjectId.null⟩ : TreeEntry)
            = ⟨name, EntryKind.Tree, ObjectId.null⟩ := by
          rw [if_neg (show ¬ ((false : Bool) = true) by decide),
            if_neg (show ¬ ((false : Bool) = true) by decide)]
        rw [← this]
        exact ((insertIdx_perm _ _ _ hle).mem_iff).mpr (List.mem_cons_self _ _)

/-- Re-running the last-component upsert step on a cursor that already holds
the exact `(name, kind, id)` entry is a no-op: no re-sort, the entry is
overwritten with itself. -/
theorem uorStep_upsert_again (c2 : Tree) (name : FName) (k : EntryKind) (id : ObjectId)
    (nkit : Bool) (hg : GoodTree c2) (hn : 47 ∉ name) (hnk : nkit = k.is_tree)
    (hmem : (⟨name, k, id⟩ : TreeEntry) ∈ c2.entries) :
    uorStep c2 name true (some (k, id)) nkit = (c2, .stop false) := by
  have hsf : ∀ e ∈ c2.entries, 47 ∉ e.filename := fun e he => (hg.2.1 e he).1
  rw [uorStep]
  cases hes : entrySearch c2.entries name (!true || nkit) with
  | notFound ins =>
    exfalso
    exact (entrySearch_notFound hg.1 hsf hn hes).1 _ hmem rfl
  | found idx =>
    simp only [hes]
    obtain ⟨e0, hged, hfn⟩ := entrySearch_found hsf hn hes
    have he0 : e0 = ⟨name, k, id⟩ :=
      mem_filename_unique hg.2.2 e0 (List.get?_mem hged) _ hmem hfn
    have hentry : (c2.entries.get? idx).getD default = (⟨name, k, id⟩ : TreeEntry) := by
      rw [hged, he0]
      rfl
    simp only [hentry]
    rw [if_pos trivial]
    have hns : (((⟨name, k, id⟩ : TreeEntry).mode.is_tree != (!true || nkit))) = false := by
      simp [hnk]
    rw [hns]
    rw [if_neg (show ¬ ((false : Bool) = true) by decide)]
    have hset : c2.entries.set idx ⟨name, k, id⟩ = c2.entries := by
      apply set_get?_self
      rw [hged, he0]
    rw [hset]

/-- Re-running an intermediate upsert step on a cursor that already holds a
tree-kind entry named `name` only reads that entry and descends. -/
theorem uorStep_descend_again (c2 : Tree) (name : FName) (k : EntryKind) (id : ObjectId)
    (nkit : Bool) (hg : GoodTree c2) (hn : 47 ∉ name) (hnk : nkit = k.is_tree)
    (e : TreeEntry) (hmem : e ∈ c2.entries) (hef : e.filename = name)
    (het : e.mode.is_tree = true) :
    uorStep c2 name false (some (k, id)) nkit = (c2, .descend (some e.oid)) := by
  have hsf : ∀ e ∈ c2.entries, 47 ∉ e.filename := fun e he => (hg.2.1 e he).1
  rw [uorStep]
  cases hes : entrySearch c2.entries name (!false || nkit) with
  | notFound ins =>
    exfalso
    exact (entrySearch_notFound hg.1 hsf hn hes).1 e hmem hef
  | found idx =>
    simp only [hes]
    obtain ⟨e0, hged, hfn⟩ := entrySearch_found hsf hn hes
    have he0 : e0 = e :=
      mem_filename_unique hg.2.2 e0 (List.get?_mem hged) e hmem (by rw [hfn, hef])
    have hentry : (c2.entries.get? idx).getD default = e := by
      rw [hged, he0]
      rfl
    simp only [hentry]
    rw [if_neg (show ¬ ((false : Bool) = true) by decide), if_pos het]

/-- `uorGo` only writes at the cursor key and below: any key that is not the
cursor key or a descendant of it keeps its binding. -/
theorem uorGo_frame (find : ObjectId → Option Tree) :
    ∀ (cs : List FName) (st : Store) (pathBuf : PathKey)
      (kai : Option (EntryKind × ObjectId)) (res : OpResult),
      GoodPath cs → uorGo find st pathBuf cs kai = some res →
      ∀ q, ¬ ancEq pathBuf q → Store.find? res.store q = Store.find? st q := by
  intro cs
  induction cs with
  | nil =>
    intro st pathBuf kai res _ h q _
    simp only [uorGo] at h
    injection h with h
    rw [← h]
  | cons name rest ih =>
    intro st pathBuf kai res hgp h q hq
    have hqne : pathBuf ≠ q := fun he => hq (he ▸ ancEq_refl q)
    have hname := hgp name (by simp)
    have hq' : ¬ ancEq (push_path_component pathBuf name) q := by
      intro hc
      exact hq (ancEq_trans (Or.inr (strictAnc_push pathBuf name hname.1)) hc)
    have hgp' : GoodPath rest := fun c hc => hgp c (by simp [hc])
    have hq'ne : push_path_component pathBuf name ≠ q :=
      fun he => hq' (he ▸ ancEq_refl q)
    simp only [uorGo] at h
    rcases hstep : uorStep ((Store.find? st pathBuf).getD Tree.default) name rest.isEmpty kai
      ((Option.map (fun ki => ki.1 == EntryKind.Tree) kai).getD false) with ⟨cursor2, ctl⟩
    rw [hstep] at h
    have hupd : Store.find? (Store.update st pathBuf cursor2) q = Store.find? st q := by
      rw [Store.find?_update, if_neg hqne]
    cases ctl with
    | stop removed =>
      injection h with h
      rw [← h]
      exact hupd
    | descend ttl =>
      cases hocc : Store.find? (Store.update st pathBuf cursor2)
          (push_path_component pathBuf name) with
      | some t1 =>
        have h' : uorGo find (Store.update st pathBuf cursor2)
            (push_path_component pathBuf name) rest kai = some res := by
          simpa only [hocc] using h
        rw [ih _ _ _ _ hgp' h' q hq']
        exact hupd
      | none =>
        cases httl : ttl.filter (fun tid => !tid.is_empty_tree) with
        | none =>
          have h' : uorGo find
              (Store.insert (Store.update st pathBuf cursor2)
                (push_path_component pathBuf name) Tree.default)
              (push_path_component pathBuf name) rest kai = some res := by
            simpa only [hocc, httl] using h
          rw [ih _ _ _ _ hgp' h' q hq', Store.find?_insert, if_neg hq'ne]
          exact hupd
        | some tid =>
          cases hfind : find tid with
          | none => exact absurd h (by simp [hocc, httl, hfind])
          | some t1 =>
            have h' : Option.map
                (fun r => OpResult.mk r.store ((push_path_component pathBuf name) :: r.fetched)
                  r.removed)
                (uorGo find
                  (Store.insert (Store.update st pathBuf cursor2)
                    (push_path_component pathBuf name) t1)
                  (push_path_component pathBuf name) rest kai) = some res := by
              simpa only [hocc, httl, hfind] using h
            cases hrec : uorGo find
                (Store.insert (Store.update st pathBuf cursor2)
                  (push_path_component pathBuf name) t1)
                (push_path_component pathBuf name) rest kai with
            | none =>
              rw [hrec] at h'
              cases h'
            | some r =>
              rw [hrec] at h'
              simp only [Option.map] at h'
              injection h' with h'
              rw [← h']
              rw [ih _ _ _ _ hgp' hrec q hq', Store.find?_insert, if_neg hq'ne]
              exact hupd

/-- `uorGo` never drops a key. -/
theorem uorGo_presence (find : ObjectId → Option Tree) :
    ∀ (cs : List FName) (st : Store) (pathBuf : PathKey)
      (kai : Option (EntryKind × ObjectId)) (res : OpResult),
      uorGo find st pathBuf cs kai = some res →
      ∀ q, Store.find? st q ≠ none → Store.find? res.store q ≠ none := by
  intro cs
  induction cs with
  | nil =>
    intro st pathBuf kai res h q hq
    simp only [uorGo] at h
    injection h with h
    rw [← h]
    exact hq
  | cons name rest ih =>
    intro st pathBuf kai res h q hq
    simp only [uorGo] at h
    rcases hstep : uorStep ((Store.find? st pathBuf).getD Tree.default) name rest.isEmpty kai
      ((Option.map (fun ki => ki.1 == EntryKind.Tree) kai).getD false) with ⟨cursor2, ctl⟩
    rw [hstep] at h
    have hupd : Store.find? (Store.update st pathBuf cursor2) q ≠ none := by
      rw [Store.find?_update]
      by_cases hpq : pathBuf = q
      · rw [if_pos hpq]
        simp
      · rw [if_neg hpq]
        exact hq
    have hins : ∀ t1, Store.find?
        (Store.insert (Store.update st pathBuf cursor2) (push_path_component pathBuf name) t1)
        q ≠ none := by
      intro t1
      rw [Store.find?_insert]
      by_cases hpq : push_path_component pathBuf name = q
      · rw [if_pos hpq]
        simp
      · rw [if_neg hpq]
        exact hupd
    cases ctl with
    | stop removed =>
      injection h with h
      rw [← h]
      exact hupd
    | descend ttl =>
      cases hocc : Store.find? (Store.update st pathBuf cursor2)
          (push_path_component pathBuf name) with
      | some t1 =>
        have h' : uorGo find (Store.update st pathBuf cursor2)
            (push_path_component pathBuf name) rest kai = some res := by
          simpa only [hocc] using h
        exact ih _ _ _ _ h' q hupd
      | none =>
        cases httl : ttl.filter (fun tid => !tid.is_empty_tree) with
        | none =>
          have h' : uorGo find
              (Store.insert (Store.update st pathBuf cursor2)
                (push_path_component pathBuf name) Tree.default)
              (push_path_component pathBuf name) rest kai = some res := by
            simpa only [hocc, httl] using h
          exact ih _ _ _ _ h' q (hins Tree.default)
        | some tid =>
          cases hfind : find tid with
          | none => exact absurd h (by simp [hocc, httl, hfind])
          | some t1 =>
            have h' : Option.map
                (fun r => OpResult.mk r.store ((push_path_component pathBuf name) :: r.fetched)
                  r.removed)
                (uorGo find
                  (Store.insert (Store.update st pathBuf cursor2)
                    (push_path_component pathBuf name) t1)
                  (push_path_component pathBuf name) rest kai) = some res := by
              simpa only [hocc, httl, hfind] using h
            cases hrec : uorGo find
                (Store.insert (Store.update st pathBuf cursor2)
                  (push_path_component pathBuf name) t1)
                (push_path_component pathBuf name) rest kai with
            | none =>
              rw [hrec] at h'
              cases h'
            | some r =>
              rw [hrec] at h'
              simp only [Option.map] at h'
              injection h' with h'
              rw [← h']
              exact ih _ _ _ _ hrec q (hins t1)

/-- Re-running an identical upsert immediately after the first run changes
nothing: its loop finds every level already in place, rewrites each cursor
binding with itself, fetches nothing, and removes nothing. -/
theorem uorGo_upsert_idem (find : ObjectId → Option Tree) (hfg : FindGood find)
    (k : EntryKind) (id : ObjectId) :
    ∀ (cs : List FName) (st : Store) (pathBuf : PathKey) (res : OpResult),
      StoreOk st → GoodPath cs → Store.find? st pathBuf ≠ none →
      uorGo find st pathBuf cs (some (k, id)) = some res →
      uorGo find res.store pathBuf cs (some (k, id)) = some ⟨res.store, [], false⟩ := by
  intro cs
  induction cs with
  | nil =>
    intro st pathBuf res _ _ _ _
    simp only [uorGo]
  | cons name rest ih =>
    intro st pathBuf res hok hgp hcur h
    obtain ⟨c1, hc1⟩ : ∃ c1, Store.find? st pathBuf = some c1 := by
      cases hf : Store.find? st pathBuf with
      | none => exact absurd hf hcur
      | some t => exact ⟨t, rfl⟩
    have hname := hgp name (by simp)
    have hgp' : GoodPath rest := fun c hc => hgp c (by simp [hc])
    have hcurg : GoodTree ((Store.find? st pathBuf).getD Tree.default) := by
      rw [hc1]
      exact hok.1 pathBuf c1 hc1
    simp only [uorGo] at h
    rcases hstep : uorStep ((Store.find? st pathBuf).getD Tree.default) name rest.isEmpty
      (some (k, id))
      ((Option.map (fun ki => ki.1 == EntryKind.Tree) (some (k, id))).getD false)
      with ⟨c2, ctl⟩
    rw [hstep] at h
    have hnkeq : ((Option.map (fun ki => ki.1 == EntryKind.Tree)
        (some (k, id))).getD false) = k.is_tree := by
      simp [beq_tree_is_tree]
    have hc2g : GoodTree c2 := uorStep_good _ name rest.isEmpty _ _ c2 ctl hstep hcurg
      hname.2 hname.1
      (by
        intro k2 i2 hk2
        injection hk2 with hk2
        injection hk2 with hka hkb
        subst hka
        exact hnkeq)
    have hchar := uorStep_upsert_char _ name rest.isEmpty k id _ c2 ctl hstep hcurg
      hname.2 hname.1 hnkeq
    have hok1 : StoreOk (Store.update st pathBuf c2) := StoreOk_update hok hcur hc2g
    have hup_pb : Store.find? (Store.update st pathBuf c2) pathBuf = some c2 := by
      rw [Store.find?_update, if_pos rfl]
    have hnanc : ¬ ancEq (push_path_component pathBuf name) pathBuf := by
      intro hc
      have h1 := ancEq_length hc
      have h2 := push_length pathBuf name hname.1
      omega
    have hne_pb : push_path_component pathBuf name ≠ pathBuf := by
      intro he
      apply hnanc
      rw [he]
      exact ancEq_refl _
    cases rest with
    | nil =>
      obtain ⟨hctl, hmem⟩ := hchar.1 rfl
      subst hctl
      injection h with h
      have hcur2 : Store.find? res.store pathBuf = some c2 := by
        rw [← h]
        exact hup_pb
      have hstep2 := uorStep_upsert_again c2 name k id
        ((Option.map (fun ki => ki.1 == EntryKind.Tree) (some (k, id))).getD false)
        hc2g hname.2 hnkeq hmem
      simp only [Option.getD] at hstep2
      simp only [uorGo, hcur2, Option.getD, List.isEmpty_nil, hstep2]
      rw [Store.update_self res.store pathBuf c2 hcur2]
    | cons r rs =>
      obtain ⟨⟨o, hctl⟩, e, hmem, hef, het⟩ := hchar.2 rfl
      subst hctl
      have hstep2 := uorStep_descend_again c2 name k id
        ((Option.map (fun ki => ki.1 == EntryKind.Tree) (some (k, id))).getD false)
        hc2g hname.2 hnkeq e hmem hef het
      simp only [Option.getD] at hstep2
      cases hocc : Store.find? (Store.update st pathBuf c2)
          (push_path_component pathBuf name) with
      | some t1 =>
        have hrec1 : uorGo find (Store.update st pathBuf c2)
            (push_path_component pathBuf name) (r :: rs) (some (k, id)) = some res := by
          simpa only [hocc] using h
        have hih := ih _ _ res hok1 hgp' (by rw [hocc]; simp) hrec1
        have hfr := uorGo_frame find (r :: rs) _ _ _ res hgp' hrec1
        have hcur2 : Store.find? res.store pathBuf = some c2 := by
          rw [hfr pathBuf hnanc]
          exact hup_pb
        obtain ⟨t2, ht2⟩ : ∃ t2, Store.find? res.store
            (push_path_component pathBuf name) = some t2 := by
          have := uorGo_presence find (r :: rs) _ _ _ res hrec1
            (push_path_component pathBuf name) (by rw [hocc]; simp)
          cases hf : Store.find? res.store (push_path_component pathBuf name) with
          | none => exact absurd hf this
          | some t2 => exact ⟨t2, rfl⟩
        simp only [uorGo, hcur2, Option.getD, List.isEmpty_cons, hstep2]
        rw [Store.update_self res.store pathBuf c2 hcur2]
        simp only [ht2]
        simp only [uorGo, ht2, Option.getD, List.isEmpty_cons] at hih
        exact hih
      | none =>
        cases httl : o.filter (fun tid => !tid.is_empty_tree) with
        | none =>
          have hrec1 : uorGo find
              (Store.insert (Store.update st pathBuf c2)
                (push_path_component pathBuf name) Tree.default)
              (push_path_component pathBuf name) (r :: rs) (some (k, id)) = some res := by
            simpa only [hocc, httl] using h
          have hok1b := StoreOk_insert hok1 hocc goodTree_default
            (push_ne_nil pathBuf name hname.1)
          have hih := ih _ _ res hok1b hgp'
            (by rw [Store.find?_insert, if_pos rfl]; simp) hrec1
          have hfr := uorGo_frame find (r :: rs) _ _ _ res hgp' hrec1
          have hcur2 : Store.find? res.store pathBuf = some c2 := by
            rw [hfr pathBuf hnanc, Store.find?_insert, if_neg hne_pb]
            exact hup_pb
          obtain ⟨t2, ht2⟩ : ∃ t2, Store.find? res.store
              (push_path_component pathBuf name) = some t2 := by
            have := uorGo_presence find (r :: rs) _ _ _ res hrec1
              (push_path_component pathBuf name)
              (by rw [Store.find?_insert, if_pos rfl]; simp)
            cases hf : Store.find? res.store (push_path_component pathBuf name) with
            | none => exact absurd hf this
            | some t2 => exact ⟨t2, rfl⟩
          simp only [uorGo, hcur2, Option.getD, List.isEmpty_cons, hstep2]
          rw [Store.update_self res.store pathBuf c2 hcur2]
          simp only [ht2]
          simp only [uorGo, ht2, Option.getD, List.isEmpty_cons] at hih
          exact hih
        | some tid =>
          cases hfind : find tid with
          | none => exact absurd h (by simp [hocc, httl, hfind])
          | some t1 =>
            have h' : Option.map
                (fun r2 => OpResult.mk r2.store
                  ((push_path_component pathBuf name) :: r2.fetched) r2.removed)
                (uorGo find
                  (Store.insert (Store.update st pathBuf c2)
                    (push_path_component pathBuf name) t1)
                  (push_path_component pathBuf name) (r :: rs) (some (k, id)))
                = some res := by
              simpa only [hocc, httl, hfind] using h
            cases hrec1 : uorGo find
                (Store.insert (Store.update st pathBuf c2)
                  (push_path_component pathBuf name) t1)
                (push_path_component pathBuf name) (r :: rs) (some (k, id)) with
            | none =>
              rw [hrec1] at h'
              cases h'
            | some r0 =>
              rw [hrec1] at h'
              simp only [Option.map] at h'
              injection h' with h'
              have hstore : res.store = r0.store := by
                rw [← h']
              have hok1b := StoreOk_insert hok1 hocc (hfg tid t1 hfind)
                (push_ne_nil pathBuf name hname.1)
              have hih := ih _ _ r0 hok1b hgp'
                (by rw [Store.find?_insert, if_pos rfl]; simp) hrec1
              have hfr := uorGo_frame find (r :: rs) _ _ _ r0 hgp' hrec1
              have hcur2 : Store.find? res.store pathBuf = some c2 := by
                rw [hstore, hfr pathBuf hnanc, Store.find?_insert, if_neg hne_pb]
                exact hup_pb
              obtain ⟨t2, ht2⟩ : ∃ t2, Store.find? res.store
                  (push_path_component pathBuf name) = some t2 := by
                have := uorGo_presence find (r :: rs) _ _ _ r0 hrec1
                  (push_path_component pathBuf name)
                  (by rw [Store.find?_insert, if_pos rfl]; simp)
                rw [← hstore] at this
                cases hf : Store.find? res.store (push_path_component pathBuf name) with
                | none => exact absurd hf this
                | some t2 => exact ⟨t2, rfl⟩
              simp only [uorGo, hcur2, Option.getD, List.isEmpty_cons, hstep2]
              rw [Store.update_self res.store pathBuf c2 hcur2]
              simp only [ht2]
              rw [hstore]
              have ht2b : Store.find? r0.store (push_path_component pathBuf name)
                  = some t2 := by
                rw [← hstore]
                exact ht2
              simp only [uorGo, ht2b, Option.getD, List.isEmpty_cons] at hih
              exact hih

/-- **C8.** On any editor state (the data-model invariant `StoreOk`, which
every reachable state satisfies) and any valid path, upserting `(p, k, id)`
twice in immediate succession yields exactly the store of a single upsert —
the second run finds every level in place and rewrites each binding with
itself — so a subsequent `write` with any (deterministic, pure) sink returns
the same final root identifier. -/
theorem C8_upsert_idempotent (find : ObjectId → Option Tree) (σ : Tree → ObjectId)
    (st : Store) (p : List FName) (k : EntryKind) (id : ObjectId)
    (st1 : Store) (f1 : List PathKey)
    (hfg : FindGood find) (hok : StoreOk st) (hp : GoodPath p)
    (h1 : applyOps find st [.up p k id] = some (st1, f1)) :
    ∃ st2 f2, applyOps find st [.up p k id, .up p k id] = some (st2, f2) ∧
      st2 = st1 ∧ write σ st2 = write σ st1 := by
  obtain ⟨rt0, hrt0⟩ := hok.2.2
  have hcur0 : Store.find? st [] ≠ none := by
    rw [hrt0]
    simp
  cases hgo : uorGo find st [] p (some (k, id)) with
  | none =>
    exfalso
    simp only [applyOps, applyOp, upsert, upsert_or_remove, hrt0, hgo, Option.map] at h1
    cases h1
  | some r =>
    simp only [applyOps, applyOp, upsert, upsert_or_remove, hrt0, hgo, Option.map] at h1
    injection h1 with h1
    injection h1 with hst hfe
    have hok1 : StoreOk r.store := uorGo_good find hfg p st [] (some (k, id)) r hok hp hcur0 hgo
    obtain ⟨rt1, hrt1⟩ := hok1.2.2
    have hidem := uorGo_upsert_idem find hfg k id p st [] r hok hp hcur0 hgo
    refine ⟨r.store, r.fetched ++ ([] ++ []), ?_, hst, by rw [hst]⟩
    simp only [applyOps, applyOp, upsert, upsert_or_remove, hrt0, hgo, hrt1, hidem,
      Option.map]

theorem C8_witness :
    ∃ st2 f2, applyOps (fun _ => none) [([], (⟨[]⟩ : Tree))]
        [.up [[97], [98]] .Blob (.oid 9), .up [[97], [98]] .Blob (.oid 9)]
        = some (st2, f2) ∧
      st2 = [([97], (⟨[⟨[98], .Blob, .oid 9⟩]⟩ : Tree)),
        ([], (⟨[⟨[97], .Tree, .null⟩]⟩ : Tree))] ∧
      write (fun t => ObjectId.oid t.entries.length) st2
        = write (fun t => ObjectId.oid t.entries.length)
            [([97], (⟨[⟨[98], .Blob, .oid 9⟩]⟩ : Tree)),
              ([], (⟨[⟨[97], .Tree, .null⟩]⟩ : Tree))] :=
  C8_upsert_idempotent (fun _ => none) (fun t => ObjectId.oid t.entries.length)
    [([], ⟨[]⟩)] [[97], [98]] .Blob (.oid 9)
    [([97], ⟨[⟨[98], .Blob, .oid 9⟩]⟩), ([], ⟨[⟨[97], .Tree, .null⟩]⟩)] []
    (by intro i t h; cases h)
    ⟨(by
      intro q t h
      simp only [Store.find?] at h
      by_cases h1 : ([] : PathKey) = q
      · rw [if_pos h1] at h
        injection h with h
        rw [← h]
        decide
      · rw [if_neg h1] at h
        cases h), (by decide), ⟨⟨[]⟩, rfl⟩⟩
    (by decide)
    (by decide)
